import Mathlib

/-!
# SEO score ranking by four sorting engines: a shallow embedding

The four programs `merge_sort.cpp`, `quick_sort.cpp`, `bitonic_sort.cpp` and
`rank_sort.cpp` are embedded as Lean functions on lists of records.

Conventions of the embedding.

* A `double` is an exact rational number (`ℚ`): keys come from a total order,
  there is no rounding and no NaN.
* A C++ `int` that holds an index or a count of records is an unbounded `Int`;
  the 32-bit range is never approached by the index arithmetic of a collection
  that fits in memory.  An `int` computed from a key (rank sort) is checked
  against the 32-bit range: a conversion or an addition that leaves it is
  undefined behaviour in the source and returns `none` here.
* `std::vector<CSVData>` is a `List CSVData`.  Reading or writing an element
  at an index outside `0 .. size-1` is undefined behaviour in the source; the
  embedding makes it observable: the operation returns `none`.
* Recursive functions and `while` loops take a `fuel : Nat` argument and
  return `none` when it is exhausted.  Loops with a trip count known on entry
  (`for` loops over an index range or over the collection) are folds.
* An OpenMP `parallel sections` block whose sections touch disjoint index
  ranges is executed section after section, in source order.
-/

namespace SEO

/-! ## Records and the scorer -/

/-- One row of the CSV file (the struct `CSVData`). -/
structure CSVData where
  siteLink : String
  optimizationOpportunities : ℚ
  keywordGaps : ℚ
  easyToRankKeywords : ℚ
  buyerKeywords : ℚ
  siteRank : ℚ
  dailyTimeOnSite : ℚ
deriving DecidableEq

/-- A value-initialised record: the empty string and six zeros, which is what
`std::vector<CSVData> v(n)` fills its `n` slots with. -/
instance : Inhabited CSVData := ⟨⟨"", 0, 0, 0, 0, 0, 0⟩⟩

/-- The sort key of every engine. -/
abbrev key (d : CSVData) : ℚ := d.optimizationOpportunities

/-- The function `calculateSEOScore`, the same text in all four programs. -/
def calculateSEOScore (data : CSVData) : ℚ :=
  let Weight_1 : ℚ := 25 / 100
  let Weight_2 : ℚ := 20 / 100
  let Weight_3 : ℚ := 15 / 100
  let Weight_4 : ℚ := 10 / 100
  let Weight_5 : ℚ := 20 / 100
  let Weight_6 : ℚ := 10 / 100
  ((data.optimizationOpportunities * Weight_1 + data.keywordGaps * Weight_2 +
      data.easyToRankKeywords * Weight_3 + data.buyerKeywords * Weight_4 +
      data.siteRank * Weight_5 + data.dailyTimeOnSite * Weight_6) /
    (Weight_1 + Weight_2 + Weight_3 + Weight_4 + Weight_5 + Weight_6)) * 100

/-! ## Indexed access with an `int` index -/

/-- The read `data[i]` for an `int` index: `none` outside `0 .. size-1`. -/
def readAt {α : Type} (data : List α) (i : Int) : Option α :=
  if 0 ≤ i then data[i.toNat]? else none

/-- The write `data[i] = x` for an `int` index: `none` outside `0 .. size-1`. -/
def writeAt {α : Type} (data : List α) (i : Int) (x : α) : Option (List α) :=
  if 0 ≤ i ∧ i < data.length then some (data.set i.toNat x) else none

/-- The call `std::swap(data[i], data[j])`. -/
def swapAt {α : Type} (data : List α) (i j : Int) : Option (List α) := do
  let a ← readAt data i
  let b ← readAt data j
  let d ← writeAt data i b
  writeAt d j a

/-! ## merge_sort.cpp -/

/-- The two copy loops of `merge`: `for (t = 0; t < n; t++) buf[t] = data[lo + t]`,
for a buffer `buf` constructed with `n` slots (`none` for a negative `n`). -/
def copyRange (data : List CSVData) (lo n : Int) : Option (List CSVData) :=
  if 0 ≤ n then (List.range n.toNat).mapM (fun (t : Nat) => readAt data (lo + t)) else none

/-- The first `while` loop of `merge`: `while (i < n1 && j < n2)`, taking from
`L` when `L[i].key <= R[j].key` and from `R` otherwise.  Returns the cursors
`(i, j, k)` and the collection at loop exit. -/
def mergeLoop (L R : List CSVData) (n1 n2 : Int) :
    Nat → Int → Int → Int → List CSVData → Option (Int × Int × Int × List CSVData)
  | 0, _, _, _, _ => none
  | fuel + 1, i, j, k, data =>
      if i < n1 ∧ j < n2 then
        (readAt L i).bind fun l =>
          (readAt R j).bind fun r =>
            if key l ≤ key r then
              (writeAt data k l).bind fun d => mergeLoop L R n1 n2 fuel (i + 1) j (k + 1) d
            else
              (writeAt data k r).bind fun d => mergeLoop L R n1 n2 fuel i (j + 1) (k + 1) d
      else some (i, j, k, data)

/-- The second and third `while` loop of `merge`:
`while (i < n) { data[k] = B[i]; i++; k++; }`.  Returns `k` and the collection. -/
def drainLoop (B : List CSVData) (n : Int) :
    Nat → Int → Int → List CSVData → Option (Int × List CSVData)
  | 0, _, _, _ => none
  | fuel + 1, i, k, data =>
      if i < n then
        (readAt B i).bind fun b =>
          (writeAt data k b).bind fun d => drainLoop B n fuel (i + 1) (k + 1) d
      else some (k, data)

/-- The function `merge(data, left, mid, right)`. -/
def merge (fuel : Nat) (data : List CSVData) (left mid right : Int) :
    Option (List CSVData) :=
  let n1 := mid - left + 1
  let n2 := right - mid
  (copyRange data left n1).bind fun L =>
    (copyRange data (mid + 1) n2).bind fun R =>
      (mergeLoop L R n1 n2 fuel 0 0 left data).bind fun (i, j, k, d1) =>
        (drainLoop L n1 fuel i k d1).bind fun (k2, d2) =>
          (drainLoop R n2 fuel j k2 d2).bind fun (_, d3) => some d3

/-- The function `mergeSort(data, left, right)`.  The two sections of the
`parallel sections` block work on the disjoint ranges `left .. mid` and
`mid+1 .. right`; `merge` runs after both. -/
def mergeSort : Nat → List CSVData → Int → Int → Option (List CSVData)
  | 0, _, _, _ => none
  | fuel + 1, data, left, right =>
      if left ≥ right then some data
      else
        let mid := left + (right - left).tdiv 2
        (mergeSort fuel data left mid).bind fun d1 =>
          (mergeSort fuel d1 (mid + 1) right).bind fun d2 =>
            merge fuel d2 left mid right

/-- The comparison `L[i].key <= R[j].key` of `merge`, as a Boolean function. -/
def keyLE (a b : CSVData) : Bool := decide (key a ≤ key b)

/-- Ascending order of the keys of a list of records. -/
def Ascending (l : List CSVData) : Prop := l.Pairwise (fun a b => key a ≤ key b)

/-- The list `out` is the stable ascending sort of `inp`: a permutation of it,
ascending by key, in which the records of every key value `v` stand in the order
they have in `inp`. -/
structure StableSortOf (out inp : List CSVData) : Prop where
  perm : out.Perm inp
  asc : Ascending out
  stable : ∀ v : ℚ, out.filter (fun d => decide (key d = v))
    = inp.filter (fun d => decide (key d = v))

/-- A record with the given name and key and zeros elsewhere. -/
def mkRecord (name : String) (k : ℚ) : CSVData := ⟨name, k, 0, 0, 0, 0, 0⟩

/-- The four records of the concrete scenario: keys 40, 10, 30, 20. -/
def sampleData : List CSVData :=
  [mkRecord "a" 40, mkRecord "b" 10, mkRecord "c" 30, mkRecord "d" 20]

/-- The six records of the counting-sort scenario: keys 0, 0, 3, 3, 3, 7. -/
def countingSample : List CSVData :=
  [mkRecord "a" 0, mkRecord "b" 0, mkRecord "c" 3, mkRecord "d" 3, mkRecord "e" 3,
    mkRecord "f" 7]

/-- Two records with the keys 3/2 and 1, which truncate to the same integer. -/
def fractionSample : List CSVData := [mkRecord "a" (3 / 2), mkRecord "b" 1]

/-! ## quick_sort.cpp -/

/-- The scan `while (data[i].key < pivot) i++`; returns the `i` it stops at. -/
def scanUp (data : List CSVData) (pivot : ℚ) : Nat → Int → Option Int
  | 0, _ => none
  | fuel + 1, i =>
      (readAt data i).bind fun x =>
        if key x < pivot then scanUp data pivot fuel (i + 1) else some i

/-- The scan `while (data[j].key > pivot) j--`; returns the `j` it stops at. -/
def scanDown (data : List CSVData) (pivot : ℚ) : Nat → Int → Option Int
  | 0, _ => none
  | fuel + 1, j =>
      (readAt data j).bind fun x =>
        if key x > pivot then scanDown data pivot fuel (j - 1) else some j

/-- The partition loop `while (i <= j) { scan up; scan down; if (i <= j) { swap; i++; j--; } }`
of `parallelQuicksort`.  Returns the collection and the cursors `i`, `j` at exit. -/
def partitionLoop (pivot : ℚ) : Nat → List CSVData → Int → Int → Option (List CSVData × Int × Int)
  | 0, _, _, _ => none
  | fuel + 1, data, i, j =>
      if i ≤ j then
        (scanUp data pivot fuel i).bind fun i1 =>
          (scanDown data pivot fuel j).bind fun j1 =>
            if i1 ≤ j1 then
              (swapAt data i1 j1).bind fun d => partitionLoop pivot fuel d (i1 + 1) (j1 - 1)
            else partitionLoop pivot fuel data i1 j1
      else some (data, i, j)

/-- The function `parallelQuicksort(data, left, right)`, its two sections executed
one after the other: first `(left, j)`, then `(i, right)`. -/
def parallelQuicksort : Nat → List CSVData → Int → Int → Option (List CSVData)
  | 0, _, _, _ => none
  | fuel + 1, data, left, right =>
      if left ≥ right then some data
      else
        (readAt data left).bind fun l =>
          (readAt data right).bind fun r =>
            let pivot := (key l + key r) / 2
            (partitionLoop pivot fuel data left right).bind fun (d, i, j) =>
              (parallelQuicksort fuel d left j).bind fun d1 =>
                parallelQuicksort fuel d1 i right

/-- The invariant of the partition loop of `parallelQuicksort`, at the loop test,
for the call on `left .. right` of the collection `data0` with pivot value `p`:
`data` is `data0` with elements of `left .. right` exchanged, the keys left of `i`
are at most `p`, the keys right of `j` are at least `p`, the cursors are inside
`left .. right + 1` and `left - 1 .. right`, while `i <= j` each scan has an element
to stop at, and both cursors have moved as soon as one has. -/
structure PartInv (data0 : List CSVData) (left right : Int) (p : ℚ)
    (data : List CSVData) (i j : Int) : Prop where
  len : data.length = data0.length
  perm : data.Perm data0
  frame : ∀ q : Int, q < left ∨ right < q → readAt data q = readAt data0 q
  low : ∀ (q : Int) (x : CSVData), left ≤ q → q < i → readAt data q = some x → key x ≤ p
  high : ∀ (q : Int) (x : CSVData), j < q → q ≤ right → readAt data q = some x → p ≤ key x
  i_lo : left ≤ i
  i_hi : i ≤ right + 1
  j_lo : left - 1 ≤ j
  j_hi : j ≤ right
  up : i ≤ j → ∃ (q : Int) (x : CSVData), i ≤ q ∧ q ≤ right ∧ readAt data q = some x ∧ p ≤ key x
  down : i ≤ j → ∃ (q : Int) (x : CSVData), left ≤ q ∧ q ≤ j ∧ readAt data q = some x ∧ key x ≤ p
  progress : (left < i ∧ j < right) ∨ (i = left ∧ j = right)

/-! ## bitonic_sort.cpp -/

/-- The body of the `for` loop of `bitonicMerge`:
`if ((data[i].key > data[i + k].key) == direction) std::swap(data[i], data[i + k]);`. -/
def compareSwap (data : List CSVData) (i k : Int) (direction : Bool) :
    Option (List CSVData) :=
  (readAt data i).bind fun a =>
    (readAt data (i + k)).bind fun b =>
      if decide (key a > key b) = direction then swapAt data i (i + k) else some data

/-- The loop `for (int i = start; i < start + k; i++)` of `bitonicMerge`: `k` iterations. -/
def bitonicMergeLoop (data : List CSVData) (start k : Int) (direction : Bool) :
    Option (List CSVData) :=
  (List.range k.toNat).foldlM
    (fun d (t : Nat) => compareSwap d (start + t) k direction) data

/-- The function `bitonicMerge(data, start, length, direction)`. -/
def bitonicMerge : Nat → List CSVData → Int → Int → Bool → Option (List CSVData)
  | 0, _, _, _, _ => none
  | fuel + 1, data, start, length, direction =>
      if length > 1 then
        let k := length.tdiv 2
        (bitonicMergeLoop data start k direction).bind fun d0 =>
          (bitonicMerge fuel d0 start k direction).bind fun d1 =>
            bitonicMerge fuel d1 (start + k) k direction
      else some data

/-- The function `bitonicSort(data, start, length, direction)`, its two sections
executed one after the other. -/
def bitonicSort : Nat → List CSVData → Int → Int → Bool → Option (List CSVData)
  | 0, _, _, _, _ => none
  | fuel + 1, data, start, length, direction =>
      if length > 1 then
        let k := length.tdiv 2
        (bitonicSort fuel data start k true).bind fun d1 =>
          (bitonicSort fuel d1 (start + k) k false).bind fun d2 =>
            bitonicMerge fuel d2 start length direction
      else some data

/-- The innermost loop of the driver in `main`:
`for (int i = 0; i < n; i += k) { bitonicSort(data, i, j, true); bitonicSort(data, i + j, j, false); }`,
its iterations executed in index order. -/
def driverLoopI (n k j : Int) : Nat → List CSVData → Int → Option (List CSVData)
  | 0, _, _ => none
  | fuel + 1, data, i =>
      if i < n then
        (bitonicSort fuel data i j true).bind fun d1 =>
          (bitonicSort fuel d1 (i + j) j false).bind fun d2 =>
            driverLoopI n k j fuel d2 (i + k)
      else some data

/-- The middle loop of the driver: `for (int j = k / 2; j > 0; j /= 2)`. -/
def driverLoopJ (n k : Int) : Nat → List CSVData → Int → Option (List CSVData)
  | 0, _, _ => none
  | fuel + 1, data, j =>
      if j > 0 then
        (driverLoopI n k j fuel data 0).bind fun d => driverLoopJ n k fuel d (j.tdiv 2)
      else some data

/-- The outer loop of the driver: `for (int k = 2; k <= n; k *= 2)`. -/
def driverLoopK (n : Int) : Nat → List CSVData → Int → Option (List CSVData)
  | 0, _, _ => none
  | fuel + 1, data, k =>
      if k ≤ n then
        (driverLoopJ n k fuel data (k.tdiv 2)).bind fun d => driverLoopK n fuel d (k * 2)
      else some data

/-- The sorting driver of `main` in the bitonic program: `int n = data.size();`
followed by the three nested loops. -/
def bitonicDriver (fuel : Nat) (data : List CSVData) : Option (List CSVData) :=
  driverLoopK (data.length : Int) fuel data 2

/-! ## rank_sort.cpp -/

/-- The largest value of the 32-bit type `int`. -/
def INT_MAX : Int := 2147483647

/-- The smallest value of the 32-bit type `int`. -/
def INT_MIN : Int := -2147483648

/-- The integer part of `x`: truncation toward zero. -/
def truncInt (x : ℚ) : Int := x.num.tdiv x.den

/-- The conversion `static_cast<int>(x)` of a `double`: the integer part of `x` when
that is a value of `int`; otherwise the conversion is undefined. -/
def staticCastInt (x : ℚ) : Option Int :=
  if INT_MIN ≤ truncInt x ∧ truncInt x ≤ INT_MAX then some (truncInt x) else none

/-- The sum `a + b` of two `int`: undefined when it is not a value of `int`. -/
def addInt (a b : Int) : Option Int :=
  if INT_MIN ≤ a + b ∧ a + b ≤ INT_MAX then some (a + b) else none

/-- The truncated key of a record: the histogram index
`static_cast<int>(d.optimizationOpportunities)` wherever the conversion is defined. -/
abbrev bucket (d : CSVData) : Int := truncInt (key d)

/-- The loop that finds `maxOptimizationOpportunities`, started from `0.0`. -/
def maxKey (data : List CSVData) : ℚ :=
  data.foldl (fun m d => if key d > m then key d else m) 0

/-- The histogram pass: `rank[static_cast<int>(d.key)]++` for every record `d`. -/
def histogram (rank : List Int) (data : List CSVData) : Option (List Int) :=
  data.foldlM
    (fun rk d =>
      (staticCastInt (key d)).bind fun b =>
        (readAt rk b).bind fun c => writeAt rk b (c + 1))
    rank

/-- The prefix-sum loop: `for (int i = 1; i < rank.size(); i++) rank[i] += rank[i - 1];`. -/
def prefixSum (rank : List Int) : Option (List Int) :=
  (List.range (rank.length - 1)).foldlM
    (fun rk (t : Nat) =>
      (readAt rk ((t : Int) + 1)).bind fun a =>
        (readAt rk ((t : Int) + 1 - 1)).bind fun b => writeAt rk ((t : Int) + 1) (a + b))
    rank

/-- The state of the placement pass: the output array `sortedData`, the array
`rank`, and (not in the program) the list of the slots written so far, newest
first. -/
structure PlaceState where
  sortedData : List CSVData
  rank : List Int
  slots : List Int

/-- One iteration of the placement loop, the body of its `critical` section:
`sortedData[rank[b] - 1] = data[i]; rank[b]--;` with `b = static_cast<int>(data[i].key)`. -/
def placeStep (data : List CSVData) (st : PlaceState) (i : Nat) : Option PlaceState :=
  (readAt data (i : Int)).bind fun d =>
    (staticCastInt (key d)).bind fun b =>
      (readAt st.rank b).bind fun c =>
        (writeAt st.sortedData (c - 1) d).bind fun sd =>
          (staticCastInt (key d)).bind fun b1 =>
            (readAt st.rank b1).bind fun c1 =>
              (writeAt st.rank b1 (c1 - 1)).bind fun rk =>
                some ⟨sd, rk, (c - 1) :: st.slots⟩

/-- The placement pass `for (int i = data.size() - 1; i >= 0; i--)`, its
iterations executed in loop order: the schedule of the `omp parallel for` in which
the loop runs as written.  The other schedules are given by `placeInOrder`. -/
def placeLoop (data : List CSVData) (st : PlaceState) : Option PlaceState :=
  (List.range data.length).reverse.foldlM (placeStep data) st

/-- The array `rank` after the histogram pass and the prefix-sum loop.  Its size
`static_cast<int>(maxOptimizationOpportunities) + 1` is computed in `int` and handed
to the constructor of `std::vector<int>`, which takes a `size_t`: a negative size
does not give an array. -/
def rankArray (data : List CSVData) : Option (List Int) :=
  (staticCastInt (maxKey data)).bind fun m =>
    (addInt m 1).bind fun size =>
      if 0 ≤ size then
        (histogram (List.replicate size.toNat 0) data).bind prefixSum
      else none

/-- The rank-sort passes of `main` up to the end of the placement loop, the
placement iterations in loop order. -/
def rankPlace (data : List CSVData) : Option PlaceState :=
  (rankArray data).bind fun rank =>
    placeLoop data ⟨List.replicate data.length default, rank, []⟩

/-- The rank-sort engine of `main`, the placement iterations in loop order: the
passes above and `data = sortedData`. -/
def rankSort (data : List CSVData) : Option (List CSVData) :=
  (rankPlace data).map fun st => st.sortedData

/-- The list `out` is the stable sort of `inp` by the truncated key: a
permutation of it, ascending by `static_cast<int>(key)`, in which the records of
every truncated key value `v` stand in the order they have in `inp`. -/
structure StableSortByBucket (out inp : List CSVData) : Prop where
  perm : out.Perm inp
  asc : out.Pairwise (fun a b => bucket a ≤ bucket b)
  stable : ∀ v : Int, out.filter (fun d => decide (bucket d = v))
    = inp.filter (fun d => decide (bucket d = v))

/-- The number of records of `l` whose truncated key is `v`. -/
def bucketCount (l : List CSVData) (v : Int) : Int :=
  (l.countP (fun d => decide (bucket d = v)) : Nat)

/-- The number of records of `l` whose truncated key is at most `v`. -/
def bucketCountLE (l : List CSVData) (v : Int) : Int :=
  (l.countP (fun d => decide (bucket d ≤ v)) : Nat)

/-- The array `rk` has `size` slots and holds `f v` in slot `v`. -/
def RankIs (rk : List Int) (size : Int) (f : Int → Int) : Prop :=
  (rk.length : Int) = size ∧ ∀ v : Int, 0 ≤ v → v < size → readAt rk v = some (f v)

/-- The invariant of the placement pass when the records `data[m ..]` have been
placed: `rank[v]` is the number of records with bucket at most `v` minus the
number of placed records of bucket `v`; the placed records of bucket `v` stand,
in input order, in the slots from `rank[v]` on; the slots written are distinct,
each inside the range of its bucket, and the `i`-th of them holds `data[m + i]`. -/
structure PlaceInv (data : List CSVData) (size : Int) (m : Nat) (st : PlaceState) : Prop where
  len : st.sortedData.length = data.length
  rank : RankIs st.rank size
    (fun v => bucketCountLE data v - bucketCount (data.drop m) v)
  content : ∀ v : Int, 0 ≤ v → v < size → ∀ u : Nat, (u : Int) < bucketCount (data.drop m) v →
    readAt st.sortedData (bucketCountLE data v - bucketCount (data.drop m) v + u)
      = ((data.drop m).filter (fun d => decide (bucket d = v)))[u]?
  slots_len : st.slots.length + m = data.length
  slots_nodup : st.slots.Nodup
  slots_range : ∀ s ∈ st.slots, ∃ v : Int, 0 ≤ v ∧ v < size
    ∧ bucketCountLE data v - bucketCount (data.drop m) v ≤ s ∧ s < bucketCountLE data v
  slots_data : ∀ (i : Nat) (s : Int), st.slots[i]? = some s →
    readAt st.sortedData s = data[m + i]?

/-- The records of `data` listed bucket by bucket, for the buckets `0 .. k-1`, each
bucket in input order. -/
def bucketList (data : List CSVData) (k : Nat) : List CSVData :=
  (List.range k).flatMap fun (v : Nat) => data.filter (fun d => decide (bucket d = (v : Int)))

/-- The function `calculateSEOScore` of `quick_sort.cpp`. -/
def calculateSEOScoreQuick (data : CSVData) : ℚ :=
  let Weight_1 : ℚ := 25 / 100
  let Weight_2 : ℚ := 20 / 100
  let Weight_3 : ℚ := 15 / 100
  let Weight_4 : ℚ := 10 / 100
  let Weight_5 : ℚ := 20 / 100
  let Weight_6 : ℚ := 10 / 100
  ((data.optimizationOpportunities * Weight_1 + data.keywordGaps * Weight_2 +
      data.easyToRankKeywords * Weight_3 + data.buyerKeywords * Weight_4 +
      data.siteRank * Weight_5 + data.dailyTimeOnSite * Weight_6) /
    (Weight_1 + Weight_2 + Weight_3 + Weight_4 + Weight_5 + Weight_6)) * 100

/-- The function `calculateSEOScore` of `bitonic_sort.cpp`. -/
def calculateSEOScoreBitonic (data : CSVData) : ℚ :=
  let Weight_1 : ℚ := 25 / 100
  let Weight_2 : ℚ := 20 / 100
  let Weight_3 : ℚ := 15 / 100
  let Weight_4 : ℚ := 10 / 100
  let Weight_5 : ℚ := 20 / 100
  let Weight_6 : ℚ := 10 / 100
  ((data.optimizationOpportunities * Weight_1 + data.keywordGaps * Weight_2 +
      data.easyToRankKeywords * Weight_3 + data.buyerKeywords * Weight_4 +
      data.siteRank * Weight_5 + data.dailyTimeOnSite * Weight_6) /
    (Weight_1 + Weight_2 + Weight_3 + Weight_4 + Weight_5 + Weight_6)) * 100

/-- The function `calculateSEOScore` of `rank_sort.cpp`. -/
def calculateSEOScoreRank (data : CSVData) : ℚ :=
  let Weight_1 : ℚ := 25 / 100
  let Weight_2 : ℚ := 20 / 100
  let Weight_3 : ℚ := 15 / 100
  let Weight_4 : ℚ := 10 / 100
  let Weight_5 : ℚ := 20 / 100
  let Weight_6 : ℚ := 10 / 100
  ((data.optimizationOpportunities * Weight_1 + data.keywordGaps * Weight_2 +
      data.easyToRankKeywords * Weight_3 + data.buyerKeywords * Weight_4 +
      data.siteRank * Weight_5 + data.dailyTimeOnSite * Weight_6) /
    (Weight_1 + Weight_2 + Weight_3 + Weight_4 + Weight_5 + Weight_6)) * 100

/-- Two records with the same key 1, in ascending order. -/
def tieSample : List CSVData := [mkRecord "a" 1, mkRecord "b" 1]

/-- Strictly ascending order of the keys of a list of records. -/
def StrictAscending (l : List CSVData) : Prop := l.Pairwise (fun a b => key a < key b)

/-! ## The sequential baseline -/

/-- The sequence of records printed by `main` of `quick_sort.cpp`:
`parallelQuicksort(data, 0, n - 1)`, then `std::sort(data.begin(), data.end(), cmp)` on
the same collection `data`, then the output loop over `data`.  The library function
`std::sort` is not code of the repository; it is the parameter `stdSort`. -/
def quickMain (stdSort : List CSVData → List CSVData) (fuel : Nat) (data : List CSVData) :
    Option (List CSVData) :=
  (parallelQuicksort fuel data 0 ((data.length : Int) - 1)).map stdSort

/-- A function that sorts by key: insertion sort, keeping records with equal keys
in their order.  It shows that the requirements on `std::sort` are met by some
function. -/
def sortByKey (l : List CSVData) : List CSVData :=
  l.insertionSort (fun a b => key a ≤ key b)

/-! ## The placement pass of rank sort under a schedule -/

/-- The placement pass with its iterations executed one at a time, each one whole
(its `critical` section), in the order given by the list `order` of loop indices. -/
def placeInOrder (data : List CSVData) (order : List Nat) (st : PlaceState) :
    Option PlaceState :=
  order.foldlM (placeStep data) st

/-- The rank-sort engine with the iterations of the placement pass executed in the
order `order`. -/
def rankSortInOrder (data : List CSVData) (order : List Nat) : Option (List CSVData) :=
  (rankArray data).bind fun rank =>
    (placeInOrder data order ⟨List.replicate data.length default, rank, []⟩).map
      fun st => st.sortedData

/-- The rank-sort passes up to the end of the placement loop, with the iterations
of the placement pass executed in the order `order`. -/
def rankPlaceInOrder (data : List CSVData) (order : List Nat) : Option PlaceState :=
  (rankArray data).bind fun rank =>
    placeInOrder data order ⟨List.replicate data.length default, rank, []⟩

/-- The sequence of records printed by `main` of `rank_sort.cpp`: the rank-sort
passes (placement iterations in the order `order`) with `data = sortedData`, then
`std::sort(data.begin(), data.end(), cmp)` on `data`, then the output loop.  The
library function `std::sort` is the parameter `stdSort`. -/
def rankMain (stdSort : List CSVData → List CSVData) (order : List Nat) (data : List CSVData) :
    Option (List CSVData) :=
  (rankSortInOrder data order).map stdSort

/-- One record with the key 2147483647, the largest `int`. -/
def bigKeySample : List CSVData := [mkRecord "a" 2147483647]

/-- Four records with the integral keys 3, 0, 7, 3. -/
def mixedSample : List CSVData :=
  [mkRecord "a" 3, mkRecord "b" 0, mkRecord "c" 7, mkRecord "d" 3]

/-- Five records with the keys 50, 40, 30, 20, 10. -/
def fiveSample : List CSVData :=
  [mkRecord "a" 50, mkRecord "b" 40, mkRecord "c" 30, mkRecord "d" 20, mkRecord "e" 10]

/-- Four records with the same key 1. -/
def fourTies : List CSVData :=
  [mkRecord "a" 1, mkRecord "b" 1, mkRecord "c" 1, mkRecord "d" 1]

/-! ## Bitonic sort: notions for the correctness proof -/

/-- The order a direction flag asks for: ascending keys for `true`, descending
keys for `false`. -/
def leDir (dir : Bool) (x y : CSVData) : Prop :=
  if dir then key x ≤ key y else key y ≤ key x

/-- The record `x` lies strictly beyond the threshold `t` in the order of `dir`. -/
def aboveDir (dir : Bool) (t : ℚ) (x : CSVData) : Prop :=
  if dir then t < key x else key x < t

/-- The record that `compareSwap` leaves at the lower index `i`. -/
def cmpLo (dir : Bool) (a b : CSVData) : CSVData :=
  if decide (key a > key b) = dir then b else a

/-- The record that `compareSwap` leaves at the upper index `i + k`. -/
def cmpHi (dir : Bool) (a b : CSVData) : CSVData :=
  if decide (key a > key b) = dir then a else b

/-- The element at an `int` index, `default` outside the collection; used in
statements only, for indices that are inside. -/
def getAt (d : List CSVData) (q : Int) : CSVData := (readAt d q).getD default

/-- The positions `s .. s + n - 1` of `d` are in the order of `dir`. -/
def SortedOn (dir : Bool) (d : List CSVData) (s n : Int) : Prop :=
  ∀ q q' : Int, s ≤ q → q < q' → q' < s + n → leDir dir (getAt d q) (getAt d q')

/-- The predicate `P` holds, within `s .. s + n - 1`, exactly on an interval or
exactly off an interval: on an arc of the positions arranged in a circle. -/
def IsArc (P : Int → Prop) (s n : Int) : Prop :=
  ∃ a b : Int, s ≤ a ∧ a ≤ b ∧ b ≤ s + n ∧
    ((∀ q : Int, s ≤ q → q < s + n → (P q ↔ (a ≤ q ∧ q < b)))
      ∨ (∀ q : Int, s ≤ q → q < s + n → (P q ↔ ¬ (a ≤ q ∧ q < b))))

/-- The positions `s .. s + n - 1` of `d` hold a bitonic sequence: for every
threshold the positions whose record lies beyond it form an arc. -/
def BitonicOn (dir : Bool) (d : List CSVData) (s n : Int) : Prop :=
  ∀ t : ℚ, IsArc (fun q => aboveDir dir t (getAt d q)) s n

/-! ## quick_sort.cpp: the scans with the indices they read -/

/-- The scan `while (data[i].key < pivot) i++` as `scanUp`, with every index at
which it evaluates `data[i]` added to the list `tr` (latest first). -/
def scanUpTrace (data : List CSVData) (pivot : ℚ) : Nat → Int → List Int → Option (Int × List Int)
  | 0, _, _ => none
  | fuel + 1, i, tr =>
      (readAt data i).bind fun x =>
        if key x < pivot then scanUpTrace data pivot fuel (i + 1) (i :: tr) else some (i, i :: tr)

/-- The scan `while (data[j].key > pivot) j--` as `scanDown`, with every index at
which it evaluates `data[j]` added to the list `tr` (latest first). -/
def scanDownTrace (data : List CSVData) (pivot : ℚ) : Nat → Int → List Int → Option (Int × List Int)
  | 0, _, _ => none
  | fuel + 1, j, tr =>
      (readAt data j).bind fun x =>
        if key x > pivot then scanDownTrace data pivot fuel (j - 1) (j :: tr) else some (j, j :: tr)

/-- The partition loop of `parallelQuicksort` as `partitionLoop`, returning in
addition the list of the indices read by the two scans in all its iterations. -/
def partitionLoopTrace (pivot : ℚ) :
    Nat → List CSVData → Int → Int → List Int → Option (List CSVData × Int × Int × List Int)
  | 0, _, _, _, _ => none
  | fuel + 1, data, i, j, tr =>
      if i ≤ j then
        (scanUpTrace data pivot fuel i tr).bind fun (i1, tr1) =>
          (scanDownTrace data pivot fuel j tr1).bind fun (j1, tr2) =>
            if i1 ≤ j1 then
              (swapAt data i1 j1).bind fun d =>
                partitionLoopTrace pivot fuel d (i1 + 1) (j1 - 1) tr2
            else partitionLoopTrace pivot fuel data i1 j1 tr2
      else some (data, i, j, tr)

/-! ## bitonic_sort.cpp: the driver with the calls it issues -/

/-- The loop `driverLoopI`, with the pair `(start, length)` of every call of
`bitonicSort` it issues added to the list `calls` (latest first). -/
def driverLoopITrace (n k j : Int) :
    Nat → List CSVData → Int → List (Int × Int) → Option (List CSVData × List (Int × Int))
  | 0, _, _, _ => none
  | fuel + 1, data, i, calls =>
      if i < n then
        (bitonicSort fuel data i j true).bind fun d1 =>
          (bitonicSort fuel d1 (i + j) j false).bind fun d2 =>
            driverLoopITrace n k j fuel d2 (i + k) ((i + j, j) :: (i, j) :: calls)
      else some (data, calls)

/-- The loop `driverLoopJ`, with the calls of `bitonicSort` issued. -/
def driverLoopJTrace (n k : Int) :
    Nat → List CSVData → Int → List (Int × Int) → Option (List CSVData × List (Int × Int))
  | 0, _, _, _ => none
  | fuel + 1, data, j, calls =>
      if j > 0 then
        (driverLoopITrace n k j fuel data 0 calls).bind fun (d, calls1) =>
          driverLoopJTrace n k fuel d (j.tdiv 2) calls1
      else some (data, calls)

/-- The loop `driverLoopK`, with the calls of `bitonicSort` issued. -/
def driverLoopKTrace (n : Int) :
    Nat → List CSVData → Int → List (Int × Int) → Option (List CSVData × List (Int × Int))
  | 0, _, _, _ => none
  | fuel + 1, data, k, calls =>
      if k ≤ n then
        (driverLoopJTrace n k fuel data (k.tdiv 2) calls).bind fun (d, calls1) =>
          driverLoopKTrace n fuel d (k * 2) calls1
      else some (data, calls)

/-- The driver `bitonicDriver`, returning in addition the list of the pairs
`(start, length)` of the calls of `bitonicSort` it issued (latest first). -/
def bitonicDriverTrace (fuel : Nat) (data : List CSVData) :
    Option (List CSVData × List (Int × Int)) :=
  driverLoopKTrace (data.length : Int) fuel data 2 []

/-- The range of the call `c = (start, length)` on a collection of length `n` is not
empty, has at most `n / 2` positions, and lies inside `0 .. n/2 - 1` or inside
`n/2 .. n - 1`. -/
def InOneHalf (n : Int) (c : Int × Int) : Prop :=
  0 < c.2 ∧ c.2 ≤ n / 2
    ∧ ((0 ≤ c.1 ∧ c.1 + c.2 ≤ n / 2) ∨ (n / 2 ≤ c.1 ∧ c.1 + c.2 ≤ n))

/-- The collection `d'` has the length of `d` and each of its two parts, the first
`h` positions and the rest, holds the records of that part of `d`. -/
def SameHalves (h : Nat) (d d' : List CSVData) : Prop :=
  d'.length = d.length ∧ (d'.take h).Perm (d.take h) ∧ (d'.drop h).Perm (d.drop h)

/-! ## Lemmas on indexed access -/

theorem readAt_natCast {α : Type} (data : List α) (n : Nat) :
    readAt data (n : Int) = data[n]? := by
  simp [readAt]

theorem writeAt_natCast {α : Type} (data : List α) (n : Nat) (x : α)
    (h : n < data.length) : writeAt data (n : Int) x = some (data.set n x) := by
  simp [writeAt, h]

theorem writeAt_append_cons {α : Type} (pre post : List α) (o x : α) :
    writeAt (pre ++ o :: post) (pre.length : Int) x = some (pre ++ x :: post) := by
  rw [writeAt_natCast _ _ _ (by simp)]
  simp

/-! ## Lemmas on indexed access, pointwise -/

theorem writeAt_length {α : Type} (l l' : List α) (i : Int) (x : α)
    (h : writeAt l i x = some l') : l'.length = l.length := by
  unfold writeAt at h
  split at h
  · cases h; simp
  · cases h

theorem readAt_writeAt {α : Type} (l l' : List α) (i : Int) (x : α)
    (h : writeAt l i x = some l') (q : Int) :
    readAt l' q = if q = i then some x else readAt l q := by
  unfold writeAt at h
  split at h
  · rename_i hi
    cases h
    unfold readAt
    by_cases hq : 0 ≤ q
    · rw [if_pos hq, if_pos hq, List.getElem?_set]
      by_cases hqi : q = i
      · subst hqi
        rw [if_pos rfl, if_pos rfl, if_pos (by omega)]
      · rw [if_neg hqi, if_neg (by omega)]
    · rw [if_neg hq, if_neg hq, if_neg (by omega)]
  · cases h

theorem writeAt_some {α : Type} (l : List α) (i : Int) (x : α) (h0 : 0 ≤ i)
    (h1 : i < l.length) : ∃ l', writeAt l i x = some l' :=
  ⟨_, by rw [writeAt, if_pos ⟨h0, h1⟩]⟩

theorem readAt_some {α : Type} (l : List α) (i : Int) (h0 : 0 ≤ i) (h1 : i < l.length) :
    ∃ x, readAt l i = some x := by
  have hlt : i.toNat < l.length := by omega
  exact ⟨l[i.toNat], by rw [readAt, if_pos h0]; exact List.getElem?_eq_getElem hlt⟩

theorem readAt_bounds {α : Type} (l : List α) (i : Int) (x : α) (h : readAt l i = some x) :
    0 ≤ i ∧ i < l.length := by
  unfold readAt at h
  split at h
  · rename_i h0
    have := (List.getElem?_eq_some_iff.1 h).1
    omega
  · cases h

/-! ## Merge sort: the loops of `merge` -/

theorem copyRange_aux (data : List CSVData) (lo : Nat) :
    ∀ (n s : Nat), lo + s + n ≤ data.length →
      (List.range' s n).mapM (fun (t : Nat) => readAt data ((lo : Int) + t))
        = some ((data.drop (lo + s)).take n) := by
  intro n
  induction n with
  | zero => intro s _; rfl
  | succ n ih =>
    intro s h
    have hlt : lo + s < data.length := by omega
    have e1 : readAt data ((lo : Int) + (s : Int)) = some (data[lo + s]) := by
      have : ((lo : Int) + (s : Int)) = ((lo + s : Nat) : Int) := by push_cast; rfl
      rw [this, readAt_natCast]
      exact List.getElem?_eq_getElem hlt
    have e2 := ih (s + 1) (by omega)
    rw [List.range'_succ, List.mapM_cons, e1, e2]
    have e3 : List.drop (lo + s) data = data[lo + s] :: List.drop (lo + (s + 1)) data := by
      rw [← Nat.add_assoc]; exact List.drop_eq_getElem_cons hlt
    rw [e3]
    rfl

theorem copyRange_eq (data : List CSVData) (lo n : Nat) (h : lo + n ≤ data.length) :
    copyRange data (lo : Int) (n : Int) = some ((data.drop lo).take n) := by
  have := copyRange_aux data lo n 0 (by omega)
  simp only [copyRange, Int.toNat_ofNat, List.range_eq_range']
  simpa using this

theorem drainLoop_eq (B : List CSVData) :
    ∀ (fuel i : Nat) (pre old post : List CSVData),
      i + old.length = B.length → old.length + 1 ≤ fuel →
      drainLoop B (B.length : Int) fuel (i : Int) (pre.length : Int) (pre ++ old ++ post)
        = some (((pre.length + old.length : Nat) : Int), pre ++ B.drop i ++ post) := by
  intro fuel
  induction fuel with
  | zero => intro i pre old post _ h; omega
  | succ fuel ih =>
    intro i pre old post hlen hf
    cases old with
    | nil =>
      have hi : i = B.length := by simpa using hlen
      subst hi
      simp [drainLoop]
    | cons o old =>
      have hi : i < B.length := by simp at hlen; omega
      have hr : readAt B (i : Int) = some B[i] := by
        rw [readAt_natCast]; exact List.getElem?_eq_getElem hi
      have hw : writeAt (pre ++ o :: old ++ post) (pre.length : Int) B[i]
          = some (pre ++ B[i] :: (old ++ post)) := by
        simpa using writeAt_append_cons pre (old ++ post) o B[i]
      have hrec := ih (i + 1) (pre ++ [B[i]]) old post (by simp at hlen ⊢; omega)
        (by simp at hf ⊢; omega)
      have hd : B.drop i = B[i] :: B.drop (i + 1) := List.drop_eq_getElem_cons hi
      rw [drainLoop, if_pos (by exact_mod_cast hi), hr, Option.some_bind, hw, Option.some_bind, hd]
      rw [show ((i : Int) + 1) = ((i + 1 : Nat) : Int) by push_cast; rfl,
        show ((pre.length : Int) + 1) = ((pre ++ [B[i]]).length : Int) by simp,
        show pre ++ B[i] :: (old ++ post) = pre ++ [B[i]] ++ old ++ post by simp, hrec]
      simp only [List.length_append, List.length_singleton, List.length_cons, List.append_assoc,
        List.singleton_append, Option.some.injEq, Prod.mk.injEq, and_true]
      simp only [List.length_nil]; push_cast; ring

theorem drainLoop_done (B : List CSVData) (fuel : Nat) (k : Int) (data : List CSVData)
    (hf : 1 ≤ fuel) :
    drainLoop B (B.length : Int) fuel (B.length : Int) k data = some (k, data) := by
  cases fuel with
  | zero => omega
  | succ fuel => simp [drainLoop]

theorem merge_drop_left (L R : List CSVData) (i j : Nat) (hi : i < L.length)
    (hj : j < R.length) (h : key L[i] ≤ key R[j]) :
    List.merge (L.drop i) (R.drop j) keyLE
      = L[i] :: List.merge (L.drop (i + 1)) (R.drop j) keyLE := by
  rw [List.drop_eq_getElem_cons hi, List.drop_eq_getElem_cons hj,
    List.cons_merge_cons_pos _ _ _ (by simpa [keyLE] using h)]

theorem merge_drop_right (L R : List CSVData) (i j : Nat) (hi : i < L.length)
    (hj : j < R.length) (h : ¬ key L[i] ≤ key R[j]) :
    List.merge (L.drop i) (R.drop j) keyLE
      = R[j] :: List.merge (L.drop i) (R.drop (j + 1)) keyLE := by
  rw [List.drop_eq_getElem_cons hi, List.drop_eq_getElem_cons hj,
    List.cons_merge_cons_neg _ _ _ (by simpa [keyLE] using h)]

/-- The three loops of `merge`, started with cursors `i`, `j` and write cursor
`k = pre.length`, overwrite the next `(|L| - i) + (|R| - j)` slots with the merge
of what is left of `L` and `R`. -/
theorem mergeLoops_eq (L R : List CSVData) (f2 : Nat) :
    ∀ (f1 i j : Nat) (pre old post : List CSVData),
      i ≤ L.length → j ≤ R.length → old.length = (L.length - i) + (R.length - j) →
      old.length + 1 ≤ f1 → old.length + 1 ≤ f2 →
      ((mergeLoop L R (L.length : Int) (R.length : Int) f1 (i : Int) (j : Int)
          (pre.length : Int) (pre ++ old ++ post)).bind fun (i', j', k, d1) =>
        (drainLoop L (L.length : Int) f2 i' k d1).bind fun (k2, d2) =>
          (drainLoop R (R.length : Int) f2 j' k2 d2).bind fun (_, d3) => some d3)
        = some (pre ++ List.merge (L.drop i) (R.drop j) keyLE ++ post) := by
  intro f1
  induction f1 with
  | zero => intro i j pre old post _ _ _ h; omega
  | succ f1 ih =>
    intro i j pre old post hi hj hlen hf1 hf2
    by_cases hc : i < L.length ∧ j < R.length
    · obtain ⟨hi', hj'⟩ := hc
      cases old with
      | nil => simp at hlen; omega
      | cons o old =>
        have hrl : readAt L (i : Int) = some L[i] := by
          rw [readAt_natCast]; exact List.getElem?_eq_getElem hi'
        have hrr : readAt R (j : Int) = some R[j] := by
          rw [readAt_natCast]; exact List.getElem?_eq_getElem hj'
        have hw : ∀ x, writeAt (pre ++ o :: old ++ post) (pre.length : Int) x
            = some (pre ++ [x] ++ old ++ post) := by
          intro x
          simpa using writeAt_append_cons pre (old ++ post) o x
        have hcond : ((i : Int) < (L.length : Int) ∧ (j : Int) < (R.length : Int)) := by
          exact ⟨by exact_mod_cast hi', by exact_mod_cast hj'⟩
        have hk : ∀ x, ((pre.length : Int) + 1) = ((pre ++ [x]).length : Int) := by
          intro x; simp
        rw [mergeLoop, if_pos hcond, hrl, Option.some_bind, hrr, Option.some_bind]
        by_cases hkey : key L[i] ≤ key R[j]
        · rw [if_pos hkey, hw, Option.some_bind, hk L[i],
            show ((i : Int) + 1) = ((i + 1 : Nat) : Int) by push_cast; rfl,
            ih (i + 1) j (pre ++ [L[i]]) old post (by omega) hj
              (by simp at hlen ⊢; omega) (by simp at hf1 ⊢; omega) (by simp at hf2 ⊢; omega),
            merge_drop_left L R i j hi' hj' hkey]
          simp
        · rw [if_neg hkey, hw, Option.some_bind, hk R[j],
            show ((j : Int) + 1) = ((j + 1 : Nat) : Int) by push_cast; rfl,
            ih i (j + 1) (pre ++ [R[j]]) old post hi (by omega)
              (by simp at hlen ⊢; omega) (by simp at hf1 ⊢; omega) (by simp at hf2 ⊢; omega),
            merge_drop_right L R i j hi' hj' hkey]
          simp
    · have hcond : ¬ ((i : Int) < (L.length : Int) ∧ (j : Int) < (R.length : Int)) := by
        intro ⟨h1, h2⟩
        exact hc ⟨by exact_mod_cast h1, by exact_mod_cast h2⟩
      rw [mergeLoop, if_neg hcond, Option.some_bind]
      dsimp only
      by_cases hiL : i = L.length
      · subst hiL
        have hd := drainLoop_eq R f2 j pre old post (by omega) hf2
        rw [drainLoop_done L f2 _ _ (by omega), Option.some_bind]
        dsimp only
        rw [hd, Option.some_bind]
        simp
      · have hjR : j = R.length := by omega
        subst hjR
        have hd := drainLoop_eq L f2 i pre old post (by omega) hf2
        rw [hd, Option.some_bind]
        dsimp only
        rw [drainLoop_done R f2 _ _ (by omega), Option.some_bind]
        simp

theorem tdiv_two_natCast (m : Nat) : ((m : Int)).tdiv 2 = ((m / 2 : Nat) : Int) := by
  rw [Int.tdiv_eq_ediv (by omega) (by omega)]
  omega

/-- The function `merge` on a collection `pre ++ A ++ B ++ post`, called with
`left = |pre|`, `mid = left + |A| - 1` and `right = mid + |B|`, replaces `A ++ B` by
its merge.  It needs `|A| + |B| + 1` units of fuel. -/
theorem merge_eq (fuel : Nat) (pre A B post : List CSVData) (left mid right : Int)
    (hl : left = pre.length) (hm : mid = left + A.length - 1) (hr : right = mid + B.length)
    (hf : A.length + B.length + 1 ≤ fuel) :
    merge fuel (pre ++ A ++ B ++ post) left mid right
      = some (pre ++ List.merge A B keyLE ++ post) := by
  have hn1 : mid - left + 1 = (A.length : Int) := by omega
  have hn2 : right - mid = (B.length : Int) := by omega
  have hm1 : mid + 1 = ((pre.length + A.length : Nat) : Int) := by push_cast; omega
  have hcL : copyRange (pre ++ A ++ B ++ post) (pre.length : Int) (A.length : Int) = some A := by
    rw [copyRange_eq _ _ _ (by simp)]
    simp [List.append_assoc]
  have hcR : copyRange (pre ++ A ++ B ++ post) ((pre.length + A.length : Nat) : Int)
      (B.length : Int) = some B := by
    rw [copyRange_eq _ _ _ (by simp; omega)]
    rw [show pre ++ A ++ B ++ post = (pre ++ A) ++ (B ++ post) by simp,
      List.drop_append_of_le_length (by simp), List.drop_of_length_le (by simp)]
    simp
  have hloops := mergeLoops_eq A B fuel fuel 0 0 pre (A ++ B) post (by omega) (by omega)
    (by simp) (by simp; omega) (by simp; omega)
  simp only [merge, hn1, hn2, hm1]
  rw [hl, hcL, Option.some_bind, hcR, Option.some_bind]
  simpa [List.append_assoc] using hloops

/-! ## Merge sort: the specification of a stable ascending sort -/

theorem stableSortOf_short (seg : List CSVData) (h : seg.length ≤ 1) :
    StableSortOf seg seg := by
  refine ⟨List.Perm.refl _, ?_, fun _ => rfl⟩
  match seg, h with
  | [], _ => exact List.Pairwise.nil
  | [a], _ => exact List.pairwise_singleton _ a

theorem keyLE_trans (a b c : CSVData) (h1 : keyLE a b = true) (h2 : keyLE b c = true) :
    keyLE a c = true := by
  simp only [keyLE, decide_eq_true_eq] at *
  exact le_trans h1 h2

theorem keyLE_total (a b : CSVData) : (keyLE a b || keyLE b a) = true := by
  simp only [keyLE, Bool.or_eq_true, decide_eq_true_eq]
  exact le_total _ _

theorem ascending_iff (l : List CSVData) :
    Ascending l ↔ l.Pairwise (fun a b => keyLE a b = true) := by
  simp [Ascending, keyLE]

theorem ascending_merge (A B : List CSVData) (hA : Ascending A) (hB : Ascending B) :
    Ascending (List.merge A B keyLE) := by
  rw [ascending_iff] at *
  exact List.sorted_merge keyLE_trans keyLE_total A B hA hB

/-- Taking from the left list on a tie keeps the records of one key value in
order: those of `A` first, then those of `B`. -/
theorem filter_merge (v : ℚ) :
    ∀ (A B : List CSVData), Ascending A →
      (List.merge A B keyLE).filter (fun d => decide (key d = v))
        = A.filter (fun d => decide (key d = v)) ++ B.filter (fun d => decide (key d = v)) := by
  intro A
  induction A with
  | nil => intro B _; simp
  | cons a A ihA =>
    intro B hA
    induction B with
    | nil => simp
    | cons b B ihB =>
      by_cases h : key a ≤ key b
      · rw [List.cons_merge_cons_pos _ _ _ (by simpa [keyLE] using h), List.filter_cons,
          ihA (b :: B) (List.Pairwise.of_cons hA)]
        by_cases ha : key a = v <;> simp [List.filter_cons, ha]
      · rw [List.cons_merge_cons_neg _ _ _ (by simpa [keyLE] using h), List.filter_cons, ihB]
        by_cases hb : key b = v
        · have hnone : (a :: A).filter (fun d => decide (key d = v)) = [] := by
            rw [List.filter_eq_nil_iff]
            intro x hx
            have hax : key a ≤ key x := by
              rcases List.mem_cons.1 hx with rfl | hx'
              · exact le_refl _
              · exact List.rel_of_pairwise_cons hA hx'
            have : key b < key x := lt_of_lt_of_le (not_le.1 h) hax
            simp only [decide_eq_true_eq]
            intro hxv
            rw [hxv, ← hb] at this
            exact lt_irrefl _ this
          rw [hnone]
          simp [List.filter_cons, hb]
        · generalize (a :: A).filter (fun d => decide (key d = v)) = F
          simp [List.filter_cons, hb]

theorem stableSortOf_merge (A B A' B' : List CSVData) (hA : StableSortOf A' A)
    (hB : StableSortOf B' B) : StableSortOf (List.merge A' B' keyLE) (A ++ B) := by
  refine ⟨?_, ascending_merge _ _ hA.asc hB.asc, ?_⟩
  · exact (List.merge_perm_append keyLE).trans (List.Perm.append hA.perm hB.perm)
  · intro v
    rw [filter_merge v A' B' hA.asc, hA.stable, hB.stable, List.filter_append]

/-- The function `mergeSort` on the range `left .. right` that holds `seg`: with
`|seg| + 2` units of fuel it returns, the range holds the stable ascending sort of
`seg`, and the rest of the collection is as before. -/
theorem mergeSort_spec :
    ∀ (fuel : Nat) (pre seg post : List CSVData) (left right : Int),
      left = pre.length → right = left + seg.length - 1 → seg.length + 2 ≤ fuel →
      ∃ seg', mergeSort fuel (pre ++ seg ++ post) left right = some (pre ++ seg' ++ post)
        ∧ StableSortOf seg' seg := by
  intro fuel
  induction fuel with
  | zero => intro pre seg post left right _ _ h; omega
  | succ fuel ih =>
    intro pre seg post left right hl hr hf
    by_cases hge : left ≥ right
    · exact ⟨seg, by rw [mergeSort, if_pos hge], stableSortOf_short seg (by omega)⟩
    · have hlen : 2 ≤ seg.length := by omega
      obtain ⟨m, hm⟩ : ∃ m : Nat, m = (seg.length - 1) / 2 := ⟨_, rfl⟩
      have hmid : left + (right - left).tdiv 2 = left + (m : Int) := by
        have : right - left = ((seg.length - 1 : Nat) : Int) := by omega
        rw [this, tdiv_two_natCast, hm]
      have hA : (seg.take (m + 1)).length = m + 1 := by
        rw [List.length_take]; omega
      have hB : (seg.drop (m + 1)).length = seg.length - (m + 1) := List.length_drop _ _
      have hseg : seg = seg.take (m + 1) ++ seg.drop (m + 1) := (List.take_append_drop _ _).symm
      obtain ⟨A', hA1, hA2⟩ := ih pre (seg.take (m + 1)) (seg.drop (m + 1) ++ post) left
        (left + (m : Int)) hl (by rw [hA]; push_cast; omega) (by omega)
      have hA'len : A'.length = m + 1 := by rw [hA2.perm.length_eq, hA]
      obtain ⟨B', hB1, hB2⟩ := ih (pre ++ A') (seg.drop (m + 1)) post (left + (m : Int) + 1) right
        (by rw [List.length_append, hA'len]; push_cast; omega)
        (by rw [hB]; omega) (by omega)
      have hB'len : B'.length = seg.length - (m + 1) := by rw [hB2.perm.length_eq, hB]
      have hmerge := merge_eq fuel pre A' B' post left (left + (m : Int)) right hl
        (by rw [hA'len]; push_cast; omega) (by rw [hB'len]; omega) (by omega)
      refine ⟨List.merge A' B' keyLE, ?_, ?_⟩
      · rw [mergeSort, if_neg hge]
        simp only [hmid]
        have e1 : pre ++ seg ++ post
            = pre ++ seg.take (m + 1) ++ (seg.drop (m + 1) ++ post) := by
          conv_lhs => rw [hseg]
          simp only [List.append_assoc]
        rw [e1, hA1, Option.some_bind]
        have e2 : pre ++ A' ++ (seg.drop (m + 1) ++ post)
            = pre ++ A' ++ seg.drop (m + 1) ++ post := by
          simp only [List.append_assoc]
        rw [e2, hB1, Option.some_bind]
        exact hmerge
      · have := stableSortOf_merge _ _ _ _ hA2 hB2
        rwa [← hseg] at this

/-! ## Merge sort: the contract of `mergeSort(data, 0, n - 1)` -/

theorem mergeSort_main (data : List CSVData) (fuel : Nat) (hf : data.length + 2 ≤ fuel) :
    ∃ out, mergeSort fuel data 0 ((data.length : Int) - 1) = some out
      ∧ StableSortOf out data := by
  obtain ⟨seg', h1, h2⟩ := mergeSort_spec fuel [] data [] 0 ((data.length : Int) - 1)
    (by simp) (by omega) hf
  exact ⟨seg', by simpa using h1, h2⟩

/-- C1 (merge sort, order): with `n + 2` units of fuel the call
`mergeSort(data, 0, n - 1)` on a collection of length `n` returns, the result has
length `n`, and its keys ascend: `key[i] <= key[j]` for all `i < j < n`. -/
theorem mergeSort_order (data : List CSVData) (fuel : Nat) (hf : data.length + 2 ≤ fuel) :
    ∃ out, mergeSort fuel data 0 ((data.length : Int) - 1) = some out
      ∧ out.length = data.length
      ∧ ∀ (i j : Nat) (hij : i < j) (hj : j < out.length), key out[i] ≤ key out[j] := by
  obtain ⟨out, h1, h2⟩ := mergeSort_main data fuel hf
  refine ⟨out, h1, h2.perm.length_eq, ?_⟩
  intro i j hij hj
  exact (List.pairwise_iff_getElem.1 h2.asc) i j (by omega) hj hij

/-- Witness of C1 on the records with keys 40, 10, 30, 20. -/
theorem mergeSort_order_witness :
    ∃ out, mergeSort 6 sampleData 0 ((sampleData.length : Int) - 1) = some out
      ∧ out.length = sampleData.length
      ∧ ∀ (i j : Nat) (hij : i < j) (hj : j < out.length), key out[i] ≤ key out[j] :=
  mergeSort_order sampleData 6 (by decide)

/-- C2 (merge sort, permutation): with `n + 2` units of fuel the call
`mergeSort(data, 0, n - 1)` returns a collection with the same multiset of records
as `data` and the same length. -/
theorem mergeSort_permutation (data : List CSVData) (fuel : Nat)
    (hf : data.length + 2 ≤ fuel) :
    ∃ out, mergeSort fuel data 0 ((data.length : Int) - 1) = some out
      ∧ (out : Multiset CSVData) = (data : Multiset CSVData)
      ∧ out.length = data.length := by
  obtain ⟨out, h1, h2⟩ := mergeSort_main data fuel hf
  exact ⟨out, h1, Multiset.coe_eq_coe.2 h2.perm, h2.perm.length_eq⟩

/-- Witness of C2 on the records with keys 40, 10, 30, 20. -/
theorem mergeSort_permutation_witness :
    ∃ out, mergeSort 6 sampleData 0 ((sampleData.length : Int) - 1) = some out
      ∧ (out : Multiset CSVData) = (sampleData : Multiset CSVData)
      ∧ out.length = sampleData.length :=
  mergeSort_permutation sampleData 6 (by decide)

/-- C3 (merge sort, stability): with `n + 2` units of fuel the call
`mergeSort(data, 0, n - 1)` returns a collection in which, for every key value `v`,
the records with key `v` are the records of `data` with key `v` in the same order. -/
theorem mergeSort_stable (data : List CSVData) (fuel : Nat) (hf : data.length + 2 ≤ fuel) :
    ∃ out, mergeSort fuel data 0 ((data.length : Int) - 1) = some out
      ∧ ∀ v : ℚ, out.filter (fun d => decide (key d = v))
          = data.filter (fun d => decide (key d = v)) := by
  obtain ⟨out, h1, h2⟩ := mergeSort_main data fuel hf
  exact ⟨out, h1, h2.stable⟩

/-- Witness of C3 on the records with keys 40, 10, 30, 20. -/
theorem mergeSort_stable_witness :
    ∃ out, mergeSort 6 sampleData 0 ((sampleData.length : Int) - 1) = some out
      ∧ ∀ v : ℚ, out.filter (fun d => decide (key d = v))
          = sampleData.filter (fun d => decide (key d = v)) :=
  mergeSort_stable sampleData 6 (by decide)

/-! ## Swapping two elements -/

theorem set_set_perm_self {α : Type} [DecidableEq α] (l : List α) (a b : Nat)
    (ha : a < l.length) (hb : b < l.length) :
    ((l.set a l[b]).set b l[a]).Perm l := by
  rw [List.perm_iff_count]
  intro c
  have hb' : b < (l.set a l[b]).length := by simpa using hb
  rw [List.count_set _ _ _ _ hb', List.count_set _ _ _ _ ha]
  have hx : (if l[a] == c then 1 else 0) ≤ List.count c l := by
    rw [List.count_eq_countP]
    exact List.boole_getElem_le_countP (fun x => x == c) l a ha
  have hget : (l.set a l[b])[b] = l[b] := by
    rw [List.getElem_set]
    split
    · rfl
    · rfl
  rw [hget]
  generalize (if l[a] == c then 1 else 0) = p at hx
  generalize (if l[b] == c then 1 else 0) = q
  omega

/-- The effect of `std::swap(data[a], data[b])` for two indices inside the collection. -/
theorem swapAt_spec (l : List CSVData) (a b : Int) (x y : CSVData)
    (hx : readAt l a = some x) (hy : readAt l b = some y) :
    ∃ l', swapAt l a b = some l' ∧ l'.length = l.length ∧ l'.Perm l
      ∧ ∀ q : Int, readAt l' q
          = if q = b then some x else if q = a then some y else readAt l q := by
  obtain ⟨ha0, ha1⟩ := readAt_bounds l a x hx
  obtain ⟨hb0, hb1⟩ := readAt_bounds l b y hy
  obtain ⟨l1, h1⟩ := writeAt_some l a y ha0 ha1
  obtain ⟨l2, h2⟩ := writeAt_some l1 b x hb0 (by rw [writeAt_length _ _ _ _ h1]; exact hb1)
  refine ⟨l2, ?_, ?_, ?_, ?_⟩
  · simp only [swapAt, hx, hy, Option.bind_eq_bind, Option.some_bind, h1, h2]
  · rw [writeAt_length _ _ _ _ h2, writeAt_length _ _ _ _ h1]
  · have han : a.toNat < l.length := by omega
    have hbn : b.toNat < l.length := by omega
    have ex : l[a.toNat] = x := by
      have := hx
      rw [readAt, if_pos ha0, List.getElem?_eq_getElem han] at this
      exact Option.some.inj this
    have ey : l[b.toNat] = y := by
      have := hy
      rw [readAt, if_pos hb0, List.getElem?_eq_getElem hbn] at this
      exact Option.some.inj this
    have e1 : l1 = l.set a.toNat y := by
      have := h1
      rw [writeAt, if_pos ⟨ha0, ha1⟩] at this
      exact (Option.some.inj this).symm
    have e2 : l2 = l1.set b.toNat x := by
      have := h2
      rw [writeAt, if_pos ⟨hb0, by rw [writeAt_length _ _ _ _ h1]; exact hb1⟩] at this
      exact (Option.some.inj this).symm
    rw [e2, e1, ← ex, ← ey]
    exact set_set_perm_self l a.toNat b.toNat han hbn
  · intro q
    rw [readAt_writeAt _ _ _ _ h2, readAt_writeAt _ _ _ _ h1]

/-! ## Quicksort: the two scans -/

/-- The scan `while (data[i].key < pivot) i++` started at `i` with an element of
key at least `pivot` at some `q >= i`: it returns, stops at or before `q`, has
passed only keys below `pivot`, and stops on a key that is at least `pivot`. -/
theorem scanUp_spec (data : List CSVData) (p : ℚ) :
    ∀ (fuel : Nat) (i q : Int) (xq : CSVData), 0 ≤ i → i ≤ q → readAt data q = some xq →
      p ≤ key xq → q - i + 1 ≤ (fuel : Int) →
      ∃ i', scanUp data p fuel i = some i' ∧ i ≤ i' ∧ i' ≤ q
        ∧ (∀ (t : Int) (x : CSVData), i ≤ t → t < i' → readAt data t = some x → key x < p)
        ∧ ∃ x, readAt data i' = some x ∧ p ≤ key x := by
  intro fuel
  induction fuel with
  | zero => intro i q xq _ _ _ _ h; simp at h; omega
  | succ fuel ih =>
    intro i q xq hi hiq hq hp hf
    obtain ⟨_, hqlen⟩ := readAt_bounds data q xq hq
    obtain ⟨x, hx⟩ := readAt_some data i hi (by omega)
    by_cases hlt : key x < p
    · have hne : i ≠ q := by
        intro e
        rw [e, hq] at hx
        cases hx
        exact absurd hlt (not_lt.2 hp)
      obtain ⟨i', h1, h2, h3, h4, h5⟩ := ih (i + 1) q xq (by omega) (by omega) hq hp
        (by push_cast at hf; omega)
      refine ⟨i', ?_, by omega, h3, ?_, h5⟩
      · rw [scanUp, hx, Option.some_bind, if_pos hlt, h1]
      · intro t y ht1 ht2 hy
        by_cases e : t = i
        · rw [e, hx] at hy
          cases hy
          exact hlt
        · exact h4 t y (by omega) ht2 hy
    · refine ⟨i, ?_, le_refl _, hiq, ?_, x, hx, not_lt.1 hlt⟩
      · rw [scanUp, hx, Option.some_bind, if_neg hlt]
      · intro t y ht1 ht2 _
        omega

/-- The scan `while (data[j].key > pivot) j--` started at `j` with an element of
key at most `pivot` at some `q <= j`. -/
theorem scanDown_spec (data : List CSVData) (p : ℚ) :
    ∀ (fuel : Nat) (j q : Int) (xq : CSVData), (j : Int) < data.length → q ≤ j →
      readAt data q = some xq → key xq ≤ p → j - q + 1 ≤ (fuel : Int) →
      ∃ j', scanDown data p fuel j = some j' ∧ q ≤ j' ∧ j' ≤ j
        ∧ (∀ (t : Int) (x : CSVData), j' < t → t ≤ j → readAt data t = some x → p < key x)
        ∧ ∃ x, readAt data j' = some x ∧ key x ≤ p := by
  intro fuel
  induction fuel with
  | zero => intro j q xq _ _ _ _ h; simp at h; omega
  | succ fuel ih =>
    intro j q xq hj hqj hq hp hf
    obtain ⟨hq0, _⟩ := readAt_bounds data q xq hq
    obtain ⟨x, hx⟩ := readAt_some data j (by omega) hj
    by_cases hgt : key x > p
    · have hne : j ≠ q := by
        intro e
        rw [e, hq] at hx
        cases hx
        exact absurd hgt (not_lt.2 hp)
      obtain ⟨j', h1, h2, h3, h4, h5⟩ := ih (j - 1) q xq (by omega) (by omega) hq hp
        (by push_cast at hf; omega)
      refine ⟨j', ?_, h2, by omega, ?_, h5⟩
      · rw [scanDown, hx, Option.some_bind, if_pos hgt, h1]
      · intro t y ht1 ht2 hy
        by_cases e : t = j
        · rw [e, hx] at hy
          cases hy
          exact hgt
        · exact h4 t y ht1 (by omega) hy
    · refine ⟨j, ?_, hqj, le_refl _, ?_, x, hx, not_lt.1 hgt⟩
      · rw [scanDown, hx, Option.some_bind, if_neg hgt]
      · intro t y ht1 ht2 _
        omega

/-! ## Quicksort: the partition loop -/

/-- The partition loop returns from every state that satisfies its invariant,
in a state that satisfies it with `j < i`.  It needs `(right - left + 3)` units of
fuel plus one for every position from `i` to `j`. -/
theorem partitionLoop_spec (data0 : List CSVData) (left right : Int) (p : ℚ)
    (hl : 0 ≤ left) (hr : right < data0.length) :
    ∀ (fuel : Nat) (data : List CSVData) (i j : Int), PartInv data0 left right p data i j →
      right - left + 3 + ((j - i + 1).toNat : Int) ≤ (fuel : Int) →
      ∃ data' i' j', partitionLoop p fuel data i j = some (data', i', j')
        ∧ PartInv data0 left right p data' i' j' ∧ j' < i' := by
  intro fuel
  induction fuel with
  | zero =>
    intro data i j inv hf
    have := inv.i_lo; have := inv.i_hi
    simp at hf; omega
  | succ fuel ih =>
    intro data i j inv hf
    have hilo := inv.i_lo
    have hihi := inv.i_hi
    have hjlo := inv.j_lo
    have hjhi := inv.j_hi
    by_cases hij : i ≤ j
    · obtain ⟨qu, xu, hu1, hu2, hu3, hu4⟩ := inv.up hij
      obtain ⟨qd, xd, hd1, hd2, hd3, hd4⟩ := inv.down hij
      obtain ⟨i1, hs1, hi1a, hi1b, hi1c, x, hx, hxp⟩ :=
        scanUp_spec data p fuel i qu xu (by omega) hu1 hu3 hu4 (by push_cast at hf; omega)
      obtain ⟨j1, hs2, hj1a, hj1b, hj1c, y, hy, hyp⟩ :=
        scanDown_spec data p fuel j qd xd (by rw [inv.len]; omega) hd2 hd3 hd4
          (by push_cast at hf; omega)
      have hlow1 : ∀ (q : Int) (z : CSVData), left ≤ q → q < i1 → readAt data q = some z →
          key z ≤ p := by
        intro q z h1 h2 hz
        by_cases h : q < i
        · exact inv.low q z h1 h hz
        · exact le_of_lt (hi1c q z (by omega) h2 hz)
      have hhigh1 : ∀ (q : Int) (z : CSVData), j1 < q → q ≤ right → readAt data q = some z →
          p ≤ key z := by
        intro q z h1 h2 hz
        by_cases h : j < q
        · exact inv.high q z h h2 hz
        · exact le_of_lt (hj1c q z h1 (by omega) hz)
      by_cases hij1 : i1 ≤ j1
      · obtain ⟨d, hsw, hdlen, hdperm, hdread⟩ := swapAt_spec data i1 j1 x y hx hy
        have inv' : PartInv data0 left right p d (i1 + 1) (j1 - 1) := by
          refine ⟨by rw [hdlen, inv.len], hdperm.trans inv.perm, ?_, ?_, ?_, by omega, by omega,
            by omega, by omega, ?_, ?_, Or.inl ⟨by omega, by omega⟩⟩
          · intro q hq
            rw [hdread, if_neg (by omega), if_neg (by omega)]
            exact inv.frame q hq
          · intro q z h1 h2 hz
            rw [hdread] at hz
            by_cases e1 : q = j1
            · rw [if_pos e1] at hz
              cases hz
              have e2 : i1 = j1 := by omega
              rw [e2, hy] at hx
              cases hx
              exact hyp
            · rw [if_neg e1] at hz
              by_cases e2 : q = i1
              · rw [if_pos e2] at hz
                cases hz
                exact hyp
              · rw [if_neg e2] at hz
                exact hlow1 q z h1 (by omega) hz
          · intro q z h1 h2 hz
            rw [hdread] at hz
            by_cases e1 : q = j1
            · rw [if_pos e1] at hz
              cases hz
              exact hxp
            · rw [if_neg e1] at hz
              by_cases e2 : q = i1
              · omega
              · rw [if_neg e2] at hz
                exact hhigh1 q z (by omega) h2 hz
          · intro h
            refine ⟨j1, x, by omega, by omega, ?_, hxp⟩
            rw [hdread, if_pos rfl]
          · intro h
            refine ⟨i1, y, by omega, by omega, ?_, hyp⟩
            rw [hdread, if_neg (by omega), if_pos rfl]
        obtain ⟨data', i', j', hres, hinv, hlt⟩ := ih d (i1 + 1) (j1 - 1) inv'
          (by push_cast at hf; omega)
        refine ⟨data', i', j', ?_, hinv, hlt⟩
        rw [partitionLoop, if_pos hij, hs1, Option.some_bind, hs2, Option.some_bind,
          if_pos hij1, hsw, Option.some_bind, hres]
      · have inv' : PartInv data0 left right p data i1 j1 := by
          refine ⟨inv.len, inv.perm, inv.frame, hlow1, hhigh1, by omega, by omega, by omega,
            by omega, fun h => absurd h hij1, fun h => absurd h hij1, ?_⟩
          rcases inv.progress with h | h
          · exact Or.inl ⟨by omega, by omega⟩
          · exact Or.inl ⟨by omega, by omega⟩
        obtain ⟨data', i', j', hres, hinv, hlt⟩ := ih data i1 j1 inv'
          (by push_cast at hf; omega)
        refine ⟨data', i', j', ?_, hinv, hlt⟩
        rw [partitionLoop, if_pos hij, hs1, Option.some_bind, hs2, Option.some_bind,
          if_neg hij1, hres]
    · refine ⟨data, i, j, ?_, inv, by omega⟩
      rw [partitionLoop, if_neg hij]

/-! ## Quicksort: from the partition to the sorted range -/

theorem readAt_append_mid (pre seg post : List CSVData) (t : Nat) (ht : t < seg.length) :
    readAt (pre ++ seg ++ post) ((pre.length : Int) + (t : Int)) = seg[t]? := by
  rw [show ((pre.length : Int) + (t : Int)) = ((pre.length + t : Nat) : Int) by push_cast; rfl,
    readAt_natCast, List.append_assoc, List.getElem?_append_right (by omega),
    List.getElem?_append_left (by omega)]
  congr 1
  omega

/-- A collection that agrees with `pre ++ seg ++ post` outside the range of `seg`
and has its length is `pre ++ seg1 ++ post` for some `seg1` as long as `seg`. -/
theorem frame_decompose (pre seg post data' : List CSVData)
    (hlen : data'.length = (pre ++ seg ++ post).length)
    (hframe : ∀ q : Int, q < (pre.length : Int) ∨ (pre.length : Int) + seg.length - 1 < q →
      readAt data' q = readAt (pre ++ seg ++ post) q) :
    ∃ seg1, data' = pre ++ seg1 ++ post ∧ seg1.length = seg.length := by
  have hlen' : data'.length = pre.length + seg.length + post.length := by
    rw [hlen]; simp [Nat.add_assoc]
  have hs1 : ((data'.drop pre.length).take seg.length).length = seg.length := by
    rw [List.length_take, List.length_drop]; omega
  refine ⟨(data'.drop pre.length).take seg.length, ?_, hs1⟩
  apply List.ext_getElem?
  intro t
  have hnat : ∀ l : List CSVData, l[t]? = readAt l (t : Int) := fun l => (readAt_natCast l t).symm
  by_cases h1 : t < pre.length
  · rw [List.append_assoc, List.getElem?_append_left h1, hnat, hframe _ (Or.inl (by omega)),
      ← hnat, List.append_assoc, List.getElem?_append_left h1]
  · by_cases h2 : t < pre.length + seg.length
    · rw [List.append_assoc, List.getElem?_append_right (by omega),
        List.getElem?_append_left (by omega), List.getElem?_take_of_lt (by omega),
        List.getElem?_drop]
      congr 1
      omega
    · rw [List.getElem?_append_right (by rw [List.length_append, hs1]; omega), hnat,
        hframe _ (Or.inr (by omega)), ← hnat,
        List.getElem?_append_right (by rw [List.length_append]; omega)]
      congr 1
      rw [List.length_append, List.length_append, hs1]

theorem pivot_between (a b : ℚ) :
    (a ≤ (a + b) / 2 ∧ (a + b) / 2 ≤ b) ∨ (b ≤ (a + b) / 2 ∧ (a + b) / 2 ≤ a) := by
  rcases le_total a b with h | h
  · left; constructor <;> linarith
  · right; constructor <;> linarith

/-- The invariant of the partition loop holds on entry, for the pivot value
`(key[left] + key[right]) / 2`. -/
theorem partInv_init (data0 : List CSVData) (left right : Int) (l r : CSVData)
    (hlr : left ≤ right) (hl : readAt data0 left = some l) (hr : readAt data0 right = some r) :
    PartInv data0 left right ((key l + key r) / 2) data0 left right := by
  refine ⟨rfl, List.Perm.refl _, fun _ _ => rfl, ?_, ?_, le_refl _, by omega, by omega,
    le_refl _, ?_, ?_, Or.inr ⟨rfl, rfl⟩⟩
  · intro q x h1 h2; omega
  · intro q x h1 h2; omega
  · intro _
    rcases pivot_between (key l) (key r) with h | h
    · exact ⟨right, r, hlr, le_refl _, hr, h.2⟩
    · exact ⟨left, l, le_refl _, hlr, hl, h.2⟩
  · intro _
    rcases pivot_between (key l) (key r) with h | h
    · exact ⟨left, l, le_refl _, hlr, hl, h.1⟩
    · exact ⟨right, r, hlr, le_refl _, hr, h.1⟩

/-- Three lists, the first ascending with keys at most `p`, the second with keys
equal to `p`, the third ascending with keys at least `p`, make an ascending list. -/
theorem ascending_three (X M Y : List CSVData) (p : ℚ) (hX : Ascending X) (hY : Ascending Y)
    (hXp : ∀ x ∈ X, key x ≤ p) (hMp : ∀ m ∈ M, key m = p) (hYp : ∀ y ∈ Y, p ≤ key y) :
    Ascending (X ++ M ++ Y) := by
  unfold Ascending at *
  rw [List.pairwise_append, List.pairwise_append]
  refine ⟨⟨hX, ?_, ?_⟩, hY, ?_⟩
  · rw [List.pairwise_iff_forall_sublist]
    intro a b hab
    have ha := hab.subset (List.mem_cons_self _ _)
    have hb := hab.subset (List.mem_cons_of_mem _ (List.mem_singleton_self _))
    rw [hMp a ha, hMp b hb]
  · intro x hx m hm
    rw [hMp m hm]; exact hXp x hx
  · intro a ha y hy
    rcases List.mem_append.1 ha with h | h
    · exact le_trans (hXp a h) (hYp y hy)
    · rw [hMp a h]; exact hYp y hy

/-- The function `parallelQuicksort` on the range `left .. right` that holds `seg`:
with `2 |seg| + 3` units of fuel it returns, the range holds an ascending
permutation of `seg`, and the rest of the collection is as before. -/
theorem parallelQuicksort_spec :
    ∀ (fuel : Nat) (pre seg post : List CSVData) (left right : Int),
      left = pre.length → right = left + seg.length - 1 → 2 * seg.length + 3 ≤ fuel →
      ∃ seg', parallelQuicksort fuel (pre ++ seg ++ post) left right
          = some (pre ++ seg' ++ post)
        ∧ seg'.Perm seg ∧ Ascending seg' := by
  intro fuel
  induction fuel with
  | zero => intro pre seg post left right _ _ h; omega
  | succ fuel ih =>
    intro pre seg post left right hl hr hf
    by_cases hge : left ≥ right
    · refine ⟨seg, by rw [parallelQuicksort, if_pos hge], List.Perm.refl _, ?_⟩
      have : seg.length ≤ 1 := by omega
      match seg, this with
      | [], _ => exact List.Pairwise.nil
      | [a], _ => exact List.pairwise_singleton _ a
    · have hl0 : 0 ≤ left := by omega
      have hlen0 : (pre ++ seg ++ post).length = pre.length + seg.length + post.length := by
        simp [Nat.add_assoc]
      have hrn : right < ((pre ++ seg ++ post).length : Int) := by
        rw [hlen0]; push_cast; omega
      obtain ⟨l, hrl⟩ := readAt_some (pre ++ seg ++ post) left hl0 (by omega)
      obtain ⟨r, hrr⟩ := readAt_some (pre ++ seg ++ post) right (by omega) hrn
      obtain ⟨data', i', j', hres, inv, hlt⟩ :=
        partitionLoop_spec (pre ++ seg ++ post) left right ((key l + key r) / 2) hl0 hrn fuel
          (pre ++ seg ++ post) left right (partInv_init _ left right l r (by omega) hrl hrr)
          (by push_cast at hf ⊢; omega)
      have hilo := inv.i_lo
      have hihi := inv.i_hi
      have hjlo := inv.j_lo
      have hjhi := inv.j_hi
      have hprog : left < i' ∧ j' < right := by
        rcases inv.progress with h | h
        · exact h
        · omega
      obtain ⟨seg1, hdata', hseg1⟩ := frame_decompose pre seg post data' inv.len
        (by intro q hq; exact inv.frame q (by omega))
      have hperm1 : seg1.Perm seg := by
        have := inv.perm
        rw [hdata'] at this
        exact (List.perm_append_left_iff pre).1 ((List.perm_append_right_iff post).1
          (by simpa [List.append_assoc] using this))
      -- the three parts of the range after the partition loop
      obtain ⟨a, ha⟩ : ∃ a : Nat, (a : Int) = j' - left + 1 := ⟨(j' - left + 1).toNat, by omega⟩
      obtain ⟨b, hb⟩ : ∃ b : Nat, (b : Int) = i' - left := ⟨(i' - left).toNat, by omega⟩
      have hab : a ≤ b := by omega
      have hbs : b ≤ seg1.length := by omega
      have hsplit : seg1 = seg1.take a ++ (seg1.drop a).take (b - a) ++ seg1.drop b := by
        rw [← List.take_add, Nat.add_sub_cancel' hab, List.take_append_drop]
      have hread : ∀ (t : Nat) (x : CSVData), seg1[t]? = some x →
          readAt data' (left + (t : Int)) = some x := by
        intro t x hx
        have ht : t < seg1.length := (List.getElem?_eq_some_iff.1 hx).1
        rw [hdata', hl, readAt_append_mid pre seg1 post t ht, hx]
      have hXp : ∀ x ∈ seg1.take a, key x ≤ (key l + key r) / 2 := by
        intro x hx
        obtain ⟨t, ht⟩ := List.mem_iff_getElem?.1 hx
        rw [List.getElem?_take] at ht
        split at ht
        · exact inv.low _ x (by omega) (by omega) (hread t x ht)
        · cases ht
      have hYp : ∀ y ∈ seg1.drop b, (key l + key r) / 2 ≤ key y := by
        intro y hy
        obtain ⟨t, ht⟩ := List.mem_iff_getElem?.1 hy
        rw [List.getElem?_drop] at ht
        have hlt' : b + t < seg1.length := (List.getElem?_eq_some_iff.1 ht).1
        have := hread (b + t) y ht
        exact inv.high _ y (by push_cast; omega) (by push_cast; omega) this
      have hMp : ∀ m ∈ (seg1.drop a).take (b - a), key m = (key l + key r) / 2 := by
        intro m hm
        obtain ⟨t, ht⟩ := List.mem_iff_getElem?.1 hm
        rw [List.getElem?_take] at ht
        split at ht
        · rw [List.getElem?_drop] at ht
          have := hread (a + t) m ht
          exact le_antisymm
            (inv.low _ m (by push_cast; omega) (by push_cast; omega) this)
            (inv.high _ m (by push_cast; omega) (by push_cast; omega) this)
        · cases ht
      have hXlen : (seg1.take a).length = a := by rw [List.length_take]; omega
      have hMlen : ((seg1.drop a).take (b - a)).length = b - a := by
        rw [List.length_take, List.length_drop]; omega
      have hYlen : (seg1.drop b).length = seg1.length - b := List.length_drop _ _
      -- the two recursive calls
      obtain ⟨X', hX1, hX2, hX3⟩ := ih pre (seg1.take a)
        ((seg1.drop a).take (b - a) ++ seg1.drop b ++ post) left j' hl
        (by rw [hXlen]; omega) (by rw [hXlen]; omega)
      have hX'len : X'.length = a := by rw [hX2.length_eq, hXlen]
      obtain ⟨Y', hY1, hY2, hY3⟩ := ih (pre ++ X' ++ (seg1.drop a).take (b - a)) (seg1.drop b)
        post i' right
        (by rw [List.length_append, List.length_append, hX'len, hMlen]; push_cast; omega)
        (by rw [hYlen]; omega) (by rw [hYlen]; omega)
      refine ⟨X' ++ (seg1.drop a).take (b - a) ++ Y', ?_, ?_, ?_⟩
      · rw [parallelQuicksort, if_neg hge, hrl, Option.some_bind, hrr, Option.some_bind]
        simp only []
        rw [hres, Option.some_bind]
        simp only []
        have e1 : data' = pre ++ seg1.take a
            ++ ((seg1.drop a).take (b - a) ++ seg1.drop b ++ post) := by
          rw [hdata']
          conv_lhs => rw [hsplit]
          simp only [List.append_assoc]
        rw [e1, hX1, Option.some_bind]
        have e2 : pre ++ X' ++ ((seg1.drop a).take (b - a) ++ seg1.drop b ++ post)
            = pre ++ X' ++ (seg1.drop a).take (b - a) ++ seg1.drop b ++ post := by
          simp only [List.append_assoc]
        rw [e2, hY1]
        simp only [List.append_assoc]
      · refine List.Perm.trans ?_ hperm1
        conv_rhs => rw [hsplit]
        exact List.Perm.append (List.Perm.append hX2 (List.Perm.refl _)) hY2
      · exact ascending_three _ _ _ _ hX3 hY3
          (fun x hx => hXp x (hX2.subset hx)) hMp (fun y hy => hYp y (hY2.subset hy))

/-! ## Quicksort: the contract -/

/-- C4 (quicksort, order): with `2 n + 3` units of fuel the call
`parallelQuicksort(data, 0, n - 1)` on a collection of length `n`, the pivot computed
exactly and the two recursive calls executed in sequence, returns a collection of
length `n` whose keys ascend: `key[i] <= key[j]` for all `i < j < n`. -/
theorem parallelQuicksort_order (data : List CSVData) (fuel : Nat)
    (hf : 2 * data.length + 3 ≤ fuel) :
    ∃ out, parallelQuicksort fuel data 0 ((data.length : Int) - 1) = some out
      ∧ out.length = data.length
      ∧ ∀ (i j : Nat) (hij : i < j) (hj : j < out.length), key out[i] ≤ key out[j] := by
  obtain ⟨seg', h1, h2, h3⟩ := parallelQuicksort_spec fuel [] data [] 0
    ((data.length : Int) - 1) (by simp) (by omega) hf
  refine ⟨seg', by simpa using h1, h2.length_eq, ?_⟩
  intro i j hij hj
  exact (List.pairwise_iff_getElem.1 h3) i j (by omega) hj hij

/-- Witness of C4 on the records with keys 40, 10, 30, 20. -/
theorem parallelQuicksort_order_witness :
    ∃ out, parallelQuicksort 11 sampleData 0 ((sampleData.length : Int) - 1) = some out
      ∧ out.length = sampleData.length
      ∧ ∀ (i j : Nat) (hij : i < j) (hj : j < out.length), key out[i] ≤ key out[j] :=
  parallelQuicksort_order sampleData 11 (by decide)

/-- C5 (quicksort, frame and permutation): for `0 <= left <= right < n`, with
`2 (right - left + 1) + 3` units of fuel the call `parallelQuicksort(data, left, right)`
returns a collection of the same length that agrees with `data` at every position
outside `left .. right` and has in `left .. right` the same multiset of records. -/
theorem parallelQuicksort_frame (data : List CSVData) (left right : Nat) (hlr : left ≤ right)
    (hr : right < data.length) (fuel : Nat) (hf : 2 * (right - left + 1) + 3 ≤ fuel) :
    ∃ out, parallelQuicksort fuel data (left : Int) (right : Int) = some out
      ∧ out.length = data.length
      ∧ (∀ q : Nat, q < left ∨ right < q → out[q]? = data[q]?)
      ∧ (((out.drop left).take (right - left + 1) : List CSVData) : Multiset CSVData)
          = ((data.drop left).take (right - left + 1) : List CSVData) := by
  have hpre : (data.take left).length = left := by rw [List.length_take]; omega
  have hseg : ((data.drop left).take (right - left + 1)).length = right - left + 1 := by
    rw [List.length_take, List.length_drop]; omega
  have hdata : data = data.take left ++ (data.drop left).take (right - left + 1)
      ++ data.drop (right + 1) := by
    have e : data.drop (right + 1) = (data.drop left).drop (right - left + 1) := by
      rw [List.drop_drop]; congr 1; omega
    rw [e, List.append_assoc, List.take_append_drop, List.take_append_drop]
  obtain ⟨seg', h1, h2, _⟩ := parallelQuicksort_spec fuel (data.take left)
    ((data.drop left).take (right - left + 1)) (data.drop (right + 1)) (left : Int) (right : Int)
    (by rw [hpre]) (by rw [hseg]; push_cast; omega) (by rw [hseg]; exact hf)
  rw [← hdata] at h1
  have hseg' : seg'.length = right - left + 1 := by rw [h2.length_eq, hseg]
  refine ⟨_, h1, ?_, ?_, ?_⟩
  · conv_rhs => rw [hdata]
    simp only [List.length_append, hseg', hseg]
  · intro q hq
    conv_rhs => rw [hdata]
    rcases hq with hq | hq
    · rw [List.append_assoc, List.append_assoc, List.getElem?_append_left (by omega),
        List.getElem?_append_left (by omega)]
    · rw [List.getElem?_append_right (by rw [List.length_append, hpre, hseg']; omega),
        List.getElem?_append_right (by rw [List.length_append, hpre, hseg]; omega),
        List.length_append, List.length_append, hseg', hseg]
  · rw [Multiset.coe_eq_coe]
    have e : ((data.take left ++ seg' ++ data.drop (right + 1)).drop left).take
        (right - left + 1) = seg' := by
      rw [List.append_assoc, List.drop_append_of_le_length (by omega),
        List.drop_of_length_le (by omega), List.nil_append,
        List.take_append_of_le_length (by omega), List.take_of_length_le (by omega)]
    rw [e]
    exact h2

/-- Witness of C5: the range `1 .. 2` of the records with keys 40, 10, 30, 20. -/
theorem parallelQuicksort_frame_witness :
    ∃ out, parallelQuicksort 7 sampleData ((1 : Nat) : Int) ((2 : Nat) : Int) = some out
      ∧ out.length = sampleData.length
      ∧ (∀ q : Nat, q < 1 ∨ 2 < q → out[q]? = sampleData[q]?)
      ∧ (((out.drop 1).take (2 - 1 + 1) : List CSVData) : Multiset CSVData)
          = ((sampleData.drop 1).take (2 - 1 + 1) : List CSVData) :=
  parallelQuicksort_frame sampleData 1 2 (by decide) (by decide) 7 (by decide)

/-! ## Bitonic sort: more fuel does not change a result -/

theorem bitonicMerge_fuel_succ :
    ∀ (fuel : Nat) (data : List CSVData) (start length : Int) (direction : Bool)
      (out : List CSVData), bitonicMerge fuel data start length direction = some out →
      bitonicMerge (fuel + 1) data start length direction = some out := by
  intro fuel
  induction fuel with
  | zero => intro data start length direction out h; cases h
  | succ n ih =>
    intro data start length direction out h
    rw [bitonicMerge] at h ⊢
    by_cases hl : length > 1
    · rw [if_pos hl] at h ⊢
      obtain ⟨d0, h0, h⟩ := Option.bind_eq_some.1 h
      obtain ⟨d1, h1, h2⟩ := Option.bind_eq_some.1 h
      simp only [h0, Option.some_bind, ih _ _ _ _ _ h1, ih _ _ _ _ _ h2]
    · rw [if_neg hl] at h ⊢
      exact h

theorem bitonicSort_fuel_succ :
    ∀ (fuel : Nat) (data : List CSVData) (start length : Int) (direction : Bool)
      (out : List CSVData), bitonicSort fuel data start length direction = some out →
      bitonicSort (fuel + 1) data start length direction = some out := by
  intro fuel
  induction fuel with
  | zero => intro data start length direction out h; cases h
  | succ n ih =>
    intro data start length direction out h
    rw [bitonicSort] at h ⊢
    by_cases hl : length > 1
    · rw [if_pos hl] at h ⊢
      obtain ⟨d1, h1, h⟩ := Option.bind_eq_some.1 h
      obtain ⟨d2, h2, h3⟩ := Option.bind_eq_some.1 h
      simp only [Option.some_bind, ih _ _ _ _ _ h1, ih _ _ _ _ _ h2,
        bitonicMerge_fuel_succ _ _ _ _ _ _ h3]
    · rw [if_neg hl] at h ⊢
      exact h

theorem driverLoopI_fuel_succ (n k j : Int) :
    ∀ (fuel : Nat) (data : List CSVData) (i : Int) (out : List CSVData),
      driverLoopI n k j fuel data i = some out →
      driverLoopI n k j (fuel + 1) data i = some out := by
  intro fuel
  induction fuel with
  | zero => intro data i out h; cases h
  | succ f ih =>
    intro data i out h
    rw [driverLoopI] at h ⊢
    by_cases hl : i < n
    · rw [if_pos hl] at h ⊢
      obtain ⟨d1, h1, h⟩ := Option.bind_eq_some.1 h
      obtain ⟨d2, h2, h3⟩ := Option.bind_eq_some.1 h
      simp only [Option.some_bind, bitonicSort_fuel_succ _ _ _ _ _ _ h1,
        bitonicSort_fuel_succ _ _ _ _ _ _ h2, ih _ _ _ h3]
    · rw [if_neg hl] at h ⊢
      exact h

theorem driverLoopJ_fuel_succ (n k : Int) :
    ∀ (fuel : Nat) (data : List CSVData) (j : Int) (out : List CSVData),
      driverLoopJ n k fuel data j = some out →
      driverLoopJ n k (fuel + 1) data j = some out := by
  intro fuel
  induction fuel with
  | zero => intro data j out h; cases h
  | succ f ih =>
    intro data j out h
    rw [driverLoopJ] at h ⊢
    by_cases hl : j > 0
    · rw [if_pos hl] at h ⊢
      obtain ⟨d1, h1, h2⟩ := Option.bind_eq_some.1 h
      simp only [Option.some_bind, driverLoopI_fuel_succ _ _ _ _ _ _ _ h1, ih _ _ _ h2]
    · rw [if_neg hl] at h ⊢
      exact h

theorem driverLoopK_fuel_succ (n : Int) :
    ∀ (fuel : Nat) (data : List CSVData) (k : Int) (out : List CSVData),
      driverLoopK n fuel data k = some out →
      driverLoopK n (fuel + 1) data k = some out := by
  intro fuel
  induction fuel with
  | zero => intro data k out h; cases h
  | succ f ih =>
    intro data k out h
    rw [driverLoopK] at h ⊢
    by_cases hl : k ≤ n
    · rw [if_pos hl] at h ⊢
      obtain ⟨d1, h1, h2⟩ := Option.bind_eq_some.1 h
      simp only [Option.some_bind, driverLoopJ_fuel_succ _ _ _ _ _ _ h1, ih _ _ _ h2]
    · rw [if_neg hl] at h ⊢
      exact h

/-- A result of the driver is the result for every larger amount of fuel. -/
theorem bitonicDriver_fuel_mono (data out : List CSVData) (fuel fuel' : Nat)
    (hle : fuel ≤ fuel') (h : bitonicDriver fuel data = some out) :
    bitonicDriver fuel' data = some out := by
  induction hle with
  | refl => exact h
  | step _ ih => exact driverLoopK_fuel_succ _ _ _ _ _ ih

/-! ## Bitonic sort: the driver on the concrete scenario -/

/-- C6 fails on the concrete scenario of the specification: on the records with
keys 40, 10, 30, 20 the driver loop of `main` returns (with 8 units of fuel, and
with any amount of fuel that lets it return) the key order 10, 40, 30, 20, in which
`key[i] <= key[j]` fails for `i = 1`, `j = 2`; the order 10, 20, 30, 40 is required. -/
theorem bitonicDriver_sample_not_sorted :
    ∃ out, bitonicDriver 8 sampleData = some out
      ∧ out = [mkRecord "b" 10, mkRecord "a" 40, mkRecord "c" 30, mkRecord "d" 20]
      ∧ (∀ (fuel : Nat) (out' : List CSVData), bitonicDriver fuel sampleData = some out' →
          out' = out)
      ∧ ¬ ∀ (i j : Nat) (hij : i < j) (hj : j < out.length), key out[i] ≤ key out[j] := by
  have h8 : bitonicDriver 8 sampleData
      = some [mkRecord "b" 10, mkRecord "a" 40, mkRecord "c" 30, mkRecord "d" 20] := by decide
  refine ⟨_, h8, rfl, ?_, ?_⟩
  · intro fuel out h
    rcases Nat.le_total fuel 8 with hle | hle
    · have := bitonicDriver_fuel_mono _ _ _ _ hle h
      rw [h8] at this
      exact (Option.some.inj this).symm
    · have := bitonicDriver_fuel_mono _ _ _ _ hle h8
      rw [h] at this
      exact Option.some.inj this
  · intro h
    have h12 := h 1 2 (by decide) (by decide)
    exact absurd h12 (by decide)

/-! ## Rank sort: truncation and the maximum key -/

theorem truncInt_eq_floor (x : ℚ) (hx : 0 ≤ x) : truncInt x = ⌊x⌋ := by
  rw [truncInt, Rat.floor_def, Int.tdiv_eq_ediv (Rat.num_nonneg.2 hx) (Int.natCast_nonneg _)]

theorem truncInt_nonneg (x : ℚ) (hx : 0 ≤ x) : 0 ≤ truncInt x := by
  rw [truncInt_eq_floor x hx]
  exact Int.floor_nonneg.2 hx

theorem truncInt_mono (x y : ℚ) (hx : 0 ≤ x) (hxy : x ≤ y) : truncInt x ≤ truncInt y := by
  rw [truncInt_eq_floor x hx, truncInt_eq_floor y (le_trans hx hxy)]
  exact Int.floor_mono hxy

theorem foldl_max_ge (l : List CSVData) :
    ∀ m : ℚ, m ≤ l.foldl (fun m d => if key d > m then key d else m) m
      ∧ ∀ d ∈ l, key d ≤ l.foldl (fun m d => if key d > m then key d else m) m := by
  induction l with
  | nil => intro m; simp
  | cons a l ih =>
    intro m
    simp only [List.foldl_cons, List.mem_cons, forall_eq_or_imp]
    obtain ⟨h1, h2⟩ := ih (if key a > m then key a else m)
    refine ⟨le_trans ?_ h1, le_trans ?_ h1, h2⟩
    · split
      · exact le_of_lt ‹_›
      · exact le_refl _
    · split
      · exact le_refl _
      · exact not_lt.1 ‹_›

theorem maxKey_nonneg (data : List CSVData) : 0 ≤ maxKey data :=
  (foldl_max_ge data 0).1

theorem key_le_maxKey (data : List CSVData) (d : CSVData) (hd : d ∈ data) :
    key d ≤ maxKey data :=
  (foldl_max_ge data 0).2 d hd

/-- Every histogram index is inside the histogram: for non-negative keys,
`0 <= static_cast<int>(key) < static_cast<int>(max) + 1`. -/
theorem bucket_in_range (data : List CSVData) (hnn : ∀ d ∈ data, 0 ≤ key d)
    (d : CSVData) (hd : d ∈ data) :
    0 ≤ bucket d ∧ bucket d < truncInt (maxKey data) + 1 := by
  refine ⟨truncInt_nonneg _ (hnn d hd), ?_⟩
  have := truncInt_mono (key d) (maxKey data) (hnn d hd) (key_le_maxKey data d hd)
  show truncInt (key d) < _
  omega

/-- The conversion `static_cast<int>` is defined on every non-negative value below
2147483647, and one can be added to its result. -/
theorem staticCastInt_of_bounds (x : ℚ) (h0 : 0 ≤ x) (h1 : x < 2147483647) :
    staticCastInt x = some (truncInt x) ∧ addInt (truncInt x) 1 = some (truncInt x + 1) := by
  have hn := truncInt_nonneg x h0
  have hlt : truncInt x < 2147483647 := by
    rw [truncInt_eq_floor x h0, Int.floor_lt]
    exact_mod_cast h1
  constructor
  · rw [staticCastInt, if_pos (by simp only [INT_MIN, INT_MAX]; omega)]
  · rw [addInt, if_pos (by simp only [INT_MIN, INT_MAX]; omega)]

theorem foldl_max_lt (B : ℚ) (l : List CSVData) (h : ∀ d ∈ l, key d < B) :
    ∀ m : ℚ, m < B → l.foldl (fun m d => if key d > m then key d else m) m < B := by
  induction l with
  | nil => intro m hm; exact hm
  | cons a l ih =>
    intro m hm
    rw [List.foldl_cons]
    apply ih (fun d hd => h d (List.mem_cons_of_mem _ hd))
    split
    · exact h a (List.mem_cons_self _ _)
    · exact hm

theorem maxKey_lt (data : List CSVData) (B : ℚ) (hB : 0 < B) (h : ∀ d ∈ data, key d < B) :
    maxKey data < B :=
  foldl_max_lt B data h 0 hB

/-- For keys that are non-negative and below 2147483647 every conversion
`static_cast<int>(key)` of the passes is defined. -/
theorem staticCastInt_key (data : List CSVData)
    (hk : ∀ d ∈ data, 0 ≤ key d ∧ key d < 2147483647) (d : CSVData) (hd : d ∈ data) :
    staticCastInt (key d) = some (bucket d) :=
  (staticCastInt_of_bounds (key d) (hk d hd).1 (hk d hd).2).1

/-! ## Rank sort: counting facts -/

theorem bucketCount_nil (v : Int) : bucketCount [] v = 0 := by simp [bucketCount]

theorem bucketCount_cons (d : CSVData) (l : List CSVData) (v : Int) :
    bucketCount (d :: l) v = bucketCount l v + (if bucket d = v then 1 else 0) := by
  simp only [bucketCount, List.countP_cons, decide_eq_true_eq]
  split <;> simp

theorem bucketCountLE_cons (d : CSVData) (l : List CSVData) (v : Int) :
    bucketCountLE (d :: l) v = bucketCountLE l v + (if bucket d ≤ v then 1 else 0) := by
  simp only [bucketCountLE, List.countP_cons, decide_eq_true_eq]
  split <;> simp

theorem bucketCount_nonneg (l : List CSVData) (v : Int) : 0 ≤ bucketCount l v := by
  simp [bucketCount]

theorem bucketCountLE_le_length (l : List CSVData) (v : Int) :
    bucketCountLE l v ≤ l.length := by
  simp only [bucketCountLE, Nat.cast_le]
  exact List.countP_le_length _

theorem bucketCount_drop_le (l : List CSVData) (m : Nat) (v : Int) :
    bucketCount (l.drop m) v ≤ bucketCount l v := by
  simp only [bucketCount, Nat.cast_le]
  exact (List.drop_sublist m l).countP_le _

/-- Buckets do not overlap: for `v < w` the records counted up to `v` and the
records of bucket `w` are disjoint parts of the records counted up to `w`. -/
theorem bucketCountLE_add_le (l : List CSVData) (v w : Int) (h : v < w) :
    bucketCountLE l v + bucketCount l w ≤ bucketCountLE l w := by
  induction l with
  | nil => simp [bucketCount, bucketCountLE]
  | cons d l ih =>
    rw [bucketCountLE_cons, bucketCountLE_cons, bucketCount_cons]
    split <;> split <;> split <;> omega

theorem bucketCount_le_LE (l : List CSVData) (v : Int) :
    bucketCount l v ≤ bucketCountLE l v := by
  induction l with
  | nil => simp [bucketCount, bucketCountLE]
  | cons d l ih =>
    rw [bucketCountLE_cons, bucketCount_cons]
    split <;> split <;> omega

theorem bucketCountLE_succ (l : List CSVData) (v : Int) :
    bucketCountLE l (v + 1) = bucketCountLE l v + bucketCount l (v + 1) := by
  induction l with
  | nil => simp [bucketCount, bucketCountLE]
  | cons d l ih =>
    rw [bucketCountLE_cons, bucketCountLE_cons, bucketCount_cons, ih]
    split <;> split <;> split <;> omega

theorem bucketCountLE_zero (l : List CSVData) (h : ∀ d ∈ l, 0 ≤ bucket d) :
    bucketCountLE l 0 = bucketCount l 0 := by
  induction l with
  | nil => simp [bucketCount, bucketCountLE]
  | cons d l ih =>
    have h0 := h d (List.mem_cons_self _ _)
    rw [bucketCountLE_cons, bucketCount_cons, ih (fun x hx => h x (List.mem_cons_of_mem _ hx))]
    split <;> split <;> omega

theorem bucketCountLE_neg (l : List CSVData) (h : ∀ d ∈ l, 0 ≤ bucket d) (v : Int)
    (hv : v < 0) : bucketCountLE l v = 0 := by
  induction l with
  | nil => simp [bucketCountLE]
  | cons d l ih =>
    have h0 := h d (List.mem_cons_self _ _)
    rw [bucketCountLE_cons, ih (fun x hx => h x (List.mem_cons_of_mem _ hx))]
    split <;> omega

theorem bucketCountLE_top (l : List CSVData) (v : Int) (h : ∀ d ∈ l, bucket d ≤ v) :
    bucketCountLE l v = l.length := by
  induction l with
  | nil => simp [bucketCountLE]
  | cons d l ih =>
    have h0 := h d (List.mem_cons_self _ _)
    rw [bucketCountLE_cons, ih (fun x hx => h x (List.mem_cons_of_mem _ hx))]
    simp [h0]

/-! ## Rank sort: the histogram pass and the prefix-sum loop -/

theorem RankIs.congr {rk : List Int} {size : Int} {f g : Int → Int} (h : RankIs rk size f)
    (hfg : ∀ v : Int, 0 ≤ v → v < size → f v = g v) : RankIs rk size g :=
  ⟨h.1, fun v h0 h1 => by rw [h.2 v h0 h1, hfg v h0 h1]⟩

theorem RankIs.write {rk : List Int} {size : Int} {f : Int → Int} (h : RankIs rk size f)
    (v : Int) (hv0 : 0 ≤ v) (hv : v < size) (x : Int) :
    ∃ rk', writeAt rk v x = some rk' ∧ RankIs rk' size (fun u => if u = v then x else f u) := by
  obtain ⟨rk', hw⟩ := writeAt_some rk v x hv0 (by rw [h.1]; exact hv)
  refine ⟨rk', hw, ?_, ?_⟩
  · rw [writeAt_length _ _ _ _ hw, h.1]
  · intro u hu0 hu
    rw [readAt_writeAt _ _ _ _ hw]
    by_cases e : u = v
    · simp only [e, if_true]
    · simp only [e, if_false]
      exact h.2 u hu0 hu

theorem rankIs_replicate (size : Int) (h : 0 ≤ size) :
    RankIs (List.replicate size.toNat 0) size (fun _ => 0) := by
  refine ⟨by simp; omega, ?_⟩
  intro v hv0 hv
  rw [readAt, if_pos hv0, List.getElem?_replicate, if_pos (by omega)]

/-- The histogram pass stays inside the array and adds to every slot the number
of records of its bucket. -/
theorem histogram_spec (size : Int) :
    ∀ (l : List CSVData) (rk : List Int) (f : Int → Int), RankIs rk size f →
      (∀ d ∈ l, 0 ≤ bucket d ∧ bucket d < size) →
      (∀ d ∈ l, staticCastInt (key d) = some (bucket d)) →
      ∃ rk', histogram rk l = some rk' ∧ RankIs rk' size (fun v => f v + bucketCount l v) := by
  intro l
  induction l with
  | nil =>
    intro rk f h _ _
    exact ⟨rk, rfl, h.congr (by intro v _ _; simp [bucketCount_nil])⟩
  | cons d l ih =>
    intro rk f h hb hc
    obtain ⟨hb0, hb1⟩ := hb d (List.mem_cons_self _ _)
    obtain ⟨rk1, hw, hrk1⟩ := h.write (bucket d) hb0 hb1 (f (bucket d) + 1)
    obtain ⟨rk', hh, hrk'⟩ := ih rk1 _ hrk1 (fun x hx => hb x (List.mem_cons_of_mem _ hx))
      (fun x hx => hc x (List.mem_cons_of_mem _ hx))
    refine ⟨rk', ?_, hrk'.congr ?_⟩
    · unfold histogram at hh ⊢
      rw [List.foldlM_cons, hc d (List.mem_cons_self _ _)]
      simp only [Option.some_bind, Option.bind_eq_bind]
      rw [h.2 _ hb0 hb1]
      simp only [Option.some_bind]
      rw [hw]
      exact hh
    · intro v _ _
      rw [bucketCount_cons]
      by_cases hv : v = bucket d
      · subst hv; simp; omega
      · have : ¬ bucket d = v := fun e => hv e.symm
        simp [hv, this]

/-- The body of the prefix-sum loop for the index `t + 1`. -/
theorem prefixSum_aux (data : List CSVData) (size : Int) (hnn : ∀ d ∈ data, 0 ≤ bucket d) :
    ∀ (t : Nat) (rk : List Int), (t : Int) + 1 ≤ size → RankIs rk size (bucketCount data) →
      ∃ rk', (List.range t).foldlM
          (fun rk (t : Nat) =>
            (readAt rk ((t : Int) + 1)).bind fun a =>
              (readAt rk ((t : Int) + 1 - 1)).bind fun b => writeAt rk ((t : Int) + 1) (a + b))
          rk = some rk'
        ∧ RankIs rk' size
            (fun v => if v ≤ (t : Int) then bucketCountLE data v else bucketCount data v) := by
  intro t
  induction t with
  | zero =>
    intro rk _ h
    refine ⟨rk, rfl, h.congr ?_⟩
    intro v hv0 _
    by_cases hv : v ≤ ((0 : Nat) : Int)
    · have : v = 0 := by omega
      rw [if_pos hv, this, bucketCountLE_zero data hnn]
    · rw [if_neg hv]
  | succ t ih =>
    intro rk ht h
    obtain ⟨rk1, h1, hrk1⟩ := ih rk (by omega) h
    have ha := hrk1.2 ((t : Int) + 1) (by omega) (by omega)
    have hb := hrk1.2 ((t : Int) + 1 - 1) (by omega) (by omega)
    dsimp only at ha hb
    rw [if_neg (by omega)] at ha
    rw [if_pos (by omega)] at hb
    obtain ⟨rk', hw, hrk'⟩ := hrk1.write ((t : Int) + 1) (by omega) (by omega)
      (bucketCount data ((t : Int) + 1) + bucketCountLE data ((t : Int) + 1 - 1))
    refine ⟨rk', ?_, hrk'.congr ?_⟩
    · rw [List.range_succ, List.foldlM_append, h1]
      simp only [Option.some_bind, Option.bind_eq_bind, List.foldlM_cons, List.foldlM_nil]
      rw [ha, Option.some_bind, hb, Option.some_bind, hw]
      rfl
    · intro v hv0 hv
      by_cases e : v = (t : Int) + 1
      · rw [if_pos e, if_pos (by push_cast; omega), e]
        have := bucketCountLE_succ data (t : Int)
        rw [show (t : Int) + 1 - 1 = (t : Int) by omega]
        omega
      · rw [if_neg e]
        by_cases hvt : v ≤ (t : Int)
        · rw [if_pos hvt, if_pos (by push_cast; omega)]
        · rw [if_neg hvt, if_neg (by push_cast; omega)]

/-- The array `rank` after the histogram pass and the prefix-sum loop: slot `v`
holds the number of records whose truncated key is at most `v`. -/
theorem rankArray_spec (data : List CSVData)
    (hk : ∀ d ∈ data, 0 ≤ key d ∧ key d < 2147483647) :
    ∃ rank, rankArray data = some rank
      ∧ RankIs rank (truncInt (maxKey data) + 1) (bucketCountLE data) := by
  have hnn : ∀ d ∈ data, 0 ≤ key d := fun d hd => (hk d hd).1
  have hM : 0 ≤ truncInt (maxKey data) := truncInt_nonneg _ (maxKey_nonneg data)
  have hsize : 0 ≤ truncInt (maxKey data) + 1 := by omega
  have hb := bucket_in_range data hnn
  obtain ⟨hcast, hadd⟩ := staticCastInt_of_bounds (maxKey data) (maxKey_nonneg data)
    (maxKey_lt data _ (by norm_num) (fun d hd => (hk d hd).2))
  obtain ⟨rk1, hh, hrk1⟩ := histogram_spec _ data _ _ (rankIs_replicate _ hsize) hb
    (staticCastInt_key data hk)
  have hrk1' : RankIs rk1 (truncInt (maxKey data) + 1) (bucketCount data) :=
    hrk1.congr (by intro v _ _; simp)
  have hlen : ((rk1.length - 1 : Nat) : Int) + 1 ≤ truncInt (maxKey data) + 1 := by
    have h1 : (rk1.length : Int) = truncInt (maxKey data) + 1 := hrk1'.1
    omega
  obtain ⟨rk2, hp, hrk2⟩ := prefixSum_aux data _ (fun d hd => (hb d hd).1)
    (rk1.length - 1) rk1 hlen hrk1'
  refine ⟨rk2, ?_, hrk2.congr ?_⟩
  · rw [rankArray, hcast, Option.some_bind, hadd, Option.some_bind, if_pos hsize, hh,
      Option.some_bind]
    exact hp
  · intro v _ hv
    have h1 : (rk1.length : Int) = truncInt (maxKey data) + 1 := hrk1'.1
    rw [if_pos (by omega)]

/-! ## Rank sort: the placement pass -/

/-- One iteration of the placement loop, for the index `m`, keeps the invariant. -/
theorem placeStep_inv (data : List CSVData) (size : Int)
    (hb : ∀ d ∈ data, 0 ≤ bucket d ∧ bucket d < size)
    (hc : ∀ d ∈ data, staticCastInt (key d) = some (bucket d)) (m : Nat)
    (hm : m < data.length) (st : PlaceState) (inv : PlaceInv data size (m + 1) st) :
    ∃ st', placeStep data st m = some st' ∧ PlaceInv data size m st' := by
  obtain ⟨hb0, hb1⟩ := hb data[m] (List.getElem_mem _)
  have hcd := hc data[m] (List.getElem_mem _)
  have hdrop : data.drop m = data[m] :: data.drop (m + 1) := List.drop_eq_getElem_cons hm
  generalize hd : data[m] = d at hb0 hb1 hdrop hcd
  generalize hS : data.drop (m + 1) = S at hdrop
  have inv_rank := inv.rank
  have inv_content := inv.content
  have inv_range := inv.slots_range
  rw [hS] at inv_rank inv_content inv_range
  -- counting facts
  have hcons : ∀ v, bucketCount (d :: S) v = bucketCount S v + (if bucket d = v then 1 else 0) :=
    bucketCount_cons d S
  have hSle : ∀ v, bucketCount (d :: S) v ≤ bucketCount data v := by
    intro v; rw [← hdrop]; exact bucketCount_drop_le data m v
  have hS0 : ∀ v, 0 ≤ bucketCount S v := bucketCount_nonneg S
  have hS0b : 0 ≤ bucketCount S (bucket d) := hS0 _
  have hcb : bucketCount S (bucket d) + 1 ≤ bucketCount data (bucket d) := by
    have := hSle (bucket d); rw [hcons, if_pos rfl] at this; exact this
  have hSle' : ∀ v, bucketCount S v ≤ bucketCount data v := by
    intro v
    have := hSle v; rw [hcons] at this
    split at this <;> omega
  have hle := bucketCount_le_LE data (bucket d)
  have hlen := bucketCountLE_le_length data (bucket d)
  have hlow : ∀ v, v < bucket d →
      bucketCountLE data v ≤ bucketCountLE data (bucket d) - bucketCount data (bucket d) := by
    intro v hv; have := bucketCountLE_add_le data v (bucket d) hv; omega
  have hhigh : ∀ v, bucket d < v →
      bucketCountLE data (bucket d) ≤ bucketCountLE data v - bucketCount data v := by
    intro v hv; have := bucketCountLE_add_le data (bucket d) v hv; omega
  -- the reads and writes of the iteration
  obtain ⟨c, hc⟩ : ∃ c, c = bucketCountLE data (bucket d) - bucketCount S (bucket d) := ⟨_, rfl⟩
  have hr1 : readAt data (m : Int) = some d := by
    rw [readAt_natCast, List.getElem?_eq_getElem hm, hd]
  have hr2 : readAt st.rank (bucket d) = some c := by
    rw [inv_rank.2 _ hb0 hb1, hc]
  obtain ⟨sd, hw1⟩ := writeAt_some st.sortedData (c - 1) d (by omega)
    (by rw [inv.len]; omega)
  obtain ⟨rk, hw2, hrk⟩ := inv_rank.write (bucket d) hb0 hb1 (c - 1)
  have hne : ∀ s ∈ st.slots, s ≠ c - 1 := by
    intro s hs
    obtain ⟨v, _, _, h1, h2⟩ := inv_range s hs
    have := hSle' v
    rcases lt_trichotomy v (bucket d) with h | h | h
    · have := hlow v h; omega
    · subst h; omega
    · have := hhigh v h; omega
  refine ⟨⟨sd, rk, (c - 1) :: st.slots⟩, ?_, ?_⟩
  · rw [placeStep, hr1, Option.some_bind, hcd, Option.some_bind, hr2, Option.some_bind, hw1,
      Option.some_bind, Option.some_bind, hr2, Option.some_bind, hw2, Option.some_bind]
  · refine ⟨?_, ?_, ?_, ?_, ?_, ?_, ?_⟩
    · show sd.length = data.length
      rw [writeAt_length _ _ _ _ hw1, inv.len]
    · show RankIs rk size _
      refine hrk.congr ?_
      intro v _ _
      rw [hdrop, hcons]
      by_cases hv : v = bucket d
      · subst hv
        rw [if_pos rfl, if_pos rfl]; omega
      · rw [if_neg hv, if_neg (fun e => hv e.symm)]; omega
    · intro v hv0 hv u hu
      show readAt sd _ = _
      rw [hdrop] at hu ⊢
      rw [hcons] at hu ⊢
      rw [readAt_writeAt _ _ _ _ hw1]
      by_cases hvb : bucket d = v
      · subst hvb
        rw [if_pos rfl] at hu ⊢
        rw [List.filter_cons_of_pos (by simp)]
        cases u with
        | zero =>
          rw [if_pos (by push_cast; omega), List.getElem?_cons_zero]
        | succ u =>
          rw [if_neg (by push_cast; omega), List.getElem?_cons_succ,
            ← inv_content (bucket d) hv0 hv u (by push_cast at hu; omega)]
          congr 1
          push_cast; omega
      · rw [if_neg hvb] at hu ⊢
        rw [List.filter_cons_of_neg (by simpa using hvb)]
        have hp : bucketCountLE data v - (bucketCount S v + 0) + (u : Int) ≠ c - 1 := by
          have := hSle' v
          rcases lt_trichotomy v (bucket d) with h | h | h
          · have := hlow v h
            have := bucketCount_le_LE data v
            omega
          · exact absurd h.symm hvb
          · have := hhigh v h; omega
        rw [if_neg hp, ← inv_content v hv0 hv u (by omega)]
        congr 1
    · show ((c - 1) :: st.slots).length + m = data.length
      have := inv.slots_len
      simp only [List.length_cons]; omega
    · show ((c - 1) :: st.slots).Nodup
      exact List.nodup_cons.2 ⟨fun hmem => hne _ hmem rfl, inv.slots_nodup⟩
    · intro s hs
      rw [hdrop]
      rcases List.mem_cons.1 hs with rfl | hs'
      · refine ⟨bucket d, hb0, hb1, ?_, ?_⟩
        · rw [hcons, if_pos rfl]; omega
        · have := hS0 (bucket d); omega
      · obtain ⟨v, hv0, hv, h1, h2⟩ := inv_range s hs'
        refine ⟨v, hv0, hv, ?_, h2⟩
        rw [hcons]
        split <;> omega
    · intro i s hs
      show readAt sd s = _
      rw [readAt_writeAt _ _ _ _ hw1]
      cases i with
      | zero =>
        have : s = c - 1 := by simpa using hs.symm
        rw [if_pos this, Nat.add_zero, List.getElem?_eq_getElem hm, hd]
      | succ i =>
        have hs' : st.slots[i]? = some s := by simpa using hs
        have hmem : s ∈ st.slots := List.getElem?_mem hs'
        rw [if_neg (hne s hmem), inv.slots_data i s hs']
        congr 1
        omega

/-- The placement pass from the index `m - 1` down to `0`. -/
theorem placeLoop_inv (data : List CSVData) (size : Int)
    (hb : ∀ d ∈ data, 0 ≤ bucket d ∧ bucket d < size)
    (hc : ∀ d ∈ data, staticCastInt (key d) = some (bucket d)) :
    ∀ (m : Nat), m ≤ data.length → ∀ st : PlaceState, PlaceInv data size m st →
      ∃ st', (List.range m).reverse.foldlM (placeStep data) st = some st'
        ∧ PlaceInv data size 0 st' := by
  intro m
  induction m with
  | zero => intro _ st inv; exact ⟨st, rfl, inv⟩
  | succ m ih =>
    intro hm st inv
    obtain ⟨st1, h1, inv1⟩ := placeStep_inv data size hb hc m (by omega) st inv
    obtain ⟨st', h2, inv'⟩ := ih (by omega) st1 inv1
    refine ⟨st', ?_, inv'⟩
    rw [List.range_succ, List.reverse_append, List.reverse_singleton, List.singleton_append,
      List.foldlM_cons, h1]
    exact h2

theorem placeInv_init (data : List CSVData) (size : Int) (rank : List Int)
    (h : RankIs rank size (bucketCountLE data)) :
    PlaceInv data size data.length ⟨List.replicate data.length default, rank, []⟩ := by
  have hnil : data.drop data.length = [] := List.drop_length data
  refine ⟨by simp, ?_, ?_, by simp, List.nodup_nil, by simp, by simp⟩
  · rw [hnil]
    exact h.congr (by intro v _ _; simp [bucketCount_nil])
  · intro v _ _ u hu
    rw [hnil, bucketCount_nil] at hu
    omega

/-- The rank-sort passes return, and the final state satisfies the invariant of
the placement pass for the whole collection. -/
theorem rankPlace_spec (data : List CSVData)
    (hk : ∀ d ∈ data, 0 ≤ key d ∧ key d < 2147483647) :
    ∃ st, rankPlace data = some st
      ∧ PlaceInv data (truncInt (maxKey data) + 1) 0 st := by
  have hnn : ∀ d ∈ data, 0 ≤ key d := fun d hd => (hk d hd).1
  obtain ⟨rank, hr, hrank⟩ := rankArray_spec data hk
  obtain ⟨st, hs, inv⟩ := placeLoop_inv data _ (bucket_in_range data hnn)
    (staticCastInt_key data hk) data.length (le_refl _) _ (placeInv_init data _ rank hrank)
  exact ⟨st, by rw [rankPlace, hr, Option.some_bind]; exact hs, inv⟩

/-! ## Rank sort: the output is the list of the buckets -/

theorem bucketList_succ (data : List CSVData) (k : Nat) :
    bucketList data (k + 1)
      = bucketList data k ++ data.filter (fun d => decide (bucket d = (k : Int))) := by
  simp [bucketList, List.range_succ, List.flatMap_append]

theorem length_filter_bucket (data : List CSVData) (v : Int) :
    ((data.filter (fun d => decide (bucket d = v))).length : Int) = bucketCount data v := by
  rw [bucketCount, List.countP_eq_length_filter]

/-- When the placement pass is over, the first `rank[k-1]` slots of the output
hold the buckets `0 .. k-1` one after the other. -/
theorem take_sortedData (data : List CSVData) (size : Int) (st : PlaceState)
    (hb : ∀ d ∈ data, 0 ≤ bucket d) (inv : PlaceInv data size 0 st) :
    ∀ k : Nat, (k : Int) ≤ size →
      st.sortedData.take (bucketCountLE data ((k : Int) - 1)).toNat = bucketList data k := by
  intro k
  induction k with
  | zero =>
    intro _
    rw [bucketCountLE_neg data hb _ (by simp)]
    rfl
  | succ k ih =>
    intro hk
    have hsucc := bucketCountLE_succ data ((k : Int) - 1)
    rw [show (k : Int) - 1 + 1 = (k : Int) by omega] at hsucc
    have h0 : 0 ≤ bucketCountLE data ((k : Int) - 1) := by
      simp [bucketCountLE]
    have h1 := bucketCount_nonneg data (k : Int)
    have hsplit : (bucketCountLE data (((k + 1 : Nat) : Int) - 1)).toNat
        = (bucketCountLE data ((k : Int) - 1)).toNat + (bucketCount data (k : Int)).toNat := by
      rw [show ((k + 1 : Nat) : Int) - 1 = (k : Int) by push_cast; omega, hsucc]
      omega
    rw [hsplit, List.take_add, ih (by omega), bucketList_succ]
    congr 1
    apply List.ext_getElem?
    intro u
    have hlen := length_filter_bucket data (k : Int)
    by_cases hu : u < (bucketCount data (k : Int)).toNat
    · rw [List.getElem?_take_of_lt hu, List.getElem?_drop]
      have hc := inv.content (k : Int) (by omega) (by omega) u
        (by rw [List.drop_zero]; omega)
      rw [List.drop_zero] at hc
      rw [← hc, ← readAt_natCast]
      congr 1
      push_cast
      omega
    · rw [List.getElem?_take_eq_none (by omega), eq_comm, List.getElem?_eq_none_iff]
      omega

theorem sortedData_eq_bucketList (data : List CSVData) (size : Int) (st : PlaceState)
    (hsize : 0 ≤ size) (hb : ∀ d ∈ data, 0 ≤ bucket d ∧ bucket d < size)
    (inv : PlaceInv data size 0 st) :
    st.sortedData = bucketList data size.toNat := by
  have h := take_sortedData data size st (fun d hd => (hb d hd).1) inv size.toNat (by omega)
  rw [bucketCountLE_top data _ (fun d hd => by have := (hb d hd).2; omega)] at h
  rw [← h, Int.toNat_ofNat, ← inv.len, List.take_length]

theorem mem_bucketList (data : List CSVData) (k : Nat) (x : CSVData)
    (hx : x ∈ bucketList data k) : 0 ≤ bucket x ∧ bucket x < (k : Int) := by
  simp only [bucketList, List.mem_flatMap, List.mem_range, List.mem_filter,
    decide_eq_true_eq] at hx
  obtain ⟨v, hv, _, hxv⟩ := hx
  rw [hxv]
  omega

theorem bucketList_pairwise (data : List CSVData) (k : Nat) :
    (bucketList data k).Pairwise (fun a b => bucket a ≤ bucket b) := by
  induction k with
  | zero => exact List.Pairwise.nil
  | succ k ih =>
    rw [bucketList_succ, List.pairwise_append]
    refine ⟨ih, ?_, ?_⟩
    · rw [List.pairwise_iff_forall_sublist]
      intro a b hab
      have ha := hab.subset (List.mem_cons_self _ _)
      have hb' := hab.subset (List.mem_cons_of_mem _ (List.mem_singleton_self _))
      simp only [List.mem_filter, decide_eq_true_eq] at ha hb'
      rw [ha.2, hb'.2]
    · intro a ha b hb'
      have h1 := (mem_bucketList data k a ha).2
      simp only [List.mem_filter, decide_eq_true_eq] at hb'
      rw [hb'.2]
      exact le_of_lt h1

theorem filter_bucketList (data : List CSVData) (v : Int) (k : Nat) :
    (bucketList data k).filter (fun d => decide (bucket d = v))
      = if 0 ≤ v ∧ v < (k : Int) then data.filter (fun d => decide (bucket d = v)) else [] := by
  induction k with
  | zero =>
    rw [if_neg (by omega)]
    rfl
  | succ k ih =>
    rw [bucketList_succ, List.filter_append, ih, List.filter_filter]
    by_cases hv : v = (k : Int)
    · subst hv
      rw [if_neg (by omega), if_pos (by push_cast; omega), List.nil_append]
      congr 1
      funext d
      simp
    · have hnone : data.filter (fun a => decide (bucket a = v) && decide (bucket a = (k : Int)))
          = [] := by
        rw [List.filter_eq_nil_iff]
        intro d _
        simp only [Bool.and_eq_true, decide_eq_true_eq, not_and]
        intro h1 h2
        exact hv (h1.symm.trans h2)
      rw [hnone, List.append_nil]
      by_cases h : 0 ≤ v ∧ v < (k : Int)
      · rw [if_pos h, if_pos (by push_cast; omega)]
      · rw [if_neg h, if_neg (by push_cast; omega)]

theorem perm_of_filter_bucket (out data : List CSVData)
    (h : ∀ v : Int, out.filter (fun d => decide (bucket d = v))
      = data.filter (fun d => decide (bucket d = v))) : out.Perm data := by
  rw [List.perm_iff_count]
  intro a
  have e : ∀ l : List CSVData,
      List.count a (l.filter (fun d => decide (bucket d = bucket a))) = List.count a l :=
    fun l => List.count_filter (by simp)
  rw [← e out, ← e data, h]

/-- The rank-sort engine returns the stable sort of its input by truncated key. -/
theorem rankPlace_stable (data : List CSVData)
    (hk : ∀ d ∈ data, 0 ≤ key d ∧ key d < 2147483647) :
    ∃ st, rankPlace data = some st ∧ StableSortByBucket st.sortedData data
      ∧ PlaceInv data (truncInt (maxKey data) + 1) 0 st := by
  have hnn : ∀ d ∈ data, 0 ≤ key d := fun d hd => (hk d hd).1
  obtain ⟨st, hs, inv⟩ := rankPlace_spec data hk
  have hM : 0 ≤ truncInt (maxKey data) := truncInt_nonneg _ (maxKey_nonneg data)
  have hb := bucket_in_range data hnn
  have heq := sortedData_eq_bucketList data _ st (by omega) hb inv
  have hstable : ∀ v : Int, st.sortedData.filter (fun d => decide (bucket d = v))
      = data.filter (fun d => decide (bucket d = v)) := by
    intro v
    rw [heq, filter_bucketList]
    split
    · rfl
    · rename_i hv
      rw [eq_comm, List.filter_eq_nil_iff]
      intro d hd
      simp only [decide_eq_true_eq]
      intro e
      have := hb d hd
      rw [e] at this
      exact hv ⟨this.1, by omega⟩
  refine ⟨st, hs, ⟨perm_of_filter_bucket _ _ hstable, ?_, hstable⟩, inv⟩
  rw [heq]
  exact bucketList_pairwise data _

/-! ## Rank sort: the contract -/

theorem slots_bounds (data : List CSVData) (size : Int) (st : PlaceState)
    (inv : PlaceInv data size 0 st) (s : Int) (hs : s ∈ st.slots) :
    0 ≤ s ∧ s < data.length := by
  obtain ⟨v, _, _, h1, h2⟩ := inv.slots_range s hs
  rw [List.drop_zero] at h1
  have := bucketCount_le_LE data v
  have := bucketCountLE_le_length data v
  omega

/-- Distinct slots inside `0 .. n-1`, as many as there are slots: every slot is hit. -/
theorem slots_surjective (n : Nat) (slots : List Int) (hlen : slots.length = n)
    (hnd : slots.Nodup) (hr : ∀ s ∈ slots, 0 ≤ s ∧ s < (n : Int)) (s : Int) (h0 : 0 ≤ s)
    (h1 : s < (n : Int)) : s ∈ slots := by
  have hnd' : (slots.map Int.toNat).Nodup := by
    refine List.Nodup.map_on ?_ hnd
    intro a ha b hb hab
    have := (hr a ha).1
    have := (hr b hb).1
    omega
  have hsub : (slots.map Int.toNat).toFinset ⊆ Finset.range n := by
    intro x hx
    simp only [List.mem_toFinset, List.mem_map] at hx
    obtain ⟨a, ha, rfl⟩ := hx
    have := hr a ha
    simp only [Finset.mem_range]
    omega
  have hcard : (Finset.range n).card ≤ (slots.map Int.toNat).toFinset.card := by
    rw [List.toFinset_card_of_nodup hnd', List.length_map, hlen, Finset.card_range]
  have heq := Finset.eq_of_subset_of_card_le hsub hcard
  have hmem : s.toNat ∈ (slots.map Int.toNat).toFinset := by
    rw [heq, Finset.mem_range]; omega
  simp only [List.mem_toFinset, List.mem_map] at hmem
  obtain ⟨a, ha, hab⟩ := hmem
  have := (hr a ha).1
  have : a = s := by omega
  rwa [← this]

/-! ## Rank sort: the array `rank` does not depend on the order of the records -/

theorem maxKey_perm (d1 d2 : List CSVData) (h : d1.Perm d2) : maxKey d1 = maxKey d2 := by
  unfold maxKey
  apply List.Perm.foldl_eq' h
  intro x _ y _ z
  by_cases h1 : key x > z <;> by_cases h2 : key y > z <;> by_cases h3 : key y > key x <;>
    by_cases h4 : key x > key y <;> simp only [h1, h2, h3, h4, if_true, if_false] <;>
    first
      | rfl
      | (exfalso; linarith)
      | (apply le_antisymm <;> linarith)

theorem bucketCountLE_perm (d1 d2 : List CSVData) (h : d1.Perm d2) (v : Int) :
    bucketCountLE d1 v = bucketCountLE d2 v := by
  simp only [bucketCountLE, h.countP_eq]

theorem rankIs_unique (r1 r2 : List Int) (size : Int) (f : Int → Int) (h1 : RankIs r1 size f)
    (h2 : RankIs r2 size f) : r1 = r2 := by
  apply List.ext_getElem?
  intro q
  by_cases hq : (q : Int) < size
  · rw [← readAt_natCast, ← readAt_natCast, h1.2 _ (by omega) hq, h2.2 _ (by omega) hq]
  · have e1 := h1.1
    have e2 := h2.1
    rw [List.getElem?_eq_none (by omega), List.getElem?_eq_none (by omega)]

/-- The array `rank` of a rearrangement of the collection is the array `rank` of
the collection. -/
theorem rankArray_perm (d1 d2 : List CSVData) (h : d1.Perm d2)
    (hk : ∀ d ∈ d2, 0 ≤ key d ∧ key d < 2147483647) : rankArray d1 = rankArray d2 := by
  obtain ⟨r1, e1, h1⟩ := rankArray_spec d1 (fun d hd => hk d (h.subset hd))
  obtain ⟨r2, e2, h2⟩ := rankArray_spec d2 hk
  rw [maxKey_perm d1 d2 h] at h1
  have h1' : RankIs r1 (truncInt (maxKey d2) + 1) (bucketCountLE d2) :=
    h1.congr (fun v _ _ => bucketCountLE_perm d1 d2 h v)
  rw [e1, e2, rankIs_unique r1 r2 _ _ h1' h2]

/-! ## Rank sort: a schedule of the placement pass is the loop order on a rearrangement -/

/-- The placement iterations read the collection only at their own index: two
lists of iterations that read the same records one after the other do the same. -/
theorem placeStep_foldlM_congr (d1 d2 : List CSVData) :
    ∀ (idx1 idx2 : List Nat) (st : PlaceState),
      idx1.map (fun i => d1[i]?) = idx2.map (fun i => d2[i]?) →
      idx1.foldlM (placeStep d1) st = idx2.foldlM (placeStep d2) st := by
  intro idx1
  induction idx1 with
  | nil =>
    intro idx2 st h
    cases idx2 with
    | nil => rfl
    | cons b l => cases h
  | cons a l ih =>
    intro idx2 st h
    cases idx2 with
    | nil => cases h
    | cons b l2 =>
      rw [List.map_cons, List.map_cons, List.cons.injEq] at h
      have hstep : placeStep d1 st a = placeStep d2 st b := by
        rw [placeStep, placeStep, readAt_natCast, readAt_natCast, h.1]
      rw [List.foldlM_cons, List.foldlM_cons, hstep]
      cases placeStep d2 st b with
      | none => rfl
      | some st' => exact ih l2 st' h.2

theorem map_getElem?_range (l : List CSVData) :
    (List.range l.length).map (fun i => l[i]?) = l.map some := by
  apply List.ext_getElem?
  intro q
  by_cases hq : q < l.length
  · rw [List.getElem?_map, List.getElem?_map, List.getElem?_range hq,
      List.getElem?_eq_getElem hq]
    simp only [Option.map_some', List.getElem?_eq_getElem hq]
  · rw [List.getElem?_eq_none (by simp; omega), List.getElem?_eq_none (by simp; omega)]

/-- The records of `data` in the order in which the schedule `order` places them,
last placed first: on this collection the loop order does what `order` does on
`data`. -/
theorem schedule_as_loop_order (data : List CSVData) (order : List Nat)
    (ho : order.Perm (List.range data.length)) :
    ∃ data' : List CSVData, data'.Perm data ∧ data'.length = data.length
      ∧ data'.reverse.map some = order.map (fun i => data[i]?)
      ∧ ∀ st, placeInOrder data order st = placeLoop data' st := by
  have hvalid : ∀ i ∈ order, i < data.length := fun i hi => List.mem_range.1 (ho.subset hi)
  have hmap : order.map (fun i => data[i]?) = (order.map (fun i => data.getD i default)).map some := by
    rw [List.map_map]
    apply List.map_congr_left
    intro i hi
    have := hvalid i hi
    simp [List.getD, List.getElem?_eq_getElem this]
  have hrange : (List.range data.length).map (fun i => data.getD i default) = data := by
    apply List.ext_getElem?
    intro q
    by_cases hq : q < data.length
    · rw [List.getElem?_map, List.getElem?_range hq, List.getElem?_eq_getElem hq]
      simp [List.getD, List.getElem?_eq_getElem hq]
    · rw [List.getElem?_eq_none (by simp; omega), List.getElem?_eq_none (by omega)]
  refine ⟨(order.map (fun i => data.getD i default)).reverse, ?_, ?_, ?_, ?_⟩
  · refine (List.reverse_perm _).trans ?_
    have := ho.map (fun i => data.getD i default)
    rwa [hrange] at this
  · rw [List.length_reverse, List.length_map, ho.length_eq, List.length_range]
  · rw [List.reverse_reverse, hmap]
  · intro st
    rw [placeInOrder, placeLoop]
    apply placeStep_foldlM_congr
    rw [List.map_reverse, map_getElem?_range, ← List.map_reverse, List.reverse_reverse, hmap]

/-- The rank-sort passes under any schedule of the placement iterations: they
return; the output is a permutation of the input in ascending order of the
truncated key; the slots written are `n` distinct slots inside `0 .. n - 1`, and the
slot written by the `t`-th iteration executed holds the record of that iteration. -/
theorem rankPlaceInOrder_spec (data : List CSVData)
    (hk : ∀ d ∈ data, 0 ≤ key d ∧ key d < 2147483647) (order : List Nat)
    (ho : order.Perm (List.range data.length)) :
    ∃ st, rankPlaceInOrder data order = some st
      ∧ st.sortedData.Perm data
      ∧ st.sortedData.Pairwise (fun a b => bucket a ≤ bucket b)
      ∧ st.slots.length = data.length
      ∧ st.slots.Nodup
      ∧ (∀ s ∈ st.slots, 0 ≤ s ∧ s < (data.length : Int))
      ∧ (∀ (t i : Nat) (s : Int), order[t]? = some i → st.slots.reverse[t]? = some s →
          readAt st.sortedData s = data[i]?) := by
  obtain ⟨data', hp, hl, hrev, hloop⟩ := schedule_as_loop_order data order ho
  have hk' : ∀ d ∈ data', 0 ≤ key d ∧ key d < 2147483647 := fun d hd => hk d (hp.subset hd)
  obtain ⟨st, hs, hst, inv⟩ := rankPlace_stable data' hk'
  have hlen : st.slots.length = data.length := by have := inv.slots_len; omega
  have hr : ∀ s ∈ st.slots, 0 ≤ s ∧ s < (data.length : Int) := by
    intro s hs'
    have := slots_bounds data' _ st inv s hs'
    omega
  refine ⟨st, ?_, hst.perm.trans hp, hst.asc, hlen, inv.slots_nodup, hr, ?_⟩
  · rw [rankPlace, rankArray_perm data' data hp hk] at hs
    rw [rankPlaceInOrder]
    cases hra : rankArray data with
    | none => rw [hra] at hs; cases hs
    | some rank =>
      rw [hra] at hs
      rw [Option.some_bind] at hs ⊢
      rw [hloop, ← hl]
      exact hs
  · intro t i s hti hts
    have htlen : t < st.slots.length := by
      by_contra hc
      rw [List.getElem?_eq_none (by rw [List.length_reverse]; omega)] at hts
      cases hts
    rw [List.getElem?_reverse htlen] at hts
    have h1 := inv.slots_data _ s hts
    rw [Nat.zero_add] at h1
    rw [h1]
    have h2 : (data'.reverse.map some)[t]? = (order.map (fun i => data[i]?))[t]? := by rw [hrev]
    rw [List.getElem?_map, List.getElem?_map, hti,
      List.getElem?_reverse (by omega)] at h2
    rw [hlen, ← hl]
    cases hd : data'[data'.length - 1 - t]? with
    | none =>
      rw [hd] at h2
      cases h2
    | some x =>
      rw [hd] at h2
      simp only [Option.map_some'] at h2
      exact (Option.some.inj h2)

/-! ## Rank sort: the contract -/

theorem rankSortInOrder_eq (data : List CSVData) (order : List Nat) :
    rankSortInOrder data order = (rankPlaceInOrder data order).map fun st => st.sortedData := by
  rw [rankSortInOrder, rankPlaceInOrder]
  cases rankArray data <;> rfl

/-- C7, as stated, fails on a key that is non-negative but too large: for one
record with the key 2147483647 the conversion `static_cast<int>(max)` gives
2147483647, the size `static_cast<int>(max) + 1` of the array `rank` is not a value of
`int`, and the engine does not return. -/
theorem rankSort_big_key_counterexample :
    (∀ d ∈ bigKeySample, 0 ≤ key d)
      ∧ staticCastInt (maxKey bigKeySample) = some 2147483647
      ∧ addInt 2147483647 1 = none
      ∧ rankSort bigKeySample = none := by
  refine ⟨by decide, by decide, by decide, by decide⟩

/-- C7, amended (rank sort is the stable sort by truncated key): for keys that are
non-negative and below 2147483647 the rank-sort engine, its placement pass in loop
order, returns a permutation `out` of `data` that ascends by `static_cast<int>(key)`
and in which, for every integer `v`, the records with truncated key `v` are those of
`data` in input order. -/
theorem rankSort_stable (data : List CSVData)
    (hk : ∀ d ∈ data, 0 ≤ key d ∧ key d < 2147483647) :
    ∃ out, rankSort data = some out
      ∧ out.Perm data
      ∧ out.Pairwise (fun a b => bucket a ≤ bucket b)
      ∧ ∀ v : Int, out.filter (fun d => decide (bucket d = v))
          = data.filter (fun d => decide (bucket d = v)) := by
  obtain ⟨st, hs, hst, _⟩ := rankPlace_stable data hk
  exact ⟨st.sortedData, by rw [rankSort, hs]; rfl, hst.perm, hst.asc, hst.stable⟩

/-- Witness of the amended C7: the keys 0, 0, 3, 3, 3, 7 come out as they went in,
record for record. -/
theorem rankSort_stable_witness :
    rankSort countingSample = some countingSample
      ∧ ∃ out, rankSort countingSample = some out
        ∧ out.Perm countingSample
        ∧ out.Pairwise (fun a b => bucket a ≤ bucket b)
        ∧ ∀ v : Int, out.filter (fun d => decide (bucket d = v))
            = countingSample.filter (fun d => decide (bucket d = v)) :=
  ⟨by decide, rankSort_stable countingSample (by decide)⟩

/-- C8, as stated, fails: the keys 3/2 and 1 are non-negative, the engine (placement
in loop order) returns them in the order 3/2, 1 (both truncate to 1), and in that
output `key[0] <= key[1]` does not hold.  It also fails on the non-negative key
2147483647, on which the engine does not return. -/
theorem rankSort_fraction_counterexample :
    (∀ d ∈ fractionSample, 0 ≤ key d)
      ∧ (∃ out, rankSort fractionSample = some out
        ∧ out = [mkRecord "a" (3 / 2), mkRecord "b" 1]
        ∧ ¬ ∀ (i j : Nat) (hij : i < j) (hj : j < out.length), key out[i] ≤ key out[j])
      ∧ (∀ d ∈ bigKeySample, 0 ≤ key d)
      ∧ rankSort bigKeySample = none := by
  have e : (3 / 2 : ℚ) = mkRat 3 2 := by norm_num [Rat.mkRat_eq_div]
  have h1 : ∀ d ∈ fractionSample, 0 ≤ key d := by
    simp only [fractionSample, e]; decide
  have h2 : rankSort fractionSample = some [mkRecord "a" (3 / 2), mkRecord "b" 1] := by
    simp only [fractionSample, e]; decide
  refine ⟨h1, ⟨_, h2, rfl, ?_⟩, by decide, by decide⟩
  intro h
  have h01 := h 0 1 (by decide) (by decide)
  simp only [List.getElem_cons_zero, List.getElem_cons_succ, mkRecord, key] at h01
  norm_num at h01

/-- C8, amended (rank sort, order): for keys that are non-negative and below
2147483647, and for every order in which the iterations of the placement pass are
executed, the rank-sort engine returns a list of the same length whose truncated
keys ascend, `static_cast<int>(key[i]) <= static_cast<int>(key[j])` for all `i < j < n`;
when every key is integral the keys themselves ascend. -/
theorem rankSort_order_truncated (data : List CSVData)
    (hk : ∀ d ∈ data, 0 ≤ key d ∧ key d < 2147483647) (order : List Nat)
    (ho : order.Perm (List.range data.length)) :
    ∃ out, rankSortInOrder data order = some out
      ∧ out.length = data.length
      ∧ (∀ (i j : Nat) (hij : i < j) (hj : j < out.length), bucket out[i] ≤ bucket out[j])
      ∧ ((∀ d ∈ data, ((bucket d : Int) : ℚ) = key d) →
          ∀ (i j : Nat) (hij : i < j) (hj : j < out.length), key out[i] ≤ key out[j]) := by
  obtain ⟨st, hs, hperm, hasc, _⟩ := rankPlaceInOrder_spec data hk order ho
  have hidx : ∀ (i j : Nat) (hij : i < j) (hj : j < st.sortedData.length),
      bucket st.sortedData[i] ≤ bucket st.sortedData[j] := by
    intro i j hij hj
    exact (List.pairwise_iff_getElem.1 hasc) i j (by omega) hj hij
  refine ⟨st.sortedData, by rw [rankSortInOrder_eq, hs]; rfl, hperm.length_eq, hidx, ?_⟩
  intro hint i j hij hj
  have hi : st.sortedData[i] ∈ data := hperm.subset (List.getElem_mem _)
  have hj' : st.sortedData[j] ∈ data := hperm.subset (List.getElem_mem _)
  rw [← hint _ hi, ← hint _ hj']
  exact_mod_cast hidx i j hij hj

/-- Witness of the amended C8 on the integral keys 3, 0, 7, 3, with the placement
iterations executed in the order 0, 1, 2, 3 (the reverse of the loop order): the
output has the keys 0, 3, 3, 7. -/
theorem rankSort_order_truncated_witness :
    rankSortInOrder mixedSample [0, 1, 2, 3]
        = some [mkRecord "b" 0, mkRecord "d" 3, mkRecord "a" 3, mkRecord "c" 7]
      ∧ (∀ d ∈ mixedSample, ((bucket d : Int) : ℚ) = key d)
      ∧ ∃ out, rankSortInOrder mixedSample [0, 1, 2, 3] = some out
        ∧ out.length = mixedSample.length
        ∧ (∀ (i j : Nat) (hij : i < j) (hj : j < out.length), bucket out[i] ≤ bucket out[j])
        ∧ ((∀ d ∈ mixedSample, ((bucket d : Int) : ℚ) = key d) →
            ∀ (i j : Nat) (hij : i < j) (hj : j < out.length), key out[i] ≤ key out[j]) :=
  ⟨by decide, by decide,
    rankSort_order_truncated mixedSample (by decide) [0, 1, 2, 3] (by decide)⟩

/-- C9, as stated, fails on a key that is non-negative but too large: for one
record with the key 2147483647 the passes do not return, in loop order or in any
other order of the placement iterations, so no slot is filled. -/
theorem rankPlace_big_key_counterexample :
    (∀ d ∈ bigKeySample, 0 ≤ key d)
      ∧ rankPlace bigKeySample = none
      ∧ ∀ order : List Nat, rankPlaceInOrder bigKeySample order = none := by
  have h : rankArray bigKeySample = none := by decide
  refine ⟨by decide, ?_, ?_⟩
  · rw [rankPlace, h]; rfl
  · intro order
    rw [rankPlaceInOrder, h]; rfl

/-- C9, amended (rank sort fills every slot exactly once): for keys that are
non-negative and below 2147483647 every conversion `static_cast<int>(key)` is defined
and lies inside the histogram of `static_cast<int>(max) + 1` slots; for every order in
which the iterations of the placement pass are executed the passes return, and the
destination slots, listed in the order written, are `n` distinct slots in `0 .. n-1`
that cover `0 .. n-1`; the slot written by the `t`-th iteration executed, the one for
the index `i = order[t]`, holds `data[i]` in the output, and the output is a permutation
of the input. -/
theorem rankSort_slots_bijective (data : List CSVData)
    (hk : ∀ d ∈ data, 0 ≤ key d ∧ key d < 2147483647) (order : List Nat)
    (ho : order.Perm (List.range data.length)) :
    (∀ d ∈ data, staticCastInt (key d) = some (bucket d)
        ∧ 0 ≤ bucket d ∧ bucket d < truncInt (maxKey data) + 1)
      ∧ ∃ st, rankPlaceInOrder data order = some st
        ∧ st.slots.length = data.length
        ∧ st.slots.Nodup
        ∧ (∀ s ∈ st.slots, 0 ≤ s ∧ s < (data.length : Int))
        ∧ (∀ s : Int, 0 ≤ s → s < (data.length : Int) → s ∈ st.slots)
        ∧ (∀ (t i : Nat) (s : Int), order[t]? = some i → st.slots.reverse[t]? = some s →
            readAt st.sortedData s = data[i]?)
        ∧ st.sortedData.Perm data := by
  refine ⟨fun d hd => ⟨staticCastInt_key data hk d hd,
    bucket_in_range data (fun d hd => (hk d hd).1) d hd⟩, ?_⟩
  obtain ⟨st, hs, hperm, _, hlen, hnd, hr, hdata⟩ := rankPlaceInOrder_spec data hk order ho
  exact ⟨st, hs, hlen, hnd, hr, slots_surjective data.length st.slots hlen hnd hr, hdata,
    hperm⟩

/-- Witness of the amended C9 on the keys 0, 0, 3, 3, 3, 7, with the placement
iterations executed in the order 0, 1, .., 5. -/
theorem rankSort_slots_bijective_witness :
    (∀ d ∈ countingSample, staticCastInt (key d) = some (bucket d)
        ∧ 0 ≤ bucket d ∧ bucket d < truncInt (maxKey countingSample) + 1)
      ∧ ∃ st, rankPlaceInOrder countingSample [0, 1, 2, 3, 4, 5] = some st
        ∧ st.slots.length = countingSample.length
        ∧ st.slots.Nodup
        ∧ (∀ s ∈ st.slots, 0 ≤ s ∧ s < (countingSample.length : Int))
        ∧ (∀ s : Int, 0 ≤ s → s < (countingSample.length : Int) → s ∈ st.slots)
        ∧ (∀ (t i : Nat) (s : Int), [0, 1, 2, 3, 4, 5][t]? = some i →
            st.slots.reverse[t]? = some s → readAt st.sortedData s = countingSample[i]?)
        ∧ st.sortedData.Perm countingSample :=
  rankSort_slots_bijective countingSample (by decide) [0, 1, 2, 3, 4, 5] (by decide)

/-- C10, as stated, fails on a key that is non-negative but too large: for one
record with the key 2147483647 the size `static_cast<int>(max) + 1` is not a value of
`int` and there is no array `rank`. -/
theorem rankArray_big_key_counterexample :
    (∀ d ∈ bigKeySample, 0 ≤ key d)
      ∧ staticCastInt (maxKey bigKeySample) = some INT_MAX
      ∧ addInt INT_MAX 1 = none
      ∧ rankArray bigKeySample = none := by
  refine ⟨by decide, by decide, by decide, by decide⟩

/-- C10, amended (prefix-sum invariant): for keys that are non-negative and below
2147483647 the histogram pass and the prefix-sum loop return an array `rank` of
`static_cast<int>(max) + 1` slots in which, for every `v` in `0 .. static_cast<int>(max)`,
`rank[v]` is the number of records whose truncated key is at most `v`; in particular
the last slot holds `n`.  The array is the same in whatever order the records are
counted. -/
theorem rankArray_prefix_sum (data : List CSVData)
    (hk : ∀ d ∈ data, 0 ≤ key d ∧ key d < 2147483647) :
    ∃ rank, rankArray data = some rank
      ∧ (rank.length : Int) = truncInt (maxKey data) + 1
      ∧ (∀ v : Int, 0 ≤ v → v ≤ truncInt (maxKey data) →
          readAt rank v = some ((data.countP (fun d => decide (bucket d ≤ v)) : Nat) : Int))
      ∧ readAt rank (truncInt (maxKey data)) = some (data.length : Int)
      ∧ ∀ data' : List CSVData, data'.Perm data → rankArray data' = some rank := by
  obtain ⟨rank, hr, hrank⟩ := rankArray_spec data hk
  have hnn : ∀ d ∈ data, 0 ≤ key d := fun d hd => (hk d hd).1
  have hM : 0 ≤ truncInt (maxKey data) := truncInt_nonneg _ (maxKey_nonneg data)
  refine ⟨rank, hr, hrank.1, ?_, ?_, ?_⟩
  · intro v hv0 hv
    exact hrank.2 v hv0 (by omega)
  · rw [hrank.2 _ hM (by omega),
      bucketCountLE_top data _ (fun d hd => by have := (bucket_in_range data hnn d hd).2; omega)]
  · intro data' hp
    rw [rankArray_perm data' data hp hk, hr]

/-- Witness of the amended C10 on the keys 0, 0, 3, 3, 3, 7. -/
theorem rankArray_prefix_sum_witness :
    ∃ rank, rankArray countingSample = some rank
      ∧ (rank.length : Int) = truncInt (maxKey countingSample) + 1
      ∧ (∀ v : Int, 0 ≤ v → v ≤ truncInt (maxKey countingSample) →
          readAt rank v
            = some ((countingSample.countP (fun d => decide (bucket d ≤ v)) : Nat) : Int))
      ∧ readAt rank (truncInt (maxKey countingSample)) = some (countingSample.length : Int)
      ∧ ∀ data' : List CSVData, data'.Perm countingSample → rankArray data' = some rank :=
  rankArray_prefix_sum countingSample (by decide)

/-! ## The scorer -/

/-- C16 (score formula): in exact rational arithmetic `calculateSEOScore` of a
record with fields `f1 .. f6` is `(0.25 f1 + 0.20 f2 + 0.15 f3 + 0.10 f4 + 0.20 f5 + 0.10 f6) * 100`,
the six weights it divides by sum to exactly 1, and the copies of the function in
the other three programs compute the same value. -/
theorem calculateSEOScore_formula (d : CSVData) :
    calculateSEOScore d
        = (0.25 * d.optimizationOpportunities + 0.20 * d.keywordGaps
            + 0.15 * d.easyToRankKeywords + 0.10 * d.buyerKeywords
            + 0.20 * d.siteRank + 0.10 * d.dailyTimeOnSite) * 100
      ∧ (0.25 + 0.20 + 0.15 + 0.10 + 0.20 + 0.10 : ℚ) = 1
      ∧ calculateSEOScoreQuick d = calculateSEOScore d
      ∧ calculateSEOScoreBitonic d = calculateSEOScore d
      ∧ calculateSEOScoreRank d = calculateSEOScore d := by
  refine ⟨?_, by norm_num, rfl, rfl, rfl⟩
  simp only [calculateSEOScore]
  ring

/-! ## Quicksort: the partition loop from the call -/

/-- The partition loop as `parallelQuicksort(data, left, right)` runs it for
`0 <= left < right < n`: it returns, in a state that satisfies the invariant with
`j < i`, and both cursors have moved. -/
theorem partitionLoop_from_call (data : List CSVData) (left right : Nat) (hlr : left < right)
    (hr : right < data.length) (fuel : Nat) (hf : 2 * (right - left + 1) + 2 ≤ fuel) :
    ∃ d i j, partitionLoop ((key data[left] + key data[right]) / 2) fuel data
          (left : Int) (right : Int) = some (d, i, j)
      ∧ PartInv data (left : Int) (right : Int) ((key data[left] + key data[right]) / 2) d i j
      ∧ j < i ∧ (left : Int) < i ∧ j < (right : Int) := by
  have hl : readAt data (left : Int) = some data[left] := by
    rw [readAt_natCast]; exact List.getElem?_eq_getElem (by omega)
  have hr' : readAt data (right : Int) = some data[right] := by
    rw [readAt_natCast]; exact List.getElem?_eq_getElem hr
  obtain ⟨d, i, j, h1, inv, hlt⟩ := partitionLoop_spec data (left : Int) (right : Int)
    ((key data[left] + key data[right]) / 2) (by omega) (by omega) fuel data (left : Int)
    (right : Int) (partInv_init data _ _ _ _ (by omega) hl hr') (by omega)
  refine ⟨d, i, j, h1, inv, hlt, ?_⟩
  rcases inv.progress with h | h
  · exact h
  · omega

/-- C19 (partition postcondition): for `0 <= left < right < n` and the exact pivot
`p = (key[left] + key[right]) / 2`, the partition loop returns a collection of the same length with `j < i`, every
key in `[left, i)` at most `p`, every key in `(j, right]` at least `p`, and every
position strictly between `j` and `i` holding a key equal to `p`. -/
theorem partitionLoop_postcondition (data : List CSVData) (left right : Nat)
    (hlr : left < right) (hr : right < data.length) (fuel : Nat)
    (hf : 2 * (right - left + 1) + 2 ≤ fuel) :
    ∃ d i j, partitionLoop ((key data[left] + key data[right]) / 2) fuel data
          (left : Int) (right : Int) = some (d, i, j)
      ∧ d.length = data.length
      ∧ j < i
      ∧ (∀ (q : Int) (x : CSVData), (left : Int) ≤ q → q < i → readAt d q = some x →
          key x ≤ (key data[left] + key data[right]) / 2)
      ∧ (∀ (q : Int) (x : CSVData), j < q → q ≤ (right : Int) → readAt d q = some x →
          (key data[left] + key data[right]) / 2 ≤ key x)
      ∧ (∀ (q : Int) (x : CSVData), j < q → q < i → readAt d q = some x →
          key x = (key data[left] + key data[right]) / 2) := by
  obtain ⟨d, i, j, h1, inv, hlt, hi, hj⟩ := partitionLoop_from_call data left right hlr hr fuel hf
  have hilo := inv.i_lo
  have hihi := inv.i_hi
  have hjlo := inv.j_lo
  have hjhi := inv.j_hi
  refine ⟨d, i, j, h1, inv.len, hlt, inv.low, inv.high, ?_⟩
  intro q x hq1 hq2 hx
  exact le_antisymm (inv.low q x (by omega) hq2 hx) (inv.high q x hq1 (by omega) hx)

/-- Witness of C19 on the records with keys 40, 10, 30, 20, range `0 .. 3`. -/
theorem partitionLoop_postcondition_witness :
    ∃ d i j, partitionLoop ((key sampleData[0] + key sampleData[3]) / 2) 10 sampleData
          ((0 : Nat) : Int) ((3 : Nat) : Int) = some (d, i, j)
      ∧ d.length = sampleData.length
      ∧ j < i
      ∧ (∀ (q : Int) (x : CSVData), ((0 : Nat) : Int) ≤ q → q < i → readAt d q = some x →
          key x ≤ (key sampleData[0] + key sampleData[3]) / 2)
      ∧ (∀ (q : Int) (x : CSVData), j < q → q ≤ ((3 : Nat) : Int) → readAt d q = some x →
          (key sampleData[0] + key sampleData[3]) / 2 ≤ key x)
      ∧ (∀ (q : Int) (x : CSVData), j < q → q < i → readAt d q = some x →
          key x = (key sampleData[0] + key sampleData[3]) / 2) :=
  partitionLoop_postcondition sampleData 0 3 (by decide) (by decide) 10 (by decide)

/-- C20 (quicksort termination): for `0 <= left < right < n` the partition loop
returns with `i > left` and `j < right`, so the ranges `left .. j` and `i .. right` of
the two recursive calls are strictly shorter than `left .. right`, and the call
`parallelQuicksort(data, left, right)` returns, whatever the keys are. -/
theorem parallelQuicksort_terminates (data : List CSVData) (left right : Nat)
    (hlr : left < right) (hr : right < data.length) (fuel : Nat)
    (hf : 2 * (right - left + 1) + 3 ≤ fuel) :
    (∃ d i j, partitionLoop ((key data[left] + key data[right]) / 2) fuel data
          (left : Int) (right : Int) = some (d, i, j)
        ∧ (left : Int) < i ∧ j < (right : Int)
        ∧ j - (left : Int) + 1 < (right : Int) - (left : Int) + 1
        ∧ (right : Int) - i + 1 < (right : Int) - (left : Int) + 1)
      ∧ ∃ out, parallelQuicksort fuel data (left : Int) (right : Int) = some out := by
  constructor
  · obtain ⟨d, i, j, h1, _, _, hi, hj⟩ :=
      partitionLoop_from_call data left right hlr hr fuel (by omega)
    exact ⟨d, i, j, h1, hi, hj, by omega, by omega⟩
  · have hpre : (data.take left).length = left := by rw [List.length_take]; omega
    have hseg : ((data.drop left).take (right - left + 1)).length = right - left + 1 := by
      rw [List.length_take, List.length_drop]; omega
    have hdata : data = data.take left ++ (data.drop left).take (right - left + 1)
        ++ data.drop (right + 1) := by
      have e : data.drop (right + 1) = (data.drop left).drop (right - left + 1) := by
        rw [List.drop_drop]; congr 1; omega
      rw [e, List.append_assoc, List.take_append_drop, List.take_append_drop]
    obtain ⟨seg', h1, _, _⟩ := parallelQuicksort_spec fuel (data.take left)
      ((data.drop left).take (right - left + 1)) (data.drop (right + 1)) (left : Int)
      (right : Int) (by rw [hpre]) (by rw [hseg]; push_cast; omega) (by rw [hseg]; exact hf)
    rw [← hdata] at h1
    exact ⟨_, h1⟩

/-- Witness of C20: two records with the same key, which is the pivot. -/
theorem parallelQuicksort_terminates_witness :
    (∃ d i j, partitionLoop ((key tieSample[0] + key tieSample[1]) / 2) 7 tieSample
          ((0 : Nat) : Int) ((1 : Nat) : Int) = some (d, i, j)
        ∧ ((0 : Nat) : Int) < i ∧ j < ((1 : Nat) : Int)
        ∧ j - ((0 : Nat) : Int) + 1 < ((1 : Nat) : Int) - ((0 : Nat) : Int) + 1
        ∧ ((1 : Nat) : Int) - i + 1 < ((1 : Nat) : Int) - ((0 : Nat) : Int) + 1)
      ∧ ∃ out, parallelQuicksort 7 tieSample ((0 : Nat) : Int) ((1 : Nat) : Int) = some out :=
  parallelQuicksort_terminates tieSample 0 1 (by decide) (by decide) 7 (by decide)

/-! ## Quicksort: more fuel does not change a result -/

theorem scanUp_fuel_succ (data : List CSVData) (p : ℚ) :
    ∀ (fuel : Nat) (i r : Int), scanUp data p fuel i = some r →
      scanUp data p (fuel + 1) i = some r := by
  intro fuel
  induction fuel with
  | zero => intro i r h; cases h
  | succ n ih =>
    intro i r h
    rw [scanUp] at h ⊢
    obtain ⟨x, hx, h⟩ := Option.bind_eq_some.1 h
    rw [hx, Option.some_bind]
    by_cases hlt : key x < p
    · rw [if_pos hlt] at h ⊢
      exact ih _ _ h
    · rw [if_neg hlt] at h ⊢
      exact h

theorem scanDown_fuel_succ (data : List CSVData) (p : ℚ) :
    ∀ (fuel : Nat) (j r : Int), scanDown data p fuel j = some r →
      scanDown data p (fuel + 1) j = some r := by
  intro fuel
  induction fuel with
  | zero => intro j r h; cases h
  | succ n ih =>
    intro j r h
    rw [scanDown] at h ⊢
    obtain ⟨x, hx, h⟩ := Option.bind_eq_some.1 h
    rw [hx, Option.some_bind]
    by_cases hgt : key x > p
    · rw [if_pos hgt] at h ⊢
      exact ih _ _ h
    · rw [if_neg hgt] at h ⊢
      exact h

theorem partitionLoop_fuel_succ (p : ℚ) :
    ∀ (fuel : Nat) (data : List CSVData) (i j : Int) (r : List CSVData × Int × Int),
      partitionLoop p fuel data i j = some r → partitionLoop p (fuel + 1) data i j = some r := by
  intro fuel
  induction fuel with
  | zero => intro data i j r h; cases h
  | succ n ih =>
    intro data i j r h
    rw [partitionLoop] at h ⊢
    by_cases hij : i ≤ j
    · rw [if_pos hij] at h ⊢
      obtain ⟨i1, h1, h⟩ := Option.bind_eq_some.1 h
      obtain ⟨j1, h2, h⟩ := Option.bind_eq_some.1 h
      rw [scanUp_fuel_succ _ _ _ _ _ h1, Option.some_bind, scanDown_fuel_succ _ _ _ _ _ h2,
        Option.some_bind]
      by_cases hij1 : i1 ≤ j1
      · rw [if_pos hij1] at h ⊢
        obtain ⟨d, h3, h⟩ := Option.bind_eq_some.1 h
        rw [h3, Option.some_bind]
        exact ih _ _ _ _ h
      · rw [if_neg hij1] at h ⊢
        exact ih _ _ _ _ h
    · rw [if_neg hij] at h ⊢
      exact h

theorem parallelQuicksort_fuel_succ :
    ∀ (fuel : Nat) (data : List CSVData) (left right : Int) (out : List CSVData),
      parallelQuicksort fuel data left right = some out →
      parallelQuicksort (fuel + 1) data left right = some out := by
  intro fuel
  induction fuel with
  | zero => intro data left right out h; cases h
  | succ n ih =>
    intro data left right out h
    rw [parallelQuicksort] at h ⊢
    by_cases hge : left ≥ right
    · rw [if_pos hge] at h ⊢
      exact h
    · rw [if_neg hge] at h ⊢
      obtain ⟨l, hl, h⟩ := Option.bind_eq_some.1 h
      obtain ⟨r, hr, h⟩ := Option.bind_eq_some.1 h
      obtain ⟨⟨d, i, j⟩, hp, h⟩ := Option.bind_eq_some.1 h
      obtain ⟨d1, h1, h2⟩ := Option.bind_eq_some.1 h
      rw [hl, Option.some_bind, hr, Option.some_bind]
      simp only []
      rw [partitionLoop_fuel_succ _ _ _ _ _ _ hp, Option.some_bind]
      simp only []
      rw [ih _ _ _ _ h1, Option.some_bind]
      exact ih _ _ _ _ h2

/-- A result of `parallelQuicksort` is the result for every larger amount of fuel. -/
theorem parallelQuicksort_fuel_mono (data out : List CSVData) (left right : Int)
    (fuel fuel' : Nat) (hle : fuel ≤ fuel')
    (h : parallelQuicksort fuel data left right = some out) :
    parallelQuicksort fuel' data left right = some out := by
  induction hle with
  | refl => exact h
  | step _ ih => exact parallelQuicksort_fuel_succ _ _ _ _ _ ih

/-! ## Quicksort on a collection that is already ascending -/

unseal Rat.add Rat.mul Rat.inv in
theorem parallelQuicksort_tieSample :
    parallelQuicksort 4 tieSample 0 1 = some [mkRecord "b" 1, mkRecord "a" 1] := by
  decide

/-- C11, as stated, fails: the two records `a`, `b` with the same key 1 are in
ascending order, and `parallelQuicksort(data, 0, 1)` returns them (with 4 units of
fuel, and with any amount of fuel that lets it return) in the order `b`, `a`: the
pivot is 1, neither scan moves, and the two records are swapped. -/
theorem parallelQuicksort_tie_counterexample :
    Ascending tieSample
      ∧ ∃ out, parallelQuicksort 4 tieSample 0 ((tieSample.length : Int) - 1) = some out
        ∧ out = [mkRecord "b" 1, mkRecord "a" 1]
        ∧ out ≠ tieSample
        ∧ ∀ (fuel : Nat) (out' : List CSVData),
            parallelQuicksort fuel tieSample 0 ((tieSample.length : Int) - 1) = some out' →
            out' = out := by
  have h4 := parallelQuicksort_tieSample
  refine ⟨by unfold Ascending; decide, _, h4, rfl, by decide, ?_⟩
  intro fuel out' h
  have h' : parallelQuicksort fuel tieSample 0 1 = some out' := h
  rcases Nat.le_total fuel 4 with hle | hle
  · have := parallelQuicksort_fuel_mono _ _ _ _ _ _ hle h'
    rw [h4] at this
    exact (Option.some.inj this).symm
  · have := parallelQuicksort_fuel_mono _ _ _ _ _ _ hle h4
    rw [h'] at this
    exact Option.some.inj this

theorem map_key_eq_of_perm_ascending (out data : List CSVData) (hp : out.Perm data)
    (ho : Ascending out) (hd : Ascending data) : out.map key = data.map key := by
  have h1 : (out.map key).Sorted (fun a b => a ≤ b) := List.pairwise_map.2 ho
  have h2 : (data.map key).Sorted (fun a b => a ≤ b) := List.pairwise_map.2 hd
  exact List.eq_of_perm_of_sorted (hp.map key) h1 h2

theorem eq_of_map_key_eq_strict (out data : List CSVData) (hp : out.Perm data)
    (hk : out.map key = data.map key) (hd : StrictAscending data) : out = data := by
  have hnd : (data.map key).Nodup := by
    refine (List.pairwise_map.2 ?_ : (data.map key).Pairwise (fun a b => a ≠ b))
    exact hd.imp (fun h => ne_of_lt h)
  have hinj := List.inj_on_of_nodup_map hnd
  apply List.ext_getElem (hp.length_eq)
  intro n h1 h2
  have e : key out[n] = key data[n] := by
    have := congrArg (fun l => l[n]?) hk
    simp only [List.getElem?_map, List.getElem?_eq_getElem h1, List.getElem?_eq_getElem h2,
      Option.map_some'] at this
    exact Option.some.inj this
  exact hinj (hp.subset (List.getElem_mem _)) (List.getElem_mem _) e

/-- C11, amended (quicksort on ascending input): for a collection that is already
in ascending key order, `parallelQuicksort(data, 0, n - 1)` returns a permutation of
it with the same sequence of keys; when the keys are strictly ascending (no ties)
it returns the collection itself, record for record. -/
theorem parallelQuicksort_sorted_input (data : List CSVData) (hs : Ascending data)
    (fuel : Nat) (hf : 2 * data.length + 3 ≤ fuel) :
    ∃ out, parallelQuicksort fuel data 0 ((data.length : Int) - 1) = some out
      ∧ out.Perm data
      ∧ out.map key = data.map key
      ∧ (StrictAscending data → out = data) := by
  obtain ⟨seg', h1, h2, h3⟩ := parallelQuicksort_spec fuel [] data [] 0
    ((data.length : Int) - 1) (by simp) (by omega) hf
  have hk := map_key_eq_of_perm_ascending seg' data h2 h3 hs
  exact ⟨seg', by simpa using h1, h2, hk, eq_of_map_key_eq_strict seg' data h2 hk⟩

/-- Witness of the amended C11 on the two records with the same key. -/
theorem parallelQuicksort_sorted_input_witness :
    ∃ out, parallelQuicksort 7 tieSample 0 ((tieSample.length : Int) - 1) = some out
      ∧ out.Perm tieSample
      ∧ out.map key = tieSample.map key
      ∧ (StrictAscending tieSample → out = tieSample) :=
  parallelQuicksort_sorted_input tieSample (by unfold Ascending; decide) 7 (by decide)

/-! ## Degenerate input -/

/-- C14, as stated, fails for rank sort on a key that is non-negative but too
large: on the single record with the key 2147483647 the other three engines return
the collection, and the rank-sort passes do not return, because the size
`static_cast<int>(max) + 1` of the array `rank` is not a value of `int`. -/
theorem engines_degenerate_counterexample :
    bigKeySample.length = 1
      ∧ (∀ d ∈ bigKeySample, 0 ≤ key d)
      ∧ bitonicDriver 1 bigKeySample = some bigKeySample
      ∧ mergeSort 1 bigKeySample 0 ((bigKeySample.length : Int) - 1) = some bigKeySample
      ∧ parallelQuicksort 1 bigKeySample 0 ((bigKeySample.length : Int) - 1)
          = some bigKeySample
      ∧ rankSort bigKeySample = none := by
  refine ⟨rfl, by decide, by decide, by decide, by decide, by decide⟩

/-- C14, amended (degenerate input): on a collection of length 0 or 1 each of the
bitonic driver, `mergeSort(data, 0, n - 1)` and `parallelQuicksort(data, 0, n - 1)` (with
`n - 1 = -1` for the empty collection) returns with any positive amount of fuel, so it
makes no access outside the collection, and returns the collection unchanged,
whatever the key; the rank-sort passes do so when the key is non-negative and below
2147483647. -/
theorem engines_degenerate (data : List CSVData) (hn : data.length ≤ 1) (fuel : Nat)
    (hf : 1 ≤ fuel) :
    bitonicDriver fuel data = some data
      ∧ mergeSort fuel data 0 ((data.length : Int) - 1) = some data
      ∧ parallelQuicksort fuel data 0 ((data.length : Int) - 1) = some data
      ∧ ((∀ d ∈ data, 0 ≤ key d ∧ key d < 2147483647) → rankSort data = some data) := by
  obtain ⟨f, rfl⟩ : ∃ f, fuel = f + 1 := ⟨fuel - 1, by omega⟩
  have hge : (0 : Int) ≥ (data.length : Int) - 1 := by omega
  refine ⟨?_, ?_, ?_, ?_⟩
  · rw [bitonicDriver, driverLoopK, if_neg (by omega)]
  · rw [mergeSort, if_pos hge]
  · rw [parallelQuicksort, if_pos hge]
  · intro hk
    obtain ⟨st, hs, hst, _⟩ := rankPlace_stable data hk
    have : st.sortedData = data := by
      have h2 := hst.perm
      match data, hn, h2 with
      | [], _, h2 => exact List.perm_nil.1 h2
      | [a], _, h2 => exact List.perm_singleton.1 h2
    rw [rankSort, hs, ← this]
    rfl

/-- Witness of the amended C14: a single record with the key 7 for the four engines,
and a single record with the key -7 for the three engines that do not convert the
key. -/
theorem engines_degenerate_witness :
    (bitonicDriver 1 [mkRecord "a" 7] = some [mkRecord "a" 7]
      ∧ mergeSort 1 [mkRecord "a" 7] 0 ((([mkRecord "a" 7] : List CSVData).length : Int) - 1)
          = some [mkRecord "a" 7]
      ∧ parallelQuicksort 1 [mkRecord "a" 7] 0
          ((([mkRecord "a" 7] : List CSVData).length : Int) - 1) = some [mkRecord "a" 7]
      ∧ rankSort [mkRecord "a" 7] = some [mkRecord "a" 7])
    ∧ (bitonicDriver 1 [mkRecord "a" (-7)] = some [mkRecord "a" (-7)]
      ∧ mergeSort 1 [mkRecord "a" (-7)] 0
          ((([mkRecord "a" (-7)] : List CSVData).length : Int) - 1) = some [mkRecord "a" (-7)]
      ∧ parallelQuicksort 1 [mkRecord "a" (-7)] 0
          ((([mkRecord "a" (-7)] : List CSVData).length : Int) - 1)
          = some [mkRecord "a" (-7)]) :=
  ⟨⟨(engines_degenerate [mkRecord "a" 7] (by decide) 1 (by decide)).1,
      (engines_degenerate [mkRecord "a" 7] (by decide) 1 (by decide)).2.1,
      (engines_degenerate [mkRecord "a" 7] (by decide) 1 (by decide)).2.2.1,
      (engines_degenerate [mkRecord "a" 7] (by decide) 1 (by decide)).2.2.2 (by decide)⟩,
    ⟨(engines_degenerate [mkRecord "a" (-7)] (by decide) 1 (by decide)).1,
      (engines_degenerate [mkRecord "a" (-7)] (by decide) 1 (by decide)).2.1,
      (engines_degenerate [mkRecord "a" (-7)] (by decide) 1 (by decide)).2.2.1⟩⟩

/-! ## Rank sort under a schedule -/

/-- The loop order is one of the schedules. -/
theorem rankSortInOrder_loop_order (data : List CSVData) :
    rankSortInOrder data (List.range data.length).reverse = rankSort data := by
  simp only [rankSortInOrder, rankSort, rankPlace, placeInOrder, placeLoop]
  cases rankArray data <;> rfl

/-- C13 fails on two records with the same key: `a`, `b` with key 1 (non-negative).
The placement iterations in loop order, index 1 then index 0, give the output
`a`, `b`; the same two iterations in the order index 0 then index 1 give `b`, `a`:
the first iteration executed takes the last slot of the bucket. -/
theorem rankSort_schedule_dependent :
    (∀ d ∈ tieSample, 0 ≤ key d)
      ∧ [1, 0] = (List.range tieSample.length).reverse
      ∧ [0, 1].Perm (List.range tieSample.length).reverse
      ∧ rankSortInOrder tieSample [1, 0] = some [mkRecord "a" 1, mkRecord "b" 1]
      ∧ rankSortInOrder tieSample [0, 1] = some [mkRecord "b" 1, mkRecord "a" 1]
      ∧ rankSortInOrder tieSample [0, 1] ≠ rankSortInOrder tieSample [1, 0] := by
  refine ⟨by decide, by decide, by decide, by decide, by decide, by decide⟩

/-! ## Loops that are folds: what a returned result tells -/

theorem foldlM_some_inv {α β : Type} (f : β → α → Option β) (P : β → Prop)
    (hstep : ∀ (b : β) (a : α) (b' : β), f b a = some b' → P b → P b') :
    ∀ (l : List α) (b r : β), l.foldlM f b = some r → P b → P r := by
  intro l
  induction l with
  | nil =>
    intro b r h hb
    cases h
    exact hb
  | cons a l ih =>
    intro b r h hb
    rw [List.foldlM_cons] at h
    obtain ⟨b', h1, h2⟩ := Option.bind_eq_some.1 h
    exact ih b' r h2 (hstep b a b' h1 hb)

theorem foldlM_some_visit {α β : Type} (f : β → α → Option β) (P : β → Prop)
    (hstep : ∀ (b : β) (a : α) (b' : β), f b a = some b' → P b → P b') :
    ∀ (l : List α) (b r : β), l.foldlM f b = some r → P b →
      ∀ a ∈ l, ∃ b0 b1, P b0 ∧ f b0 a = some b1 := by
  intro l
  induction l with
  | nil => intro b r _ _ a ha; cases ha
  | cons x l ih =>
    intro b r h hb a ha
    rw [List.foldlM_cons] at h
    obtain ⟨b', h1, h2⟩ := Option.bind_eq_some.1 h
    rcases List.mem_cons.1 ha with rfl | ha'
    · exact ⟨b, b', hb, h1⟩
    · exact ih b' r h2 (hstep b _ b' h1 hb) a ha'

/-! ## Bitonic sort: what a returned result tells -/

theorem readAt_mem {α : Type} (l : List α) (i : Int) (x : α) (h : readAt l i = some x) :
    x ∈ l := by
  unfold readAt at h
  split at h
  · exact List.getElem?_mem h
  · cases h

/-- A `compareSwap` that returns has read two positions inside the collection and
has left a permutation of it. -/
theorem compareSwap_some (d d' : List CSVData) (i k : Int) (dir : Bool)
    (h : compareSwap d i k dir = some d') :
    d'.length = d.length ∧ d'.Perm d ∧ 0 ≤ i ∧ i + k < (d.length : Int) := by
  rw [compareSwap] at h
  obtain ⟨a, ha, h⟩ := Option.bind_eq_some.1 h
  obtain ⟨b, hb, h⟩ := Option.bind_eq_some.1 h
  have hi := (readAt_bounds d i a ha).1
  have hik := (readAt_bounds d (i + k) b hb).2
  by_cases hc : decide (key a > key b) = dir
  · rw [if_pos hc] at h
    obtain ⟨l', h1, h2, h3, _⟩ := swapAt_spec d i (i + k) a b ha hb
    rw [h1] at h
    cases h
    exact ⟨h2, h3, hi, hik⟩
  · rw [if_neg hc] at h
    cases h
    exact ⟨rfl, List.Perm.refl _, hi, hik⟩

theorem bitonicMergeLoop_some (d d' : List CSVData) (start k : Int) (dir : Bool)
    (h : bitonicMergeLoop d start k dir = some d') :
    d'.length = d.length ∧ d'.Perm d
      ∧ (1 ≤ k → 0 ≤ start ∧ start + 2 * k ≤ (d.length : Int)) := by
  have hstep : ∀ (b : List CSVData) (t : Nat) (b' : List CSVData),
      compareSwap b (start + (t : Int)) k dir = some b' →
      (b.length = d.length ∧ b.Perm d) → (b'.length = d.length ∧ b'.Perm d) := by
    intro b t b' hb hP
    obtain ⟨h1, h2, _, _⟩ := compareSwap_some b b' _ k dir hb
    exact ⟨h1.trans hP.1, h2.trans hP.2⟩
  have hinv := foldlM_some_inv _ _ hstep _ _ _ h ⟨rfl, List.Perm.refl _⟩
  refine ⟨hinv.1, hinv.2, ?_⟩
  intro hk
  have hvis := foldlM_some_visit _ _ hstep _ _ _ h ⟨rfl, List.Perm.refl _⟩
  obtain ⟨b0, b1, _, h0⟩ := hvis 0 (List.mem_range.2 (by omega))
  obtain ⟨c0, c1, hc, h1⟩ := hvis (k.toNat - 1) (List.mem_range.2 (by omega))
  have e0 := (compareSwap_some b0 b1 _ k dir h0).2.2.1
  have e1 := (compareSwap_some c0 c1 _ k dir h1).2.2.2
  rw [hc.1] at e1
  constructor
  · simpa using e0
  · have : ((k.toNat - 1 : Nat) : Int) = k - 1 := by omega
    rw [this] at e1
    omega

/-- A `bitonicMerge` that returns has left a permutation of the collection, and
for a length above 1 its range `start .. start + 2 (length / 2) - 1` is inside. -/
theorem bitonicMerge_some :
    ∀ (fuel : Nat) (d d' : List CSVData) (start length : Int) (dir : Bool),
      bitonicMerge fuel d start length dir = some d' →
      d'.length = d.length ∧ d'.Perm d
        ∧ (length > 1 → 0 ≤ start ∧ start + 2 * length.tdiv 2 ≤ (d.length : Int)) := by
  intro fuel
  induction fuel with
  | zero => intro d d' start length dir h; cases h
  | succ n ih =>
    intro d d' start length dir h
    rw [bitonicMerge] at h
    by_cases hl : length > 1
    · rw [if_pos hl] at h
      obtain ⟨d0, h0, h⟩ := Option.bind_eq_some.1 h
      obtain ⟨d1, h1, h2⟩ := Option.bind_eq_some.1 h
      obtain ⟨a1, a2, a3⟩ := bitonicMergeLoop_some _ _ _ _ _ h0
      obtain ⟨b1, b2, _⟩ := ih _ _ _ _ _ h1
      obtain ⟨c1, c2, _⟩ := ih _ _ _ _ _ h2
      refine ⟨c1.trans (b1.trans a1), c2.trans (b2.trans a2), fun _ => a3 ?_⟩
      have := Int.tdiv_eq_ediv (a := length) (b := 2) (by omega) (by omega)
      omega
    · rw [if_neg hl] at h
      cases h
      exact ⟨rfl, List.Perm.refl _, fun h => absurd h hl⟩

theorem bitonicSort_some :
    ∀ (fuel : Nat) (d d' : List CSVData) (start length : Int) (dir : Bool),
      bitonicSort fuel d start length dir = some d' →
      d'.length = d.length ∧ d'.Perm d
        ∧ (length > 1 → 0 ≤ start ∧ start + 2 * length.tdiv 2 ≤ (d.length : Int)) := by
  intro fuel
  induction fuel with
  | zero => intro d d' start length dir h; cases h
  | succ n ih =>
    intro d d' start length dir h
    rw [bitonicSort] at h
    by_cases hl : length > 1
    · rw [if_pos hl] at h
      obtain ⟨d1, h1, h⟩ := Option.bind_eq_some.1 h
      obtain ⟨d2, h2, h3⟩ := Option.bind_eq_some.1 h
      obtain ⟨a1, a2, _⟩ := ih _ _ _ _ _ h1
      obtain ⟨b1, b2, _⟩ := ih _ _ _ _ _ h2
      obtain ⟨c1, c2, c3⟩ := bitonicMerge_some _ _ _ _ _ _ h3
      refine ⟨c1.trans (b1.trans a1), c2.trans (b2.trans a2), fun hgt => ?_⟩
      have := c3 hgt
      rw [b1, a1] at this
      exact this
    · rw [if_neg hl] at h
      cases h
      exact ⟨rfl, List.Perm.refl _, fun h => absurd h hl⟩

theorem driverLoopI_some (n k j : Int) :
    ∀ (fuel : Nat) (d d' : List CSVData) (i : Int), driverLoopI n k j fuel d i = some d' →
      d'.length = d.length ∧ d'.Perm d := by
  intro fuel
  induction fuel with
  | zero => intro d d' i h; cases h
  | succ f ih =>
    intro d d' i h
    rw [driverLoopI] at h
    by_cases hl : i < n
    · rw [if_pos hl] at h
      obtain ⟨d1, h1, h⟩ := Option.bind_eq_some.1 h
      obtain ⟨d2, h2, h3⟩ := Option.bind_eq_some.1 h
      obtain ⟨a1, a2, _⟩ := bitonicSort_some _ _ _ _ _ _ h1
      obtain ⟨b1, b2, _⟩ := bitonicSort_some _ _ _ _ _ _ h2
      obtain ⟨c1, c2⟩ := ih _ _ _ h3
      exact ⟨c1.trans (b1.trans a1), c2.trans (b2.trans a2)⟩
    · rw [if_neg hl] at h
      cases h
      exact ⟨rfl, List.Perm.refl _⟩

theorem driverLoopJ_some (n k : Int) :
    ∀ (fuel : Nat) (d d' : List CSVData) (j : Int), driverLoopJ n k fuel d j = some d' →
      d'.length = d.length ∧ d'.Perm d := by
  intro fuel
  induction fuel with
  | zero => intro d d' j h; cases h
  | succ f ih =>
    intro d d' j h
    rw [driverLoopJ] at h
    by_cases hl : j > 0
    · rw [if_pos hl] at h
      obtain ⟨d1, h1, h2⟩ := Option.bind_eq_some.1 h
      obtain ⟨a1, a2⟩ := driverLoopI_some _ _ _ _ _ _ _ h1
      obtain ⟨c1, c2⟩ := ih _ _ _ h2
      exact ⟨c1.trans a1, c2.trans a2⟩
    · rw [if_neg hl] at h
      cases h
      exact ⟨rfl, List.Perm.refl _⟩

theorem driverLoopK_some (n : Int) :
    ∀ (fuel : Nat) (d d' : List CSVData) (k : Int), driverLoopK n fuel d k = some d' →
      d'.length = d.length ∧ d'.Perm d := by
  intro fuel
  induction fuel with
  | zero => intro d d' k h; cases h
  | succ f ih =>
    intro d d' k h
    rw [driverLoopK] at h
    by_cases hl : k ≤ n
    · rw [if_pos hl] at h
      obtain ⟨d1, h1, h2⟩ := Option.bind_eq_some.1 h
      obtain ⟨a1, a2⟩ := driverLoopJ_some _ _ _ _ _ _ h1
      obtain ⟨c1, c2⟩ := ih _ _ _ h2
      exact ⟨c1.trans a1, c2.trans a2⟩
    · rw [if_neg hl] at h
      cases h
      exact ⟨rfl, List.Perm.refl _⟩

/-- A driver loop that returns has left a permutation of the collection. -/
theorem bitonicDriver_some (fuel : Nat) (data d : List CSVData)
    (h : bitonicDriver fuel data = some d) : d.length = data.length ∧ d.Perm data :=
  driverLoopK_some _ _ _ _ _ h

/-! ## Bitonic sort: the driver on a collection of length 5 -/

theorem driverLoopI_five_at_four (f : Nat) (d : List CSVData) (hd : d.length = 5) :
    driverLoopI 5 4 2 f d 4 = none := by
  cases f with
  | zero => rfl
  | succ f =>
    rw [driverLoopI, if_pos (by decide)]
    cases h : bitonicSort f d 4 2 true with
    | none => rfl
    | some e =>
      have := (bitonicSort_some _ _ _ _ _ _ h).2.2 (by decide)
      rw [hd] at this
      have h2 : (2 : Int).tdiv 2 = 1 := by decide
      rw [h2] at this
      omega

theorem driverLoopI_five (f : Nat) (d : List CSVData) (hd : d.length = 5) :
    driverLoopI 5 4 2 f d 0 = none := by
  cases f with
  | zero => rfl
  | succ f =>
    rw [driverLoopI, if_pos (by decide)]
    cases h1 : bitonicSort f d 0 2 true with
    | none => rfl
    | some e1 =>
      rw [Option.some_bind]
      cases h2 : bitonicSort f e1 (0 + 2) 2 false with
      | none => rfl
      | some e2 =>
        rw [Option.some_bind]
        have l1 := (bitonicSort_some _ _ _ _ _ _ h1).1
        have l2 := (bitonicSort_some _ _ _ _ _ _ h2).1
        exact driverLoopI_five_at_four f e2 (by rw [l2, l1, hd])

theorem driverLoopK_five_at_four (f : Nat) (d : List CSVData) (hd : d.length = 5) :
    driverLoopK 5 f d 4 = none := by
  cases f with
  | zero => rfl
  | succ f =>
    rw [driverLoopK, if_pos (by decide)]
    have h2 : (4 : Int).tdiv 2 = 2 := by decide
    rw [h2]
    cases f with
    | zero => rfl
    | succ f =>
      rw [driverLoopJ, if_pos (by decide), driverLoopI_five f d hd]
      rfl

/-- On a collection of length 5 the driver loop never returns: whatever the
fuel, it stops at the read of `data[5]`. -/
theorem bitonicDriver_five (data : List CSVData) (hd : data.length = 5) (fuel : Nat) :
    bitonicDriver fuel data = none := by
  rw [bitonicDriver, hd]
  cases fuel with
  | zero => rfl
  | succ f =>
    rw [driverLoopK]
    simp only [Nat.cast_ofNat]
    rw [if_pos (by decide)]
    cases h : driverLoopJ 5 2 f data ((2 : Int).tdiv 2) with
    | none => rfl
    | some d1 =>
      rw [Option.some_bind]
      have l1 := (driverLoopJ_some _ _ _ _ _ _ h).1
      exact driverLoopK_five_at_four f d1 (by rw [l1, hd])

/-- C15 fails for `n = 5`: the driver loop does not stay inside positions `0 .. 4`.
In its iteration `k = 4`, `j = 2`, `i = 4` it calls `bitonicSort(data, 4, 2, true)`,
whose `bitonicMerge` compares `data[4]` with `data[5]`, a position outside the
collection: `compareSwap` at index 4 with stride 1 does not return on any
collection of length 5, and the driver returns for no amount of fuel, whereas the
same driver returns on the first four records. -/
theorem bitonicDriver_five_out_of_bounds :
    fiveSample.length = 5
      ∧ readAt fiveSample 5 = none
      ∧ (∀ (d : List CSVData) (dir : Bool), d.length = 5 → compareSwap d 4 1 dir = none)
      ∧ (∀ fuel : Nat, bitonicDriver fuel fiveSample = none)
      ∧ bitonicDriver 8 (fiveSample.take 4)
          = some [mkRecord "b" 40, mkRecord "a" 50, mkRecord "c" 30, mkRecord "d" 20] := by
  refine ⟨rfl, by decide, ?_, fun fuel => bitonicDriver_five fiveSample rfl fuel, by decide⟩
  intro d dir hd
  cases h : compareSwap d 4 1 dir with
  | none => rfl
  | some d' =>
    have := (compareSwap_some d d' 4 1 dir h).2.2.2
    rw [hd] at this
    omega

/-! ## Bitonic sort: equal keys -/

/-- C18, as stated, fails for `direction = false`: the two records `a`, `b` with
the same key 1 are swapped by the comparison of `bitonicMerge`, so `bitonicMerge`
and `bitonicSort` with `direction = false` return `b`, `a`; and
`bitonicSort(data, 0, 4, true)` on four records with the same key returns
`a`, `b`, `d`, `c`, because it sorts its second half with `direction = false`. -/
theorem bitonic_ties_counterexample :
    key (mkRecord "a" 1) = key (mkRecord "b" 1)
      ∧ compareSwap tieSample 0 1 false = some [mkRecord "b" 1, mkRecord "a" 1]
      ∧ bitonicMerge 2 tieSample 0 2 false = some [mkRecord "b" 1, mkRecord "a" 1]
      ∧ bitonicSort 3 tieSample 0 2 false = some [mkRecord "b" 1, mkRecord "a" 1]
      ∧ bitonicSort 4 fourTies 0 4 true
          = some [mkRecord "a" 1, mkRecord "b" 1, mkRecord "d" 1, mkRecord "c" 1]
      ∧ [mkRecord "a" 1, mkRecord "b" 1, mkRecord "d" 1, mkRecord "c" 1] ≠ fourTies := by
  refine ⟨rfl, by decide, by decide, by decide, by decide, by decide⟩

theorem compareSwap_equal_true (d d' : List CSVData) (i k : Int)
    (hall : ∀ x ∈ d, ∀ y ∈ d, key x = key y) (h : compareSwap d i k true = some d') :
    d' = d := by
  rw [compareSwap] at h
  obtain ⟨a, ha, h⟩ := Option.bind_eq_some.1 h
  obtain ⟨b, hb, h⟩ := Option.bind_eq_some.1 h
  have hk : key a = key b := hall a (readAt_mem _ _ _ ha) b (readAt_mem _ _ _ hb)
  rw [if_neg (by simp [hk])] at h
  exact (Option.some.inj h).symm

/-! ## Bitonic sort: the order of a direction -/

theorem readAt_eq_getAt (d : List CSVData) (q : Int) (h0 : 0 ≤ q) (h1 : q < (d.length : Int)) :
    readAt d q = some (getAt d q) := by
  obtain ⟨x, hx⟩ := readAt_some d q h0 h1
  rw [getAt, hx]
  rfl

theorem getAt_of_readAt (d : List CSVData) (q : Int) (x : CSVData) (h : readAt d q = some x) :
    getAt d q = x := by
  rw [getAt, h]
  rfl

theorem aboveDir_cmpLo (dir : Bool) (t : ℚ) (a b : CSVData) :
    aboveDir dir t (cmpLo dir a b) ↔ aboveDir dir t a ∧ aboveDir dir t b := by
  cases dir <;> by_cases h : key a > key b <;> simp only [aboveDir, cmpLo, h, decide_True,
    decide_False, if_true, if_false, Bool.false_eq_true] <;> simp only [gt_iff_lt, not_lt] at h
    <;> constructor <;> intro hh
  · exact ⟨hh, lt_trans h hh⟩
  · exact hh.1
  · exact ⟨lt_of_le_of_lt h hh, hh⟩
  · exact hh.2
  · exact ⟨lt_trans hh h, hh⟩
  · exact hh.2
  · exact ⟨hh, lt_of_lt_of_le hh h⟩
  · exact hh.1

theorem aboveDir_cmpHi (dir : Bool) (t : ℚ) (a b : CSVData) :
    aboveDir dir t (cmpHi dir a b) ↔ aboveDir dir t a ∨ aboveDir dir t b := by
  cases dir <;> by_cases h : key a > key b <;> simp only [aboveDir, cmpHi, h, decide_True,
    decide_False, if_true, if_false, Bool.false_eq_true] <;> simp only [gt_iff_lt, not_lt] at h
    <;> constructor <;> intro hh
  · exact Or.inr hh
  · rcases hh with hh | hh
    · exact lt_trans h hh
    · exact hh
  · exact Or.inl hh
  · rcases hh with hh | hh
    · exact hh
    · exact lt_of_le_of_lt h hh
  · exact Or.inl hh
  · rcases hh with hh | hh
    · exact hh
    · exact lt_trans hh h
  · exact Or.inr hh
  · rcases hh with hh | hh
    · exact lt_of_lt_of_le hh h
    · exact hh

theorem aboveDir_of_leDir (dir : Bool) (t : ℚ) (x y : CSVData) (h : leDir dir x y)
    (hx : aboveDir dir t x) : aboveDir dir t y := by
  cases dir <;> simp only [leDir, aboveDir, if_true, if_false, Bool.false_eq_true] at *
  · exact lt_of_le_of_lt h hx
  · exact lt_of_lt_of_le hx h

theorem aboveDir_of_not_leDir (dir : Bool) (x y : CSVData) (h : ¬ leDir dir x y) :
    aboveDir dir (key y) x := by
  cases dir <;> simp only [leDir, aboveDir, if_true, if_false, Bool.false_eq_true] at *
  · exact not_le.1 h
  · exact not_le.1 h

theorem not_aboveDir_self (dir : Bool) (y : CSVData) : ¬ aboveDir dir (key y) y := by
  cases dir <;> simp [aboveDir]

/-! ## Bitonic sort: arcs under the comparison of the two halves -/

/-- The comparison of the two halves of a range of length `2 k` turns a predicate
that holds on an arc into the predicate "both", on the lower half, and "either", on
the upper half; each holds on an arc of its half, and where "both" holds somewhere,
"either" holds everywhere. -/
theorem arc_halves (P : Int → Prop) (s k : Int) (hk : 0 ≤ k) (h : IsArc P s (2 * k)) :
    IsArc (fun q => P q ∧ P (q + k)) s k
      ∧ IsArc (fun q => P (q - k) ∨ P q) (s + k) k
      ∧ ((∃ q, s ≤ q ∧ q < s + k ∧ P q ∧ P (q + k)) →
          ∀ q, s + k ≤ q → q < s + k + k → (P (q - k) ∨ P q)) := by
  obtain ⟨a, b, ha, hab, hb, hP | hP⟩ := h
  · -- `P` holds exactly on `a .. b - 1`
    have lo : ∀ q, s ≤ q → q < s + k →
        ((P q ∧ P (q + k)) ↔ ((a ≤ q ∧ q < b) ∧ (a ≤ q + k ∧ q + k < b))) := by
      intro q h1 h2
      rw [hP q h1 (by omega), hP (q + k) (by omega) (by omega)]
    have hi : ∀ q, s + k ≤ q → q < s + k + k →
        ((P (q - k) ∨ P q) ↔ ((a ≤ q - k ∧ q - k < b) ∨ (a ≤ q ∧ q < b))) := by
      intro q h1 h2
      rw [hP q (by omega) (by omega), hP (q - k) (by omega) (by omega)]
    by_cases c1 : b ≤ s + k
    · refine ⟨⟨s, s, by omega, by omega, by omega, Or.inl ?_⟩,
        ⟨a + k, b + k, by omega, by omega, by omega, Or.inl ?_⟩, ?_⟩
      · intro q h1 h2; dsimp only; rw [lo q h1 h2]; omega
      · intro q h1 h2; dsimp only; rw [hi q h1 h2]; omega
      · rintro ⟨q, h1, h2, h3⟩
        rw [lo q h1 h2] at h3; omega
    · by_cases c2 : s + k ≤ a
      · refine ⟨⟨s, s, by omega, by omega, by omega, Or.inl ?_⟩,
          ⟨a, b, by omega, by omega, by omega, Or.inl ?_⟩, ?_⟩
        · intro q h1 h2; dsimp only; rw [lo q h1 h2]; omega
        · intro q h1 h2; dsimp only; rw [hi q h1 h2]; omega
        · rintro ⟨q, h1, h2, h3⟩
          rw [lo q h1 h2] at h3; omega
      · by_cases c3 : b - k ≤ a
        · refine ⟨⟨s, s, by omega, by omega, by omega, Or.inl ?_⟩,
            ⟨b, a + k, by omega, by omega, by omega, Or.inr ?_⟩, ?_⟩
          · intro q h1 h2; dsimp only; rw [lo q h1 h2]; omega
          · intro q h1 h2; dsimp only; rw [hi q h1 h2]; omega
          · rintro ⟨q, h1, h2, h3⟩
            rw [lo q h1 h2] at h3; omega
        · refine ⟨⟨a, b - k, by omega, by omega, by omega, Or.inl ?_⟩,
            ⟨s + k, s + k + k, by omega, by omega, by omega, Or.inl ?_⟩, ?_⟩
          · intro q h1 h2; dsimp only; rw [lo q h1 h2]; omega
          · intro q h1 h2; dsimp only; rw [hi q h1 h2]; omega
          · intro _ q h1 h2
            rw [hi q h1 h2]; omega
  · -- `P` holds exactly off `a .. b - 1`
    have lo : ∀ q, s ≤ q → q < s + k →
        ((P q ∧ P (q + k)) ↔ (¬ (a ≤ q ∧ q < b) ∧ ¬ (a ≤ q + k ∧ q + k < b))) := by
      intro q h1 h2
      rw [hP q h1 (by omega), hP (q + k) (by omega) (by omega)]
    have hi : ∀ q, s + k ≤ q → q < s + k + k →
        ((P (q - k) ∨ P q) ↔ (¬ (a ≤ q - k ∧ q - k < b) ∨ ¬ (a ≤ q ∧ q < b))) := by
      intro q h1 h2
      rw [hP q (by omega) (by omega), hP (q - k) (by omega) (by omega)]
    by_cases c1 : b ≤ s + k
    · refine ⟨⟨a, b, by omega, by omega, by omega, Or.inr ?_⟩,
        ⟨s + k, s + k + k, by omega, by omega, by omega, Or.inl ?_⟩, ?_⟩
      · intro q h1 h2; dsimp only; rw [lo q h1 h2]; omega
      · intro q h1 h2; dsimp only; rw [hi q h1 h2]; omega
      · intro _ q h1 h2
        rw [hi q h1 h2]; omega
    · by_cases c2 : s + k ≤ a
      · refine ⟨⟨a - k, b - k, by omega, by omega, by omega, Or.inr ?_⟩,
          ⟨s + k, s + k + k, by omega, by omega, by omega, Or.inl ?_⟩, ?_⟩
        · intro q h1 h2; dsimp only; rw [lo q h1 h2]; omega
        · intro q h1 h2; dsimp only; rw [hi q h1 h2]; omega
        · intro _ q h1 h2
          rw [hi q h1 h2]; omega
      · by_cases c3 : b - k ≤ a
        · refine ⟨⟨b - k, a, by omega, by omega, by omega, Or.inl ?_⟩,
            ⟨s + k, s + k + k, by omega, by omega, by omega, Or.inl ?_⟩, ?_⟩
          · intro q h1 h2; dsimp only; rw [lo q h1 h2]; omega
          · intro q h1 h2; dsimp only; rw [hi q h1 h2]; omega
          · intro _ q h1 h2
            rw [hi q h1 h2]; omega
        · refine ⟨⟨s, s, by omega, by omega, by omega, Or.inl ?_⟩,
            ⟨a + k, b, by omega, by omega, by omega, Or.inr ?_⟩, ?_⟩
          · intro q h1 h2; dsimp only; rw [lo q h1 h2]; omega
          · intro q h1 h2; dsimp only; rw [hi q h1 h2]; omega
          · rintro ⟨q, h1, h2, h3⟩
            rw [lo q h1 h2] at h3; omega

/-! ## Bitonic sort: the comparison loop of `bitonicMerge` -/

/-- The effect of one comparison of `bitonicMerge` on two positions inside the
collection. -/
theorem compareSwap_spec (d : List CSVData) (i k : Int) (dir : Bool) (hk : k ≠ 0)
    (h0 : 0 ≤ i) (h1 : i < (d.length : Int)) (h2 : 0 ≤ i + k) (h3 : i + k < (d.length : Int)) :
    ∃ d', compareSwap d i k dir = some d' ∧ d'.length = d.length ∧ d'.Perm d
      ∧ ∀ q : Int, readAt d' q
          = if q = i then some (cmpLo dir (getAt d i) (getAt d (i + k)))
            else if q = i + k then some (cmpHi dir (getAt d i) (getAt d (i + k)))
            else readAt d q := by
  have ha := readAt_eq_getAt d i h0 h1
  have hb := readAt_eq_getAt d (i + k) h2 h3
  by_cases hc : decide (key (getAt d i) > key (getAt d (i + k))) = dir
  · obtain ⟨l', e1, e2, e3, e4⟩ := swapAt_spec d i (i + k) _ _ ha hb
    refine ⟨l', ?_, e2, e3, ?_⟩
    · rw [compareSwap, ha, Option.some_bind, hb, Option.some_bind, if_pos hc, e1]
    · intro q
      rw [e4 q, cmpLo, cmpHi, if_pos hc, if_pos hc]
      by_cases q1 : q = i
      · have q2 : ¬ q = i + k := by omega
        rw [if_neg q2, if_pos q1, if_pos q1]
      · rw [if_neg q1, if_neg q1]
  · refine ⟨d, ?_, rfl, List.Perm.refl _, ?_⟩
    · rw [compareSwap, ha, Option.some_bind, hb, Option.some_bind, if_neg hc]
    · intro q
      rw [cmpLo, cmpHi, if_neg hc, if_neg hc]
      by_cases q1 : q = i
      · rw [if_pos q1, q1, ha]
      · rw [if_neg q1]
        by_cases q2 : q = i + k
        · rw [if_pos q2, q2, hb]
        · rw [if_neg q2]

theorem bitonicMergeLoop_aux (d : List CSVData) (start : Int) (k : Nat) (dir : Bool)
    (hs : 0 ≤ start) (hlen : start + 2 * (k : Int) ≤ (d.length : Int)) :
    ∀ t : Nat, t ≤ k →
      ∃ dt, (List.range t).foldlM
            (fun d (t : Nat) => compareSwap d (start + (t : Int)) (k : Int) dir) d = some dt
        ∧ dt.length = d.length ∧ dt.Perm d
        ∧ ∀ q : Int, readAt dt q
            = if start ≤ q ∧ q < start + (t : Int) then
                some (cmpLo dir (getAt d q) (getAt d (q + (k : Int))))
              else if start + (k : Int) ≤ q ∧ q < start + (k : Int) + (t : Int) then
                some (cmpHi dir (getAt d (q - (k : Int))) (getAt d q))
              else readAt d q := by
  intro t
  induction t with
  | zero =>
    intro _
    refine ⟨d, rfl, rfl, List.Perm.refl _, ?_⟩
    intro q
    have c1 : ¬ (start ≤ q ∧ q < start + ((0 : Nat) : Int)) := by push_cast; omega
    have c2 : ¬ (start + (k : Int) ≤ q ∧ q < start + (k : Int) + ((0 : Nat) : Int)) := by
      push_cast; omega
    rw [if_neg c1, if_neg c2]
  | succ t ih =>
    intro ht
    obtain ⟨dt, h1, h2, h3, h4⟩ := ih (by omega)
    obtain ⟨d', e1, e2, e3, e4⟩ := compareSwap_spec dt (start + (t : Int)) (k : Int) dir
      (by omega) (by omega) (by rw [h2]; omega) (by omega) (by rw [h2]; omega)
    have hfix : ∀ q : Int, ¬ (start ≤ q ∧ q < start + (t : Int)) →
        ¬ (start + (k : Int) ≤ q ∧ q < start + (k : Int) + (t : Int)) →
        getAt dt q = getAt d q := by
      intro q c1 c2
      rw [getAt, getAt, h4, if_neg c1, if_neg c2]
    have g1 : getAt dt (start + (t : Int)) = getAt d (start + (t : Int)) :=
      hfix _ (by omega) (by omega)
    have g2 : getAt dt (start + (t : Int) + (k : Int))
        = getAt d (start + (t : Int) + (k : Int)) := hfix _ (by omega) (by omega)
    refine ⟨d', ?_, e2.trans h2, e3.trans h3, ?_⟩
    · rw [List.range_succ, List.foldlM_append, h1]
      simp only [Option.some_bind, Option.bind_eq_bind, List.foldlM_cons, List.foldlM_nil]
      rw [e1]
      rfl
    · intro q
      rw [e4 q, g1, g2]
      by_cases q1 : q = start + (t : Int)
      · have c1 : start ≤ q ∧ q < start + ((t + 1 : Nat) : Int) := by push_cast; omega
        rw [if_pos q1, if_pos c1, q1]
      · by_cases q2 : q = start + (t : Int) + (k : Int)
        · have c1 : ¬ (start ≤ q ∧ q < start + ((t + 1 : Nat) : Int)) := by push_cast; omega
          have c2 : start + (k : Int) ≤ q ∧ q < start + (k : Int) + ((t + 1 : Nat) : Int) := by
            push_cast; omega
          have e : start + (t : Int) + (k : Int) - (k : Int) = start + (t : Int) := by omega
          rw [if_neg q1, if_pos q2, if_neg c1, if_pos c2, q2, e]
        · rw [if_neg q1, if_neg q2, h4 q]
          by_cases q3 : start ≤ q ∧ q < start + (t : Int)
          · have c1 : start ≤ q ∧ q < start + ((t + 1 : Nat) : Int) := by push_cast; omega
            rw [if_pos q3, if_pos c1]
          · have c1 : ¬ (start ≤ q ∧ q < start + ((t + 1 : Nat) : Int)) := by
              push_cast; omega
            rw [if_neg q3, if_neg c1]
            by_cases q4 : start + (k : Int) ≤ q ∧ q < start + (k : Int) + (t : Int)
            · have c2 : start + (k : Int) ≤ q
                  ∧ q < start + (k : Int) + ((t + 1 : Nat) : Int) := by push_cast; omega
              rw [if_pos q4, if_pos c2]
            · have c2 : ¬ (start + (k : Int) ≤ q
                  ∧ q < start + (k : Int) + ((t + 1 : Nat) : Int)) := by push_cast; omega
              rw [if_neg q4, if_neg c2]

/-- The comparison loop of `bitonicMerge` on a range `start .. start + 2 k - 1`
inside the collection: position `q` of the lower half receives the lower record
of the pair `(q, q + k)`, position `q` of the upper half the upper record of the
pair `(q - k, q)`, and nothing else changes. -/
theorem bitonicMergeLoop_spec (d : List CSVData) (start : Int) (k : Nat) (dir : Bool)
    (hs : 0 ≤ start) (hlen : start + 2 * (k : Int) ≤ (d.length : Int)) :
    ∃ d', bitonicMergeLoop d start (k : Int) dir = some d' ∧ d'.length = d.length ∧ d'.Perm d
      ∧ (∀ q : Int, start ≤ q → q < start + (k : Int) →
          getAt d' q = cmpLo dir (getAt d q) (getAt d (q + (k : Int))))
      ∧ (∀ q : Int, start + (k : Int) ≤ q → q < start + (k : Int) + (k : Int) →
          getAt d' q = cmpHi dir (getAt d (q - (k : Int))) (getAt d q))
      ∧ (∀ q : Int, q < start ∨ start + 2 * (k : Int) ≤ q → readAt d' q = readAt d q) := by
  obtain ⟨d', h1, h2, h3, h4⟩ := bitonicMergeLoop_aux d start k dir hs hlen k (le_refl _)
  refine ⟨d', ?_, h2, h3, ?_, ?_, ?_⟩
  · rw [bitonicMergeLoop, Int.toNat_ofNat]
    exact h1
  · intro q q1 q2
    rw [getAt, h4 q, if_pos ⟨q1, q2⟩]
    rfl
  · intro q q1 q2
    have c1 : ¬ (start ≤ q ∧ q < start + (k : Int)) := by omega
    rw [getAt, h4 q, if_neg c1, if_pos ⟨q1, q2⟩]
    rfl
  · intro q hq
    have c1 : ¬ (start ≤ q ∧ q < start + (k : Int)) := by omega
    have c2 : ¬ (start + (k : Int) ≤ q ∧ q < start + (k : Int) + (k : Int)) := by omega
    rw [h4 q, if_neg c1, if_neg c2]

/-! ## Bitonic sort: ranges of a collection -/

theorem segment_decompose (d : List CSVData) (s n : Nat) :
    d = d.take s ++ (d.drop s).take n ++ d.drop (s + n) := by
  have e : d.drop (s + n) = (d.drop s).drop n := by rw [List.drop_drop]
  rw [e, List.append_assoc, List.take_append_drop, List.take_append_drop]

/-- A permutation of a collection that changes nothing outside the range
`s .. s + n - 1` permutes the records of the range. -/
theorem segment_perm_of_frame (d d' : List CSVData) (s n : Nat)
    (hlen : s + n ≤ d.length) (hl : d'.length = d.length) (hp : d'.Perm d)
    (hf : ∀ q : Int, q < (s : Int) ∨ (s : Int) + (n : Int) ≤ q → readAt d' q = readAt d q) :
    ((d'.drop s).take n).Perm ((d.drop s).take n)
      ∧ d' = d.take s ++ (d'.drop s).take n ++ d.drop (s + n) := by
  have hpre : (d.take s).length = s := by rw [List.length_take]; omega
  have hseg : ((d.drop s).take n).length = n := by
    rw [List.length_take, List.length_drop]; omega
  have hd := segment_decompose d s n
  obtain ⟨seg1, h1, h2⟩ := frame_decompose (d.take s) ((d.drop s).take n) (d.drop (s + n)) d'
    (by rw [← hd]; exact hl)
    (by
      intro q hq
      rw [← hd]
      exact hf q (by rw [hpre, hseg] at hq; omega))
  have hseg1 : (d'.drop s).take n = seg1 := by
    rw [h1, List.append_assoc, List.drop_append_of_le_length (by omega),
      List.drop_of_length_le (by omega), List.nil_append,
      List.take_append_of_le_length (by omega), List.take_of_length_le (by omega)]
  rw [hseg1]
  refine ⟨?_, h1⟩
  have := hp
  rw [h1] at this
  conv at this => rhs; rw [hd]
  exact (List.perm_append_left_iff _).1 ((List.perm_append_right_iff _).1 this)

theorem getAt_segment (d : List CSVData) (s n t : Nat) (ht : t < n) (hlen : s + n ≤ d.length) :
    ((d.drop s).take n)[t]? = some (getAt d ((s : Int) + (t : Int))) := by
  rw [List.getElem?_take_of_lt ht, List.getElem?_drop,
    ← readAt_eq_getAt d _ (by omega) (by omega),
    show ((s : Int) + (t : Int)) = ((s + t : Nat) : Int) by push_cast; rfl, readAt_natCast]

/-- Under the hypotheses of `segment_perm_of_frame` every record of the range
after is a record of the range before. -/
theorem range_mem_of_perm_frame (d d' : List CSVData) (s n : Nat)
    (hlen : s + n ≤ d.length) (hl : d'.length = d.length) (hp : d'.Perm d)
    (hf : ∀ q : Int, q < (s : Int) ∨ (s : Int) + (n : Int) ≤ q → readAt d' q = readAt d q)
    (q : Int) (h1 : (s : Int) ≤ q) (h2 : q < (s : Int) + (n : Int)) :
    ∃ q0 : Int, (s : Int) ≤ q0 ∧ q0 < (s : Int) + (n : Int) ∧ getAt d' q = getAt d q0 := by
  obtain ⟨hperm, _⟩ := segment_perm_of_frame d d' s n hlen hl hp hf
  obtain ⟨t, ht⟩ : ∃ t : Nat, (t : Int) = q - (s : Int) := ⟨(q - (s : Int)).toNat, by omega⟩
  have htn : t < n := by omega
  have e1 := getAt_segment d' s n t htn (by omega)
  have hmem : getAt d' ((s : Int) + (t : Int)) ∈ (d.drop s).take n :=
    hperm.subset (List.getElem?_mem e1)
  obtain ⟨t0, ht0⟩ := List.mem_iff_getElem?.1 hmem
  have ht0n : t0 < n := by
    have := (List.getElem?_eq_some_iff.1 ht0).1
    rw [List.length_take, List.length_drop] at this
    omega
  rw [getAt_segment d s n t0 ht0n hlen] at ht0
  refine ⟨(s : Int) + (t0 : Int), by omega, by omega, ?_⟩
  rw [show q = (s : Int) + (t : Int) by omega]
  exact (Option.some.inj ht0).symm

theorem getAt_of_frame (d d' : List CSVData)
    (q : Int) (h : readAt d' q = readAt d q) : getAt d' q = getAt d q := by
  rw [getAt, getAt, h]

/-! ## Bitonic sort: `bitonicMerge` sorts a bitonic range -/

theorem isArc_congr (P P' : Int → Prop) (s n : Int)
    (h : ∀ q, s ≤ q → q < s + n → (P' q ↔ P q)) (hP : IsArc P s n) : IsArc P' s n := by
  obtain ⟨a, b, h1, h2, h3, hh | hh⟩ := hP
  · exact ⟨a, b, h1, h2, h3, Or.inl fun q q1 q2 => (h q q1 q2).trans (hh q q1 q2)⟩
  · exact ⟨a, b, h1, h2, h3, Or.inr fun q q1 q2 => (h q q1 q2).trans (hh q q1 q2)⟩

theorem bitonicOn_congr (dir : Bool) (d d' : List CSVData) (s n : Int)
    (h : ∀ q, s ≤ q → q < s + n → getAt d' q = getAt d q) (hb : BitonicOn dir d s n) :
    BitonicOn dir d' s n := by
  intro t
  refine isArc_congr _ _ s n ?_ (hb t)
  intro q q1 q2
  rw [h q q1 q2]

theorem sortedOn_congr (dir : Bool) (d d' : List CSVData) (s n : Int)
    (h : ∀ q, s ≤ q → q < s + n → getAt d' q = getAt d q) (hb : SortedOn dir d s n) :
    SortedOn dir d' s n := by
  intro q q' h1 h2 h3
  rw [h q h1 (by omega), h q' (by omega) h3]
  exact hb q q' h1 h2 h3

/-- After the comparison loop on a bitonic range of length `2 k`, both halves are
bitonic and no record of the lower half is beyond a record of the upper half. -/
theorem halves_after_loop (dir : Bool) (d d1 : List CSVData) (s k : Int) (hk : 0 ≤ k)
    (hb : BitonicOn dir d s (2 * k))
    (hlo : ∀ q : Int, s ≤ q → q < s + k → getAt d1 q = cmpLo dir (getAt d q) (getAt d (q + k)))
    (hhi : ∀ q : Int, s + k ≤ q → q < s + k + k →
      getAt d1 q = cmpHi dir (getAt d (q - k)) (getAt d q)) :
    BitonicOn dir d1 s k ∧ BitonicOn dir d1 (s + k) k
      ∧ ∀ q q' : Int, s ≤ q → q < s + k → s + k ≤ q' → q' < s + k + k →
          leDir dir (getAt d1 q) (getAt d1 q') := by
  refine ⟨?_, ?_, ?_⟩
  · intro t
    refine isArc_congr _ _ s k ?_ (arc_halves _ s k hk (hb t)).1
    intro q q1 q2
    rw [hlo q q1 q2, aboveDir_cmpLo]
  · intro t
    refine isArc_congr _ _ (s + k) k ?_ (arc_halves _ s k hk (hb t)).2.1
    intro q q1 q2
    rw [hhi q q1 q2, aboveDir_cmpHi]
  · intro q q' q1 q2 q3 q4
    by_contra hnot
    have hx := aboveDir_of_not_leDir dir _ _ hnot
    rw [hlo q q1 q2, aboveDir_cmpLo] at hx
    have hall := (arc_halves _ s k hk (hb (key (getAt d1 q')))).2.2 ⟨q, q1, q2, hx⟩ q' q3 q4
    rw [← aboveDir_cmpHi, ← hhi q' q3 q4] at hall
    exact not_aboveDir_self dir _ hall

theorem pow_succ_cast (m : Nat) : ((2 ^ (m + 1) : Nat) : Int) = 2 * ((2 ^ m : Nat) : Int) := by
  push_cast; ring

theorem pow_pos_cast (m : Nat) : (1 : Int) ≤ ((2 ^ m : Nat) : Int) := by
  have := Nat.one_le_two_pow (n := m)
  omega

/-- The function `bitonicMerge` on a bitonic range of length `2 ^ m` inside the
collection: with `m + 1` units of fuel it returns a permutation of the collection
that is unchanged outside the range and is, on the range, in the order of
`direction`. -/
theorem bitonicMerge_spec :
    ∀ (m fuel : Nat) (d : List CSVData) (start : Nat) (dir : Bool),
      start + 2 ^ m ≤ d.length → m + 1 ≤ fuel →
      BitonicOn dir d (start : Int) ((2 ^ m : Nat) : Int) →
      ∃ d', bitonicMerge fuel d (start : Int) ((2 ^ m : Nat) : Int) dir = some d'
        ∧ d'.length = d.length ∧ d'.Perm d
        ∧ (∀ q : Int, q < (start : Int) ∨ (start : Int) + ((2 ^ m : Nat) : Int) ≤ q →
            readAt d' q = readAt d q)
        ∧ SortedOn dir d' (start : Int) ((2 ^ m : Nat) : Int) := by
  intro m
  induction m with
  | zero =>
    intro fuel d start dir _ hf _
    obtain ⟨f, rfl⟩ : ∃ f, fuel = f + 1 := ⟨fuel - 1, by omega⟩
    refine ⟨d, ?_, rfl, List.Perm.refl _, fun _ _ => rfl, ?_⟩
    · rw [bitonicMerge, if_neg (by simp)]
    · intro q q' h1 h2 h3
      simp at h3
      omega
  | succ m ih =>
    intro fuel d start dir hlen hf hb
    obtain ⟨f, rfl⟩ : ∃ f, fuel = f + 1 := ⟨fuel - 1, by omega⟩
    have hpow := pow_succ_cast m
    have hpos := pow_pos_cast m
    have hlen' : start + (2 ^ m + 2 ^ m) ≤ d.length := by
      have : 2 ^ (m + 1) = 2 ^ m + 2 ^ m := by ring
      omega
    have hk : (((2 ^ (m + 1) : Nat) : Int)).tdiv 2 = ((2 ^ m : Nat) : Int) := by
      rw [tdiv_two_natCast]
      congr 1
      rw [pow_succ]
      omega
    -- the comparison loop
    obtain ⟨d0, e0, l0, p0, lo0, hi0, f0⟩ := bitonicMergeLoop_spec d (start : Int) (2 ^ m) dir
      (by omega) (by omega)
    rw [hpow] at hb
    obtain ⟨b1, b2, cross⟩ := halves_after_loop dir d d0 (start : Int) ((2 ^ m : Nat) : Int)
      (by omega) hb lo0 hi0
    -- the merge of the lower half
    obtain ⟨d1, e1, l1, p1, f1, s1⟩ := ih f d0 start dir (by omega) (by omega) b1
    have b2' : BitonicOn dir d1 (((start + 2 ^ m : Nat)) : Int) ((2 ^ m : Nat) : Int) := by
      have : (((start + 2 ^ m : Nat)) : Int) = (start : Int) + ((2 ^ m : Nat) : Int) := by
        push_cast; rfl
      rw [this]
      refine bitonicOn_congr dir d0 d1 _ _ ?_ b2
      intro q q1 q2
      exact getAt_of_frame _ _ _ (f1 q (Or.inr q1))
    -- the merge of the upper half
    obtain ⟨d2, e2, l2, p2, f2, s2⟩ := ih f d1 (start + 2 ^ m) dir (by omega) (by omega) b2'
    have hcast : (((start + 2 ^ m : Nat)) : Int) = (start : Int) + ((2 ^ m : Nat) : Int) := by
      push_cast; rfl
    rw [hcast] at e2 f2 s2
    refine ⟨d2, ?_, l2.trans (l1.trans l0), p2.trans (p1.trans p0), ?_, ?_⟩
    · rw [bitonicMerge, if_pos (by omega)]
      simp only [hk]
      rw [e0, Option.some_bind, e1, Option.some_bind, e2]
    · intro q hq
      rw [f2 q (by omega), f1 q (by omega), f0 q (by omega)]
    · -- the whole range is in order
      have s1' : SortedOn dir d2 (start : Int) ((2 ^ m : Nat) : Int) := by
        refine sortedOn_congr dir d1 d2 _ _ ?_ s1
        intro q q1 q2
        exact getAt_of_frame _ _ _ (f2 q (Or.inl (by omega)))
      intro q q' h1 h2 h3
      rw [hpow] at h3
      by_cases c1 : q' < (start : Int) + ((2 ^ m : Nat) : Int)
      · exact s1' q q' h1 h2 c1
      · by_cases c2 : (start : Int) + ((2 ^ m : Nat) : Int) ≤ q
        · exact s2 q q' c2 h2 (by omega)
        · -- `q` in the lower half, `q'` in the upper half
          have g1 : getAt d2 q = getAt d1 q :=
            getAt_of_frame _ _ _ (f2 q (Or.inl (by omega)))
          obtain ⟨q0, a1, a2, a3⟩ := range_mem_of_perm_frame d0 d1 start (2 ^ m)
            (by omega) l1 p1 f1 q h1 (by omega)
          obtain ⟨q0', a1', a2', a3'⟩ := range_mem_of_perm_frame d1 d2 (start + 2 ^ m) (2 ^ m)
            (by omega) l2 p2 (by rw [hcast]; exact f2) q' (by omega) (by omega)
          have g2 : getAt d1 q0' = getAt d0 q0' :=
            getAt_of_frame _ _ _ (f1 q0' (Or.inr (by omega)))
          rw [g1, a3, a3', g2]
          exact cross q0 q0' a1 a2 (by omega) (by omega)

/-! ## Bitonic sort: an ascending range followed by a descending one is bitonic -/

theorem up_closed_threshold (P : Int → Prop) (s : Int) :
    ∀ n : Nat, (∀ q q' : Int, s ≤ q → q < q' → q' < s + (n : Int) → P q → P q') →
      ∃ a : Int, s ≤ a ∧ a ≤ s + (n : Int) ∧
        ∀ q : Int, s ≤ q → q < s + (n : Int) → (P q ↔ a ≤ q) := by
  intro n
  induction n with
  | zero =>
    intro _
    exact ⟨s, le_refl _, by simp, fun q h1 h2 => by simp at h2; omega⟩
  | succ n ih =>
    intro h
    obtain ⟨a, a1, a2, a3⟩ := ih (fun q q' h1 h2 h3 => h q q' h1 h2 (by push_cast; omega))
    by_cases hP : P (s + (n : Int))
    · refine ⟨a, a1, by push_cast; omega, ?_⟩
      intro q h1 h2
      by_cases hq : q < s + (n : Int)
      · exact a3 q h1 hq
      · have : q = s + (n : Int) := by push_cast at h2; omega
        rw [this]
        exact ⟨fun _ => a2, fun _ => hP⟩
    · refine ⟨s + (n : Int) + 1, by omega, by push_cast; omega, ?_⟩
      intro q h1 h2
      constructor
      · intro hq
        exfalso
        by_cases hq' : q < s + (n : Int)
        · exact hP (h q _ h1 hq' (by push_cast; omega) hq)
        · have : q = s + (n : Int) := by push_cast at h2; omega
          rw [this] at hq
          exact hP hq
      · intro hq
        push_cast at h2
        omega

theorem down_closed_threshold (P : Int → Prop) (s : Int) (n : Nat)
    (h : ∀ q q' : Int, s ≤ q → q < q' → q' < s + (n : Int) → P q' → P q) :
    ∃ b : Int, s ≤ b ∧ b ≤ s + (n : Int) ∧
      ∀ q : Int, s ≤ q → q < s + (n : Int) → (P q ↔ q < b) := by
  obtain ⟨a, a1, a2, a3⟩ := up_closed_threshold (fun q => ¬ P q) s n
    (fun q q' h1 h2 h3 hq hq' => hq (h q q' h1 h2 h3 hq'))
  refine ⟨a, a1, a2, ?_⟩
  intro q h1 h2
  have := a3 q h1 h2
  constructor
  · intro hq
    by_contra hc
    exact (this.2 (by omega)) hq
  · intro hq
    by_contra hc
    have := this.1 hc
    omega

/-- A range whose lower half is ascending and whose upper half is descending is
bitonic, for either direction of comparison. -/
theorem asc_desc_bitonic (d : List CSVData) (s : Int) (k : Nat)
    (h1 : SortedOn true d s (k : Int)) (h2 : SortedOn false d (s + (k : Int)) (k : Int))
    (dir : Bool) : BitonicOn dir d s (2 * (k : Int)) := by
  intro t
  cases dir with
  | true =>
    obtain ⟨a, a1, a2, a3⟩ := up_closed_threshold (fun q => aboveDir true t (getAt d q)) s k
      (by
        intro q q' q1 q2 q3 hq
        have := h1 q q' q1 q2 q3
        simp only [leDir, aboveDir, if_true] at this hq ⊢
        exact lt_of_lt_of_le hq this)
    obtain ⟨b, b1, b2, b3⟩ := down_closed_threshold (fun q => aboveDir true t (getAt d q))
      (s + (k : Int)) k
      (by
        intro q q' q1 q2 q3 hq
        have := h2 q q' q1 q2 q3
        simp only [leDir, aboveDir, if_true, Bool.false_eq_true, if_false] at this hq ⊢
        exact lt_of_lt_of_le hq this)
    refine ⟨a, b, a1, by omega, by omega, Or.inl ?_⟩
    intro q q1 q2
    by_cases c : q < s + (k : Int)
    · dsimp only
      rw [a3 q q1 c]
      constructor
      · intro hq; exact ⟨hq, by omega⟩
      · intro hq; exact hq.1
    · dsimp only
      rw [b3 q (by omega) (by omega)]
      constructor
      · intro hq; exact ⟨by omega, hq⟩
      · intro hq; exact hq.2
  | false =>
    obtain ⟨b, b1, b2, b3⟩ := down_closed_threshold (fun q => aboveDir false t (getAt d q)) s k
      (by
        intro q q' q1 q2 q3 hq
        have := h1 q q' q1 q2 q3
        simp only [leDir, aboveDir, if_true, Bool.false_eq_true, if_false] at this hq ⊢
        exact lt_of_le_of_lt this hq)
    obtain ⟨a, a1, a2, a3⟩ := up_closed_threshold (fun q => aboveDir false t (getAt d q))
      (s + (k : Int)) k
      (by
        intro q q' q1 q2 q3 hq
        have := h2 q q' q1 q2 q3
        simp only [leDir, aboveDir, Bool.false_eq_true, if_false] at this hq ⊢
        exact lt_of_le_of_lt this hq)
    refine ⟨b, a, b1, by omega, by omega, Or.inr ?_⟩
    intro q q1 q2
    by_cases c : q < s + (k : Int)
    · dsimp only
      rw [b3 q q1 c]
      constructor
      · intro hq hc; omega
      · intro hq
        by_contra hc
        exact hq ⟨by omega, by omega⟩
    · dsimp only
      rw [a3 q (by omega) (by omega)]
      constructor
      · intro hq hc; omega
      · intro hq
        by_contra hc
        exact hq ⟨by omega, by omega⟩

/-! ## Bitonic sort: `bitonicSort` on a range of length `2 ^ m` -/

/-- The function `bitonicSort` on a range of length `2 ^ m` inside the collection:
with `m + 2` units of fuel it returns a permutation of the collection that is
unchanged outside the range and is, on the range, in the order of `direction`. -/
theorem bitonicSort_spec :
    ∀ (m fuel : Nat) (d : List CSVData) (start : Nat) (dir : Bool),
      start + 2 ^ m ≤ d.length → m + 2 ≤ fuel →
      ∃ d', bitonicSort fuel d (start : Int) ((2 ^ m : Nat) : Int) dir = some d'
        ∧ d'.length = d.length ∧ d'.Perm d
        ∧ (∀ q : Int, q < (start : Int) ∨ (start : Int) + ((2 ^ m : Nat) : Int) ≤ q →
            readAt d' q = readAt d q)
        ∧ SortedOn dir d' (start : Int) ((2 ^ m : Nat) : Int) := by
  intro m
  induction m with
  | zero =>
    intro fuel d start dir _ hf
    obtain ⟨f, rfl⟩ : ∃ f, fuel = f + 1 := ⟨fuel - 1, by omega⟩
    refine ⟨d, ?_, rfl, List.Perm.refl _, fun _ _ => rfl, ?_⟩
    · rw [bitonicSort, if_neg (by simp)]
    · intro q q' h1 h2 h3
      simp at h3
      omega
  | succ m ih =>
    intro fuel d start dir hlen hf
    obtain ⟨f, rfl⟩ : ∃ f, fuel = f + 1 := ⟨fuel - 1, by omega⟩
    have hpow := pow_succ_cast m
    have hpos := pow_pos_cast m
    have hlen' : start + (2 ^ m + 2 ^ m) ≤ d.length := by
      have : 2 ^ (m + 1) = 2 ^ m + 2 ^ m := by ring
      omega
    have hk : (((2 ^ (m + 1) : Nat) : Int)).tdiv 2 = ((2 ^ m : Nat) : Int) := by
      rw [tdiv_two_natCast]
      congr 1
      rw [pow_succ]
      omega
    have hcast : (((start + 2 ^ m : Nat)) : Int) = (start : Int) + ((2 ^ m : Nat) : Int) := by
      push_cast; rfl
    obtain ⟨d1, e1, l1, p1, f1, s1⟩ := ih f d start true (by omega) (by omega)
    obtain ⟨d2, e2, l2, p2, f2, s2⟩ := ih f d1 (start + 2 ^ m) false (by omega) (by omega)
    rw [hcast] at e2 f2 s2
    have s1' : SortedOn true d2 (start : Int) ((2 ^ m : Nat) : Int) := by
      refine sortedOn_congr true d1 d2 _ _ ?_ s1
      intro q q1 q2
      exact getAt_of_frame _ _ _ (f2 q (Or.inl (by omega)))
    have hb := asc_desc_bitonic d2 (start : Int) (2 ^ m) s1' s2 dir
    rw [← hpow] at hb
    obtain ⟨d3, e3, l3, p3, f3, s3⟩ := bitonicMerge_spec (m + 1) f d2 start dir
      (by omega) (by omega) hb
    refine ⟨d3, ?_, l3.trans (l2.trans l1), p3.trans (p2.trans p1), ?_, s3⟩
    · rw [bitonicSort, if_pos (by omega)]
      simp only [hk]
      rw [e1, Option.some_bind, e2, Option.some_bind, e3]
    · intro q hq
      rw [f3 q hq, f2 q (by omega), f1 q (by omega)]

theorem pairwise_of_sortedOn (dir : Bool) (d : List CSVData) (s n : Nat)
    (hlen : s + n ≤ d.length) (h : SortedOn dir d (s : Int) (n : Int)) :
    ((d.drop s).take n).Pairwise (leDir dir) := by
  rw [List.pairwise_iff_getElem]
  intro i j hi hj hij
  have hn : ((d.drop s).take n).length = n := by
    rw [List.length_take, List.length_drop]; omega
  have ei := getAt_segment d s n i (by omega) hlen
  have ej := getAt_segment d s n j (by omega) hlen
  rw [List.getElem?_eq_getElem hi] at ei
  rw [List.getElem?_eq_getElem hj] at ej
  rw [Option.some.inj ei, Option.some.inj ej]
  exact h _ _ (by omega) (by omega) (by omega)

/-- Claim C17: for every `m`, every `start` and every collection with
`start + 2 ^ m ≤ n`, the call `bitonicSort(data, start, 2 ^ m, direction)` returns
(with `m + 2` units of fuel); afterwards positions `start .. start + 2 ^ m - 1` hold
a permutation of the records previously there, in ascending key order for
`direction = true` and in descending key order for `direction = false`, and every
other position is unchanged. -/
theorem bitonicSort_power_of_two (m start : Nat) (data : List CSVData) (direction : Bool)
    (hlen : start + 2 ^ m ≤ data.length) (fuel : Nat) (hf : m + 2 ≤ fuel) :
    ∃ out, bitonicSort fuel data (start : Int) ((2 ^ m : Nat) : Int) direction = some out
      ∧ out.length = data.length
      ∧ ((out.drop start).take (2 ^ m)).Perm ((data.drop start).take (2 ^ m))
      ∧ (direction = true → Ascending ((out.drop start).take (2 ^ m)))
      ∧ (direction = false →
          ((out.drop start).take (2 ^ m)).Pairwise (fun a b => key b ≤ key a))
      ∧ (∀ q : Nat, q < start ∨ start + 2 ^ m ≤ q → out[q]? = data[q]?) := by
  obtain ⟨out, e, l, p, f, s⟩ := bitonicSort_spec m fuel data start direction hlen hf
  have hp := pairwise_of_sortedOn direction out start (2 ^ m) (by omega) s
  refine ⟨out, e, l, (segment_perm_of_frame data out start (2 ^ m) hlen l p f).1, ?_, ?_, ?_⟩
  · intro hd
    subst hd
    simpa [leDir] using hp
  · intro hd
    subst hd
    simpa [leDir] using hp
  · intro q hq
    have := f (q : Int) (by omega)
    rwa [readAt_natCast, readAt_natCast] at this

theorem bitonicSort_power_of_two_witness :
    0 + 2 ^ 2 ≤ sampleData.length ∧ 2 + 2 ≤ 4
      ∧ bitonicSort 4 sampleData 0 4 true
          = some [mkRecord "b" 10, mkRecord "d" 20, mkRecord "c" 30, mkRecord "a" 40]
      ∧ ∃ out, bitonicSort 4 sampleData ((0 : Nat) : Int) ((2 ^ 2 : Nat) : Int) true = some out
          ∧ out.length = sampleData.length
          ∧ ((out.drop 0).take (2 ^ 2)).Perm ((sampleData.drop 0).take (2 ^ 2))
          ∧ (true = true → Ascending ((out.drop 0).take (2 ^ 2)))
          ∧ (true = false →
              ((out.drop 0).take (2 ^ 2)).Pairwise (fun a b => key b ≤ key a))
          ∧ (∀ q : Nat, q < 0 ∨ 0 + 2 ^ 2 ≤ q → out[q]? = sampleData[q]?) :=
  ⟨by decide, by decide, by decide,
    bitonicSort_power_of_two 2 0 sampleData true (by decide) 4 (by decide)⟩

/-! ## Quicksort: the indices read by the scans -/

/-- The traced scan returns what `scanUp` returns. -/
theorem scanUpTrace_fst (data : List CSVData) (p : ℚ) :
    ∀ (fuel : Nat) (i : Int) (tr : List Int),
      (scanUpTrace data p fuel i tr).map Prod.fst = scanUp data p fuel i := by
  intro fuel
  induction fuel with
  | zero => intro i tr; rfl
  | succ n ih =>
    intro i tr
    rw [scanUpTrace, scanUp]
    cases readAt data i with
    | none => rfl
    | some x =>
      rw [Option.some_bind, Option.some_bind]
      by_cases h : key x < p
      · rw [if_pos h, if_pos h]; exact ih _ _
      · rw [if_neg h, if_neg h]; rfl

/-- The traced scan returns what `scanDown` returns. -/
theorem scanDownTrace_fst (data : List CSVData) (p : ℚ) :
    ∀ (fuel : Nat) (j : Int) (tr : List Int),
      (scanDownTrace data p fuel j tr).map Prod.fst = scanDown data p fuel j := by
  intro fuel
  induction fuel with
  | zero => intro j tr; rfl
  | succ n ih =>
    intro j tr
    rw [scanDownTrace, scanDown]
    cases readAt data j with
    | none => rfl
    | some x =>
      rw [Option.some_bind, Option.some_bind]
      by_cases h : key x > p
      · rw [if_pos h, if_pos h]; exact ih _ _
      · rw [if_neg h, if_neg h]; rfl

/-- A scan `scanUp` that returns `i'` has read exactly the indices `i .. i'`. -/
theorem scanUpTrace_of_scanUp (data : List CSVData) (p : ℚ) :
    ∀ (fuel : Nat) (i : Int) (tr : List Int) (i' : Int), scanUp data p fuel i = some i' →
      ∃ tr', scanUpTrace data p fuel i tr = some (i', tr') ∧ i ≤ i'
        ∧ ∀ q : Int, q ∈ tr' ↔ (q ∈ tr ∨ (i ≤ q ∧ q ≤ i')) := by
  intro fuel
  induction fuel with
  | zero => intro i tr i' h; cases h
  | succ n ih =>
    intro i tr i' h
    rw [scanUp] at h
    obtain ⟨x, hx, h⟩ := Option.bind_eq_some.1 h
    by_cases hlt : key x < p
    · rw [if_pos hlt] at h
      obtain ⟨tr', h1, h2, h3⟩ := ih (i + 1) (i :: tr) i' h
      refine ⟨tr', ?_, by omega, ?_⟩
      · rw [scanUpTrace, hx, Option.some_bind, if_pos hlt, h1]
      · intro q
        rw [h3 q, List.mem_cons]
        constructor
        · rintro ((e | e) | e)
          · exact Or.inr ⟨by omega, by omega⟩
          · exact Or.inl e
          · exact Or.inr ⟨by omega, by omega⟩
        · rintro (e | e)
          · exact Or.inl (Or.inr e)
          · by_cases c : q = i
            · exact Or.inl (Or.inl c)
            · exact Or.inr ⟨by omega, by omega⟩
    · rw [if_neg hlt] at h
      cases h
      refine ⟨i :: tr, ?_, le_refl _, ?_⟩
      · rw [scanUpTrace, hx, Option.some_bind, if_neg hlt]
      · intro q
        rw [List.mem_cons]
        constructor
        · rintro (e | e)
          · exact Or.inr ⟨by omega, by omega⟩
          · exact Or.inl e
        · rintro (e | e)
          · exact Or.inr e
          · exact Or.inl (by omega)

/-- A scan `scanDown` that returns `j'` has read exactly the indices `j' .. j`. -/
theorem scanDownTrace_of_scanDown (data : List CSVData) (p : ℚ) :
    ∀ (fuel : Nat) (j : Int) (tr : List Int) (j' : Int), scanDown data p fuel j = some j' →
      ∃ tr', scanDownTrace data p fuel j tr = some (j', tr') ∧ j' ≤ j
        ∧ ∀ q : Int, q ∈ tr' ↔ (q ∈ tr ∨ (j' ≤ q ∧ q ≤ j)) := by
  intro fuel
  induction fuel with
  | zero => intro j tr j' h; cases h
  | succ n ih =>
    intro j tr j' h
    rw [scanDown] at h
    obtain ⟨x, hx, h⟩ := Option.bind_eq_some.1 h
    by_cases hlt : key x > p
    · rw [if_pos hlt] at h
      obtain ⟨tr', h1, h2, h3⟩ := ih (j - 1) (j :: tr) j' h
      refine ⟨tr', ?_, by omega, ?_⟩
      · rw [scanDownTrace, hx, Option.some_bind, if_pos hlt, h1]
      · intro q
        rw [h3 q, List.mem_cons]
        constructor
        · rintro ((e | e) | e)
          · exact Or.inr ⟨by omega, by omega⟩
          · exact Or.inl e
          · exact Or.inr ⟨by omega, by omega⟩
        · rintro (e | e)
          · exact Or.inl (Or.inr e)
          · by_cases c : q = j
            · exact Or.inl (Or.inl c)
            · exact Or.inr ⟨by omega, by omega⟩
    · rw [if_neg hlt] at h
      cases h
      refine ⟨j :: tr, ?_, le_refl _, ?_⟩
      · rw [scanDownTrace, hx, Option.some_bind, if_neg hlt]
      · intro q
        rw [List.mem_cons]
        constructor
        · rintro (e | e)
          · exact Or.inr ⟨by omega, by omega⟩
          · exact Or.inl e
        · rintro (e | e)
          · exact Or.inr e
          · exact Or.inl (by omega)

/-- The traced partition loop returns what `partitionLoop` returns. -/
theorem partitionLoopTrace_fst (p : ℚ) :
    ∀ (fuel : Nat) (data : List CSVData) (i j : Int) (tr : List Int),
      (partitionLoopTrace p fuel data i j tr).map (fun r => (r.1, r.2.1, r.2.2.1))
        = partitionLoop p fuel data i j := by
  intro fuel
  induction fuel with
  | zero => intro data i j tr; rfl
  | succ n ih =>
    intro data i j tr
    rw [partitionLoopTrace, partitionLoop]
    by_cases hij : i ≤ j
    · rw [if_pos hij, if_pos hij, ← scanUpTrace_fst data p n i tr]
      cases scanUpTrace data p n i tr with
      | none => rfl
      | some r1 =>
        obtain ⟨i1, tr1⟩ := r1
        simp only [Option.some_bind, Option.map_some']
        rw [← scanDownTrace_fst data p n j tr1]
        cases scanDownTrace data p n j tr1 with
        | none => rfl
        | some r2 =>
          obtain ⟨j1, tr2⟩ := r2
          simp only [Option.some_bind, Option.map_some']
          by_cases h1 : i1 ≤ j1
          · rw [if_pos h1, if_pos h1]
            cases swapAt data i1 j1 with
            | none => rfl
            | some d =>
              simp only [Option.some_bind]
              exact ih _ _ _ _
          · rw [if_neg h1, if_neg h1]
            exact ih _ _ _ _
    · rw [if_neg hij, if_neg hij]
      rfl

/-- One iteration of the partition loop from a state that satisfies the invariant
with `i <= j`: both scans return, the scan up inside `i .. right` and the scan down
inside `left .. j`, and the state after the iteration satisfies the invariant. -/
theorem partInv_iteration (data0 : List CSVData) (left right : Int) (p : ℚ)
    (hl : 0 ≤ left) (hr : right < data0.length) (data : List CSVData) (i j : Int)
    (inv : PartInv data0 left right p data i j) (hij : i ≤ j) (fuel : Nat)
    (hf : right - left + 1 ≤ (fuel : Int)) :
    ∃ i1 j1, scanUp data p fuel i = some i1 ∧ scanDown data p fuel j = some j1
      ∧ i ≤ i1 ∧ i1 ≤ right ∧ left ≤ j1 ∧ j1 ≤ j
      ∧ (i1 ≤ j1 →
          ∃ d, swapAt data i1 j1 = some d ∧ PartInv data0 left right p d (i1 + 1) (j1 - 1))
      ∧ (¬ i1 ≤ j1 → PartInv data0 left right p data i1 j1) := by
  have hilo := inv.i_lo
  have hihi := inv.i_hi
  have hjlo := inv.j_lo
  have hjhi := inv.j_hi
  obtain ⟨qu, xu, hu1, hu2, hu3, hu4⟩ := inv.up hij
  obtain ⟨qd, xd, hd1, hd2, hd3, hd4⟩ := inv.down hij
  obtain ⟨i1, hs1, hi1a, hi1b, hi1c, x, hx, hxp⟩ :=
    scanUp_spec data p fuel i qu xu (by omega) hu1 hu3 hu4 (by omega)
  obtain ⟨j1, hs2, hj1a, hj1b, hj1c, y, hy, hyp⟩ :=
    scanDown_spec data p fuel j qd xd (by rw [inv.len]; omega) hd2 hd3 hd4 (by omega)
  have hlow1 : ∀ (q : Int) (z : CSVData), left ≤ q → q < i1 → readAt data q = some z →
      key z ≤ p := by
    intro q z h1 h2 hz
    by_cases h : q < i
    · exact inv.low q z h1 h hz
    · exact le_of_lt (hi1c q z (by omega) h2 hz)
  have hhigh1 : ∀ (q : Int) (z : CSVData), j1 < q → q ≤ right → readAt data q = some z →
      p ≤ key z := by
    intro q z h1 h2 hz
    by_cases h : j < q
    · exact inv.high q z h h2 hz
    · exact le_of_lt (hj1c q z h1 (by omega) hz)
  refine ⟨i1, j1, hs1, hs2, hi1a, by omega, by omega, hj1b, ?_, ?_⟩
  · intro hij1
    obtain ⟨d, hsw, hdlen, hdperm, hdread⟩ := swapAt_spec data i1 j1 x y hx hy
    refine ⟨d, hsw, by rw [hdlen, inv.len], hdperm.trans inv.perm, ?_, ?_, ?_, by omega,
      by omega, by omega, by omega, ?_, ?_, Or.inl ⟨by omega, by omega⟩⟩
    · intro q hq
      have c1 : ¬ q = j1 := by omega
      have c2 : ¬ q = i1 := by omega
      rw [hdread, if_neg c1, if_neg c2]
      exact inv.frame q hq
    · intro q z h1 h2 hz
      rw [hdread] at hz
      by_cases e1 : q = j1
      · rw [if_pos e1] at hz
        cases hz
        have e2 : i1 = j1 := by omega
        rw [e2, hy] at hx
        cases hx
        exact hyp
      · rw [if_neg e1] at hz
        by_cases e2 : q = i1
        · rw [if_pos e2] at hz
          cases hz
          exact hyp
        · rw [if_neg e2] at hz
          exact hlow1 q z h1 (by omega) hz
    · intro q z h1 h2 hz
      rw [hdread] at hz
      by_cases e1 : q = j1
      · rw [if_pos e1] at hz
        cases hz
        exact hxp
      · rw [if_neg e1] at hz
        by_cases e2 : q = i1
        · omega
        · rw [if_neg e2] at hz
          exact hhigh1 q z (by omega) h2 hz
    · intro h
      refine ⟨j1, x, by omega, by omega, ?_, hxp⟩
      rw [hdread, if_pos rfl]
    · intro h
      have c1 : ¬ i1 = j1 := by omega
      refine ⟨i1, y, by omega, by omega, ?_, hyp⟩
      rw [hdread, if_neg c1, if_pos rfl]
  · intro hij1
    refine ⟨inv.len, inv.perm, inv.frame, hlow1, hhigh1, by omega, by omega, by omega,
      by omega, fun h => absurd h hij1, fun h => absurd h hij1, ?_⟩
    rcases inv.progress with h | h
    · exact Or.inl ⟨by omega, by omega⟩
    · exact Or.inl ⟨by omega, by omega⟩

/-- The traced partition loop from a state that satisfies the invariant: it
returns, and every index its scans read lies in `left .. right`; when the loop body
runs at all, the scans read the indices `i` and `j`. -/
theorem partitionLoopTrace_spec (data0 : List CSVData) (left right : Int) (p : ℚ)
    (hl : 0 ≤ left) (hr : right < data0.length) :
    ∀ (fuel : Nat) (data : List CSVData) (i j : Int) (tr : List Int),
      PartInv data0 left right p data i j →
      right - left + 3 + ((j - i + 1).toNat : Int) ≤ (fuel : Int) →
      ∃ data' i' j' tr', partitionLoopTrace p fuel data i j tr = some (data', i', j', tr')
        ∧ (∀ q ∈ tr', q ∈ tr ∨ (left ≤ q ∧ q ≤ right))
        ∧ (∀ q ∈ tr, q ∈ tr')
        ∧ (i ≤ j → i ∈ tr' ∧ j ∈ tr') := by
  intro fuel
  induction fuel with
  | zero =>
    intro data i j tr inv hf
    have := inv.i_lo; have := inv.i_hi
    simp at hf; omega
  | succ fuel ih =>
    intro data i j tr inv hf
    have hilo := inv.i_lo
    have hihi := inv.i_hi
    have hjlo := inv.j_lo
    have hjhi := inv.j_hi
    by_cases hij : i ≤ j
    · obtain ⟨i1, j1, hs1, hs2, a1, a2, a3, a4, hswap, hnoswap⟩ :=
        partInv_iteration data0 left right p hl hr data i j inv hij fuel
          (by push_cast at hf; omega)
      obtain ⟨tr1, ht1, _, hm1⟩ := scanUpTrace_of_scanUp data p fuel i tr i1 hs1
      obtain ⟨tr2, ht2, _, hm2⟩ := scanDownTrace_of_scanDown data p fuel j tr1 j1 hs2
      have hsub2 : ∀ q ∈ tr2, q ∈ tr ∨ (left ≤ q ∧ q ≤ right) := by
        intro q hq
        rcases (hm2 q).1 hq with h | h
        · rcases (hm1 q).1 h with h' | h'
          · exact Or.inl h'
          · exact Or.inr ⟨by omega, by omega⟩
        · exact Or.inr ⟨by omega, by omega⟩
      have hmono2 : ∀ q ∈ tr, q ∈ tr2 := fun q hq => (hm2 q).2 (Or.inl ((hm1 q).2 (Or.inl hq)))
      have hi2 : i ∈ tr2 := (hm2 i).2 (Or.inl ((hm1 i).2 (Or.inr ⟨le_refl _, a1⟩)))
      have hj2 : j ∈ tr2 := (hm2 j).2 (Or.inr ⟨a4, le_refl _⟩)
      by_cases hij1 : i1 ≤ j1
      · obtain ⟨d, hsw, inv'⟩ := hswap hij1
        obtain ⟨data', i', j', tr', hres, hsub, hmono, _⟩ := ih d (i1 + 1) (j1 - 1) tr2 inv'
          (by push_cast at hf; omega)
        refine ⟨data', i', j', tr', ?_, ?_, fun q hq => hmono q (hmono2 q hq),
          fun _ => ⟨hmono i hi2, hmono j hj2⟩⟩
        · rw [partitionLoopTrace, if_pos hij, ht1, Option.some_bind]
          simp only []
          rw [ht2, Option.some_bind]
          simp only []
          rw [if_pos hij1, hsw, Option.some_bind, hres]
        · intro q hq
          rcases hsub q hq with h | h
          · exact hsub2 q h
          · exact Or.inr h
      · have inv' := hnoswap hij1
        obtain ⟨data', i', j', tr', hres, hsub, hmono, _⟩ := ih data i1 j1 tr2 inv'
          (by push_cast at hf; omega)
        refine ⟨data', i', j', tr', ?_, ?_, fun q hq => hmono q (hmono2 q hq),
          fun _ => ⟨hmono i hi2, hmono j hj2⟩⟩
        · rw [partitionLoopTrace, if_pos hij, ht1, Option.some_bind]
          simp only []
          rw [ht2, Option.some_bind]
          simp only []
          rw [if_neg hij1, hres]
        · intro q hq
          rcases hsub q hq with h | h
          · exact hsub2 q h
          · exact Or.inr h
    · refine ⟨data, i, j, tr, ?_, fun q hq => Or.inl hq, fun q hq => hq, fun h => absurd h hij⟩
      rw [partitionLoopTrace, if_neg hij]

/-- C21 (quicksort scans stay in bounds): for `0 <= left < right < n` and the exact
pivot `p = (key[left] + key[right]) / 2`, the partition loop of `parallelQuicksort`
returns, and every index at which one of its two scans reads `data[i]` or `data[j]`,
in any iteration of the loop, lies in `left .. right`; the scans do read, at `left`
and at `right`.  The traced loop returns what the loop returns. -/
theorem partitionLoop_scans_in_range (data : List CSVData) (left right : Nat)
    (hlr : left < right) (hr : right < data.length) (fuel : Nat)
    (hf : 2 * (right - left + 1) + 2 ≤ fuel) :
    ∃ d i j tr,
      partitionLoopTrace ((key data[left] + key data[right]) / 2) fuel data
          (left : Int) (right : Int) [] = some (d, i, j, tr)
      ∧ partitionLoop ((key data[left] + key data[right]) / 2) fuel data
          (left : Int) (right : Int) = some (d, i, j)
      ∧ (∀ q ∈ tr, (left : Int) ≤ q ∧ q ≤ (right : Int))
      ∧ (left : Int) ∈ tr ∧ (right : Int) ∈ tr := by
  have hl : readAt data (left : Int) = some data[left] := by
    rw [readAt_natCast]; exact List.getElem?_eq_getElem (by omega)
  have hr' : readAt data (right : Int) = some data[right] := by
    rw [readAt_natCast]; exact List.getElem?_eq_getElem hr
  obtain ⟨d, i, j, tr, h1, hsub, _, hmem⟩ := partitionLoopTrace_spec data (left : Int)
    (right : Int) ((key data[left] + key data[right]) / 2) (by omega) (by omega) fuel data
    (left : Int) (right : Int) [] (partInv_init data _ _ _ _ (by omega) hl hr') (by omega)
  refine ⟨d, i, j, tr, h1, ?_, ?_, (hmem (by omega)).1, (hmem (by omega)).2⟩
  · rw [← partitionLoopTrace_fst, h1]
    rfl
  · intro q hq
    rcases hsub q hq with h | h
    · cases h
    · exact h

/-- Witness of C21 on the records with keys 40, 10, 30, 20, range `0 .. 3`. -/
theorem partitionLoop_scans_in_range_witness :
    ∃ d i j tr,
      partitionLoopTrace ((key sampleData[0] + key sampleData[3]) / 2) 10 sampleData
          ((0 : Nat) : Int) ((3 : Nat) : Int) [] = some (d, i, j, tr)
      ∧ partitionLoop ((key sampleData[0] + key sampleData[3]) / 2) 10 sampleData
          ((0 : Nat) : Int) ((3 : Nat) : Int) = some (d, i, j)
      ∧ (∀ q ∈ tr, ((0 : Nat) : Int) ≤ q ∧ q ≤ ((3 : Nat) : Int))
      ∧ ((0 : Nat) : Int) ∈ tr ∧ ((3 : Nat) : Int) ∈ tr :=
  partitionLoop_scans_in_range sampleData 0 3 (by decide) (by decide) 10 (by decide)

/-! ## The bitonic driver: the calls it issues -/

/-- The traced loop returns what `driverLoopI` returns. -/
theorem driverLoopITrace_fst (n k j : Int) :
    ∀ (fuel : Nat) (data : List CSVData) (i : Int) (calls : List (Int × Int)),
      (driverLoopITrace n k j fuel data i calls).map Prod.fst = driverLoopI n k j fuel data i := by
  intro fuel
  induction fuel with
  | zero => intro data i calls; rfl
  | succ f ih =>
    intro data i calls
    rw [driverLoopITrace, driverLoopI]
    by_cases h : i < n
    · rw [if_pos h, if_pos h]
      cases bitonicSort f data i j true with
      | none => rfl
      | some d1 =>
        rw [Option.some_bind, Option.some_bind]
        cases bitonicSort f d1 (i + j) j false with
        | none => rfl
        | some d2 =>
          rw [Option.some_bind, Option.some_bind]
          exact ih _ _ _
    · rw [if_neg h, if_neg h]
      rfl

/-- The traced loop returns what `driverLoopJ` returns. -/
theorem driverLoopJTrace_fst (n k : Int) :
    ∀ (fuel : Nat) (data : List CSVData) (j : Int) (calls : List (Int × Int)),
      (driverLoopJTrace n k fuel data j calls).map Prod.fst = driverLoopJ n k fuel data j := by
  intro fuel
  induction fuel with
  | zero => intro data j calls; rfl
  | succ f ih =>
    intro data j calls
    rw [driverLoopJTrace, driverLoopJ]
    by_cases h : j > 0
    · rw [if_pos h, if_pos h, ← driverLoopITrace_fst n k j f data 0 calls]
      cases driverLoopITrace n k j f data 0 calls with
      | none => rfl
      | some r =>
        obtain ⟨d, calls1⟩ := r
        simp only [Option.some_bind, Option.map_some']
        exact ih _ _ _
    · rw [if_neg h, if_neg h]
      rfl

/-- The traced loop returns what `driverLoopK` returns. -/
theorem driverLoopKTrace_fst (n : Int) :
    ∀ (fuel : Nat) (data : List CSVData) (k : Int) (calls : List (Int × Int)),
      (driverLoopKTrace n fuel data k calls).map Prod.fst = driverLoopK n fuel data k := by
  intro fuel
  induction fuel with
  | zero => intro data k calls; rfl
  | succ f ih =>
    intro data k calls
    rw [driverLoopKTrace, driverLoopK]
    by_cases h : k ≤ n
    · rw [if_pos h, if_pos h, ← driverLoopJTrace_fst n k f data (k.tdiv 2) calls]
      cases driverLoopJTrace n k f data (k.tdiv 2) calls with
      | none => rfl
      | some r =>
        obtain ⟨d, calls1⟩ := r
        simp only [Option.some_bind, Option.map_some']
        exact ih _ _ _
    · rw [if_neg h, if_neg h]
      rfl

/-- The traced driver returns what `bitonicDriver` returns. -/
theorem bitonicDriverTrace_fst (fuel : Nat) (data : List CSVData) :
    (bitonicDriverTrace fuel data).map Prod.fst = bitonicDriver fuel data :=
  driverLoopKTrace_fst _ fuel data 2 []

/-! ## The bitonic driver: a call inside one half keeps both halves -/

theorem sameHalves_refl (h : Nat) (d : List CSVData) : SameHalves h d d :=
  ⟨rfl, List.Perm.refl _, List.Perm.refl _⟩

theorem sameHalves_trans (h : Nat) (d d1 d2 : List CSVData) (h1 : SameHalves h d d1)
    (h2 : SameHalves h d1 d2) : SameHalves h d d2 :=
  ⟨h2.1.trans h1.1, h2.2.1.trans h1.2.1, h2.2.2.trans h1.2.2⟩

/-- A permutation of a collection that changes nothing outside a range lying in one
of the two parts `0 .. h - 1`, `h ..` keeps the records of each part. -/
theorem sameHalves_of_frame (h s l : Nat) (d d' : List CSVData) (hl : d'.length = d.length)
    (hp : d'.Perm d)
    (hf : ∀ q : Int, q < (s : Int) ∨ (s : Int) + (l : Int) ≤ q → readAt d' q = readAt d q)
    (hin : s + l ≤ h ∨ h ≤ s) : SameHalves h d d' := by
  have happ : (d'.take h ++ d'.drop h).Perm (d.take h ++ d.drop h) := by
    rw [List.take_append_drop, List.take_append_drop]; exact hp
  rcases hin with hin | hin
  · have hdrop : d'.drop h = d.drop h := by
      apply List.ext_getElem?
      intro q
      rw [List.getElem?_drop, List.getElem?_drop, ← readAt_natCast, ← readAt_natCast]
      exact hf _ (Or.inr (by omega))
    rw [hdrop] at happ
    exact ⟨hl, (List.perm_append_right_iff _).1 happ, by rw [hdrop]⟩
  · have htake : d'.take h = d.take h := by
      apply List.ext_getElem?
      intro q
      by_cases hq : q < h
      · rw [List.getElem?_take_of_lt hq, List.getElem?_take_of_lt hq, ← readAt_natCast,
          ← readAt_natCast]
        exact hf _ (Or.inl (by omega))
      · rw [List.getElem?_eq_none (by rw [List.length_take]; omega),
          List.getElem?_eq_none (by rw [List.length_take]; omega)]
    rw [htake] at happ
    exact ⟨hl, by rw [htake], (List.perm_append_left_iff _).1 happ⟩

/-- The blocks of the driver: for `n = 2 ^ (m + 1)`, block size `2 ^ t` with
`1 <= t <= m + 1`, stride `2 ^ s` with `s < t` and block number `c`, the two ranges
`c 2^t .. + 2^s` and `c 2^t + 2^s .. + 2^s` lie each in one half of `0 .. n - 1`. -/
theorem block_in_half (m t s c : Nat) (ht : t ≤ m + 1) (hs : s < t)
    (hc : c < 2 ^ (m + 1 - t)) :
    (c * 2 ^ t + 2 ^ s ≤ 2 ^ m ∨ 2 ^ m ≤ c * 2 ^ t)
      ∧ (c * 2 ^ t + 2 ^ s + 2 ^ s ≤ 2 ^ m ∨ 2 ^ m ≤ c * 2 ^ t + 2 ^ s)
      ∧ c * 2 ^ t + 2 ^ s + 2 ^ s ≤ 2 * 2 ^ m ∧ 2 ^ s ≤ 2 ^ m := by
  have hst : 2 ^ s + 2 ^ s ≤ 2 ^ t := by
    have h1 : 2 ^ (s + 1) ≤ 2 ^ t := Nat.pow_le_pow_right (by decide) hs
    have h2 : 2 ^ (s + 1) = 2 ^ s + 2 ^ s := by ring
    omega
  have hspos : 1 ≤ 2 ^ s := Nat.one_le_two_pow
  by_cases htm : t ≤ m
  · have hH : 2 ^ m = 2 ^ (m - t) * 2 ^ t := by
      rw [← pow_add]; congr 1; omega
    have hN : 2 ^ (m + 1 - t) = 2 * 2 ^ (m - t) := by
      rw [show m + 1 - t = (m - t) + 1 by omega, pow_succ]; ring
    by_cases hcH : c < 2 ^ (m - t)
    · have h1 : (c + 1) * 2 ^ t ≤ 2 ^ (m - t) * 2 ^ t := Nat.mul_le_mul_right _ hcH
      have h2 : (c + 1) * 2 ^ t = c * 2 ^ t + 2 ^ t := by ring
      rw [← hH] at h1
      exact ⟨Or.inl (by omega), Or.inl (by omega), by omega, by omega⟩
    · have h1 : 2 ^ (m - t) * 2 ^ t ≤ c * 2 ^ t := Nat.mul_le_mul_right _ (by omega)
      have h3 : (c + 1) * 2 ^ t ≤ (2 * 2 ^ (m - t)) * 2 ^ t :=
        Nat.mul_le_mul_right _ (by omega)
      have h2 : (c + 1) * 2 ^ t = c * 2 ^ t + 2 ^ t := by ring
      have h4 : (2 * 2 ^ (m - t)) * 2 ^ t = 2 * 2 ^ m := by rw [hH]; ring
      rw [← hH] at h1
      have hsm : 2 ^ s ≤ 2 ^ m := Nat.pow_le_pow_right (by decide) (by omega)
      exact ⟨Or.inr h1, Or.inr (by omega), by omega, hsm⟩
  · have htm' : t = m + 1 := by omega
    subst htm'
    have hc0 : c = 0 := by
      rw [Nat.sub_self, pow_zero] at hc
      omega
    subst hc0
    have hsm : 2 ^ s ≤ 2 ^ m := Nat.pow_le_pow_right (by decide) (by omega)
    have ht2 : 2 ^ (m + 1) = 2 * 2 ^ m := by ring
    rw [Nat.zero_mul]
    refine ⟨Or.inl (by omega), ?_, by omega, hsm⟩
    by_cases hsm' : s = m
    · subst hsm'
      exact Or.inr (by omega)
    · have h1 : 2 ^ (s + 1) ≤ 2 ^ m := Nat.pow_le_pow_right (by decide) (by omega)
      have h2 : 2 ^ (s + 1) = 2 ^ s + 2 ^ s := by ring
      exact Or.inl (by omega)

/-! ## The bitonic driver on a collection of length `2 ^ (m + 1)` -/

/-- The loop `for (i = 0; i < n; i += k)` of the driver from block number `c`, with
`n = N k = 2 h`, stride `2 ^ s`, and every block splitting into two ranges that lie
each in one half: it returns, keeps both halves, and issues only calls on ranges
inside one half. -/
theorem driverLoopITrace_spec (n h k s N : Nat) (hn : n = 2 * h) (hk : 0 < k) (hN : n = N * k)
    (hgood : ∀ c : Nat, c < N →
      (c * k + 2 ^ s ≤ h ∨ h ≤ c * k) ∧ (c * k + 2 ^ s + 2 ^ s ≤ h ∨ h ≤ c * k + 2 ^ s)
        ∧ c * k + 2 ^ s + 2 ^ s ≤ n ∧ 2 ^ s ≤ h) :
    ∀ (r c fuel : Nat) (data : List CSVData) (calls : List (Int × Int)),
      c + r = N → r + s + 3 ≤ fuel → data.length = n →
      ∃ d' calls', driverLoopITrace (n : Int) (k : Int) ((2 ^ s : Nat) : Int) fuel data
            ((c * k : Nat) : Int) calls = some (d', calls')
        ∧ SameHalves h data d'
        ∧ (∀ x ∈ calls', x ∈ calls ∨ InOneHalf (n : Int) x)
        ∧ (∀ x ∈ calls, x ∈ calls')
        ∧ (0 < r → (((c * k : Nat) : Int), ((2 ^ s : Nat) : Int)) ∈ calls') := by
  intro r
  induction r with
  | zero =>
    intro c fuel data calls hc hf hlen
    obtain ⟨f, rfl⟩ : ∃ f, fuel = f + 1 := ⟨fuel - 1, by omega⟩
    have hcN : c = N := by omega
    subst hcN
    refine ⟨data, calls, ?_, sameHalves_refl _ _, fun x hx => Or.inl hx, fun x hx => hx,
      fun h0 => absurd h0 (by omega)⟩
    rw [driverLoopITrace, if_neg (by rw [hN]; omega)]
  | succ r ih =>
    intro c fuel data calls hc hf hlen
    obtain ⟨f, rfl⟩ : ∃ f, fuel = f + 1 := ⟨fuel - 1, by omega⟩
    have hcN : c < N := by omega
    obtain ⟨g1, g2, g3, g4⟩ := hgood c hcN
    have hspos : 1 ≤ 2 ^ s := Nat.one_le_two_pow
    have hck : c * k < N * k := Nat.mul_lt_mul_of_pos_right hcN hk
    have hsucc : (c + 1) * k = c * k + k := by ring
    -- the two calls
    obtain ⟨d1, e1, l1, p1, f1, _⟩ := bitonicSort_spec s f data (c * k) true
      (by omega) (by omega)
    obtain ⟨d2, e2, l2, p2, f2, _⟩ := bitonicSort_spec s f d1 (c * k + 2 ^ s) false
      (by omega) (by omega)
    have hcast : (((c * k + 2 ^ s : Nat)) : Int)
        = ((c * k : Nat) : Int) + ((2 ^ s : Nat) : Int) := Nat.cast_add _ _
    rw [hcast] at e2
    have hh1 : SameHalves h data d1 :=
      sameHalves_of_frame h (c * k) (2 ^ s) data d1 l1 p1 f1 (by omega)
    have hh2 : SameHalves h d1 d2 :=
      sameHalves_of_frame h (c * k + 2 ^ s) (2 ^ s) d1 d2 l2 p2 f2 (by omega)
    obtain ⟨d', calls', hres, hh, hsub, hmono, _⟩ := ih (c + 1) f d2
      ((((c * k : Nat) : Int) + ((2 ^ s : Nat) : Int), ((2 ^ s : Nat) : Int))
        :: (((c * k : Nat) : Int), ((2 ^ s : Nat) : Int)) :: calls)
      (by omega) (by omega) (by omega)
    have hnext : (((c + 1) * k : Nat) : Int) = ((c * k : Nat) : Int) + (k : Int) := by
      rw [hsucc]; exact Nat.cast_add _ _
    rw [hnext] at hres
    refine ⟨d', calls', ?_, sameHalves_trans h _ _ _ (sameHalves_trans h _ _ _ hh1 hh2) hh,
      ?_, ?_, ?_⟩
    · rw [driverLoopITrace, if_pos (by omega), e1, Option.some_bind, e2, Option.some_bind,
        hres]
    · intro x hx
      rcases hsub x hx with hx' | hx'
      · rw [List.mem_cons, List.mem_cons] at hx'
        rcases hx' with hx' | hx' | hx'
        · right
          rw [hx']
          refine ⟨by simp only []; omega, by simp only []; omega, ?_⟩
          simp only []
          rcases g2 with g | g
          · exact Or.inl ⟨by omega, by omega⟩
          · exact Or.inr ⟨by omega, by omega⟩
        · right
          rw [hx']
          refine ⟨by simp only []; omega, by simp only []; omega, ?_⟩
          simp only []
          rcases g1 with g | g
          · exact Or.inl ⟨by omega, by omega⟩
          · exact Or.inr ⟨by omega, by omega⟩
        · exact Or.inl hx'
      · exact Or.inr hx'
    · intro x hx
      exact hmono x (List.mem_cons_of_mem _ (List.mem_cons_of_mem _ hx))
    · intro _
      exact hmono _ (List.mem_cons_of_mem _ (List.mem_cons_self _ _))

theorem tdiv_two_pow_succ (s : Nat) :
    (((2 ^ (s + 1) : Nat) : Int)).tdiv 2 = ((2 ^ s : Nat) : Int) := by
  rw [tdiv_two_natCast]
  congr 1
  rw [pow_succ]
  omega

/-- The loop `for (j = ...; j > 0; j /= 2)` of the driver from `j = 2 ^ s`, under
the hypotheses of `driverLoopITrace_spec` for every stride `2 ^ s'` with `s' <= s`. -/
theorem driverLoopJTrace_spec (n h k N : Nat) (hn : n = 2 * h) (hk : 0 < k) (hN : n = N * k)
    (hNpos : 0 < N) :
    ∀ (s : Nat),
      (∀ s' : Nat, s' ≤ s → ∀ c : Nat, c < N →
        (c * k + 2 ^ s' ≤ h ∨ h ≤ c * k) ∧ (c * k + 2 ^ s' + 2 ^ s' ≤ h ∨ h ≤ c * k + 2 ^ s')
          ∧ c * k + 2 ^ s' + 2 ^ s' ≤ n ∧ 2 ^ s' ≤ h) →
      ∀ (fuel : Nat) (data : List CSVData) (calls : List (Int × Int)),
        N + 2 * s + 5 ≤ fuel → data.length = n →
        ∃ d' calls', driverLoopJTrace (n : Int) (k : Int) fuel data ((2 ^ s : Nat) : Int) calls
              = some (d', calls')
          ∧ SameHalves h data d'
          ∧ (∀ x ∈ calls', x ∈ calls ∨ InOneHalf (n : Int) x)
          ∧ (∀ x ∈ calls, x ∈ calls')
          ∧ ((0 : Int), ((2 ^ s : Nat) : Int)) ∈ calls' := by
  intro s
  induction s with
  | zero =>
    intro hgood fuel data calls hf hlen
    obtain ⟨f, rfl⟩ : ∃ f, fuel = f + 1 := ⟨fuel - 1, by omega⟩
    obtain ⟨d1, calls1, hres, hh, hsub, hmono, hfirst⟩ :=
      driverLoopITrace_spec n h k 0 N hn hk hN (hgood 0 (le_refl _)) N 0 f data calls
        (by omega) (by omega) hlen
    rw [Nat.zero_mul, Nat.cast_zero] at hres hfirst
    obtain ⟨f', hf'⟩ : ∃ f', f = f' + 1 := ⟨f - 1, by omega⟩
    refine ⟨d1, calls1, ?_, hh, hsub, hmono, hfirst hNpos⟩
    rw [driverLoopJTrace, if_pos (by simp), hres, Option.some_bind]
    simp only []
    rw [hf', driverLoopJTrace, if_neg (by decide)]
  | succ s ih =>
    intro hgood fuel data calls hf hlen
    obtain ⟨f, rfl⟩ : ∃ f, fuel = f + 1 := ⟨fuel - 1, by omega⟩
    have hspos : 1 ≤ 2 ^ (s + 1) := Nat.one_le_two_pow
    obtain ⟨d1, calls1, hres, hh, hsub, hmono, hfirst⟩ :=
      driverLoopITrace_spec n h k (s + 1) N hn hk hN (hgood (s + 1) (le_refl _)) N 0 f data
        calls (by omega) (by omega) hlen
    rw [Nat.zero_mul, Nat.cast_zero] at hres hfirst
    obtain ⟨d2, calls2, hres2, hh2, hsub2, hmono2, _⟩ :=
      ih (fun s' hs' => hgood s' (by omega)) f d1 calls1 (by omega) (by rw [hh.1, hlen])
    refine ⟨d2, calls2, ?_, sameHalves_trans h _ _ _ hh hh2, ?_,
      fun x hx => hmono2 x (hmono x hx), hmono2 _ (hfirst hNpos)⟩
    · rw [driverLoopJTrace, if_pos (by omega), hres, Option.some_bind]
      simp only []
      rw [tdiv_two_pow_succ, hres2]
    · intro x hx
      rcases hsub2 x hx with hx' | hx'
      · exact hsub x hx'
      · exact Or.inr hx'

/-- The loop `for (k = ...; k <= n; k *= 2)` of the driver on a collection of length
`n = 2 ^ (m + 1)`, from `k = 2 ^ t` with `1 <= t`: it returns, keeps both halves
`0 .. 2^m - 1` and `2^m .. n - 1`, and issues only calls on ranges inside one half. -/
theorem driverLoopKTrace_spec (m : Nat) :
    ∀ (u t fuel : Nat) (data : List CSVData) (calls : List (Int × Int)),
      1 ≤ t → t + u = m + 2 → 2 ^ (m + 1) + 2 * m + 7 + u ≤ fuel →
      data.length = 2 ^ (m + 1) →
      ∃ d' calls', driverLoopKTrace ((2 ^ (m + 1) : Nat) : Int) fuel data ((2 ^ t : Nat) : Int)
            calls = some (d', calls')
        ∧ SameHalves (2 ^ m) data d'
        ∧ (∀ x ∈ calls', x ∈ calls ∨ InOneHalf ((2 ^ (m + 1) : Nat) : Int) x)
        ∧ (∀ x ∈ calls, x ∈ calls')
        ∧ (0 < u → ((0 : Int), ((2 ^ (t - 1) : Nat) : Int)) ∈ calls') := by
  intro u
  induction u with
  | zero =>
    intro t fuel data calls ht1 htu hf hlen
    obtain ⟨f, rfl⟩ : ∃ f, fuel = f + 1 := ⟨fuel - 1, by omega⟩
    have ht : t = m + 2 := by omega
    subst ht
    refine ⟨data, calls, ?_, sameHalves_refl _ _, fun x hx => Or.inl hx, fun x hx => hx,
      fun h0 => absurd h0 (by omega)⟩
    have h1 : 2 ^ (m + 2) = 2 * 2 ^ (m + 1) := by ring
    have h2 : 1 ≤ 2 ^ (m + 1) := Nat.one_le_two_pow
    rw [driverLoopKTrace, if_neg (by omega)]
  | succ u ih =>
    intro t fuel data calls ht1 htu hf hlen
    obtain ⟨f, rfl⟩ : ∃ f, fuel = f + 1 := ⟨fuel - 1, by omega⟩
    obtain ⟨t', rfl⟩ : ∃ t', t = t' + 1 := ⟨t - 1, by omega⟩
    have htm : t' + 1 ≤ m + 1 := by omega
    have hkn : 2 ^ (t' + 1) ≤ 2 ^ (m + 1) := Nat.pow_le_pow_right (by decide) htm
    have hkpos : 0 < 2 ^ (t' + 1) := Nat.one_le_two_pow
    have hNk : 2 ^ (m + 1) = 2 ^ (m + 1 - (t' + 1)) * 2 ^ (t' + 1) := by
      rw [← pow_add]; congr 1; omega
    have hNpos : 0 < 2 ^ (m + 1 - (t' + 1)) := Nat.one_le_two_pow
    have hNle : 2 ^ (m + 1 - (t' + 1)) ≤ 2 ^ (m + 1) :=
      Nat.pow_le_pow_right (by decide) (by omega)
    have hn2 : 2 ^ (m + 1) = 2 * 2 ^ m := by ring
    obtain ⟨d1, calls1, hres, hh, hsub, hmono, hfirst⟩ :=
      driverLoopJTrace_spec (2 ^ (m + 1)) (2 ^ m) (2 ^ (t' + 1)) (2 ^ (m + 1 - (t' + 1)))
        hn2 hkpos hNk hNpos t'
        (by
          intro s' hs' c hc
          have := block_in_half m (t' + 1) s' c htm (by omega) hc
          rw [hn2]
          exact this)
        f data calls (by omega) hlen
    obtain ⟨d2, calls2, hres2, hh2, hsub2, hmono2, _⟩ :=
      ih (t' + 2) f d1 calls1 (by omega) (by omega) (by omega) (by rw [hh.1, hlen])
    have hk2 : ((2 ^ (t' + 1) : Nat) : Int) * 2 = ((2 ^ (t' + 2) : Nat) : Int) := by
      rw [pow_succ_cast (t' + 1)]; ring
    refine ⟨d2, calls2, ?_, sameHalves_trans _ _ _ _ hh hh2, ?_,
      fun x hx => hmono2 x (hmono x hx), fun _ => ?_⟩
    · rw [driverLoopKTrace, if_pos (by omega), tdiv_two_pow_succ, hres, Option.some_bind]
      simp only []
      rw [hk2, hres2]
    · intro x hx
      rcases hsub2 x hx with hx' | hx'
      · exact hsub x hx'
      · exact Or.inr hx'
    · rw [Nat.add_sub_cancel]
      exact hmono2 _ hfirst

theorem eq_of_sameHalves_two (d d' : List CSVData) (hd : d.length = 2)
    (h : SameHalves 1 d d') : d' = d := by
  obtain ⟨hl, ht, hr⟩ := h
  match d, hd, d', hl, ht, hr with
  | [a, b], _, [x, y], _, ht, hr =>
    have e1 : x = a := by simpa using ht
    have e2 : y = b := by simpa using hr
    rw [e1, e2]

/-- C22 (the bitonic driver never crosses the midpoint): on a collection whose
length `n` is `2 ^ m` with `m >= 1` the driver loop of `main` returns, and every call
of `bitonicSort` it issues is on a range of at most `n / 2` positions that lies inside
`0 .. n/2 - 1` or inside `n/2 .. n - 1` (the first call, on `(0, 1)`, is one of them);
so after the driver positions `0 .. n/2 - 1` hold the records they held before, and so
do positions `n/2 .. n - 1`; for `n = 2` the collection is unchanged.  The traced
driver returns what the driver returns. -/
theorem bitonicDriver_halves (m : Nat) (data : List CSVData) (hm : 1 ≤ m)
    (hn : data.length = 2 ^ m) (fuel : Nat) (hf : data.length + 3 * m + 5 ≤ fuel) :
    ∃ d calls, bitonicDriverTrace fuel data = some (d, calls)
      ∧ bitonicDriver fuel data = some d
      ∧ (∀ c ∈ calls, InOneHalf (data.length : Int) c)
      ∧ ((0 : Int), (1 : Int)) ∈ calls
      ∧ d.length = data.length
      ∧ (d.take (data.length / 2)).Perm (data.take (data.length / 2))
      ∧ (d.drop (data.length / 2)).Perm (data.drop (data.length / 2))
      ∧ (data.length = 2 → d = data) := by
  obtain ⟨m', rfl⟩ : ∃ m', m = m' + 1 := ⟨m - 1, by omega⟩
  obtain ⟨d, calls, hres, hh, hsub, _, hfirst⟩ :=
    driverLoopKTrace_spec m' (m' + 1) 1 fuel data [] (le_refl _) (by omega)
      (by rw [← hn]; omega) hn
  have hhalf : data.length / 2 = 2 ^ m' := by
    rw [hn, pow_succ]; omega
  have h2 : ((2 ^ 1 : Nat) : Int) = 2 := by norm_num
  have h1 : ((2 ^ (1 - 1) : Nat) : Int) = 1 := by norm_num
  rw [h2, ← hn] at hres
  rw [h1] at hfirst
  have hres' : bitonicDriverTrace fuel data = some (d, calls) := hres
  refine ⟨d, calls, hres', ?_, ?_, hfirst (by omega), hh.1, ?_, ?_, ?_⟩
  · rw [← bitonicDriverTrace_fst, hres']
    rfl
  · intro c hc
    rcases hsub c hc with h | h
    · cases h
    · rw [hn]; exact h
  · rw [hhalf]; exact hh.2.1
  · rw [hhalf]; exact hh.2.2
  · intro h2len
    have hm0 : m' = 0 := by
      rw [h2len] at hn
      by_contra hne
      have : 2 ^ 2 ≤ 2 ^ (m' + 1) := Nat.pow_le_pow_right (by decide) (by omega)
      omega
    subst hm0
    exact eq_of_sameHalves_two data d h2len hh

/-- Witness of C22 on the four records with keys 40, 10, 30, 20, with the calls the
driver issues on them (latest first). -/
theorem bitonicDriver_halves_witness :
    bitonicDriverTrace 8 sampleData
        = some ([mkRecord "b" 10, mkRecord "a" 40, mkRecord "c" 30, mkRecord "d" 20],
            [(1, 1), (0, 1), (2, 2), (0, 2), (3, 1), (2, 1), (1, 1), (0, 1)])
      ∧ ∃ d calls, bitonicDriverTrace 15 sampleData = some (d, calls)
        ∧ bitonicDriver 15 sampleData = some d
        ∧ (∀ c ∈ calls, InOneHalf (sampleData.length : Int) c)
        ∧ ((0 : Int), (1 : Int)) ∈ calls
        ∧ d.length = sampleData.length
        ∧ (d.take (sampleData.length / 2)).Perm (sampleData.take (sampleData.length / 2))
        ∧ (d.drop (sampleData.length / 2)).Perm (sampleData.drop (sampleData.length / 2))
        ∧ (sampleData.length = 2 → d = sampleData) :=
  ⟨by decide, bitonicDriver_halves 2 sampleData (by decide) (by decide) 15 (by decide)⟩

/-! ## Bitonic sort: equal keys, the merge with `direction = true` -/

/-- On a collection whose keys are all equal, `bitonicMerge` with `direction = true`
on a range inside the collection returns, with the collection unchanged. -/
theorem bitonicMerge_equal_total (data : List CSVData)
    (hall : ∀ x ∈ data, ∀ y ∈ data, key x = key y) :
    ∀ (fuel start len : Nat), start + len ≤ data.length → len + 1 ≤ fuel →
      bitonicMerge fuel data (start : Int) (len : Int) true = some data := by
  intro fuel
  induction fuel with
  | zero => intro start len _ hf; omega
  | succ f ih =>
    intro start len hlen hf
    rw [bitonicMerge]
    by_cases hl : (len : Int) > 1
    · rw [if_pos hl]
      simp only [tdiv_two_natCast]
      obtain ⟨d0, e0, _⟩ := bitonicMergeLoop_spec data (start : Int) (len / 2) true (by omega)
        (by omega)
      have hd0 : d0 = data := by
        refine foldlM_some_inv _ (fun b => b = data) ?_ _ _ _ e0 rfl
        intro b t b' hb hP
        rw [hP] at hb
        exact compareSwap_equal_true data b' _ _ hall hb
      rw [hd0] at e0
      have h1 := ih start (len / 2) (by omega) (by omega)
      have h2 := ih (start + len / 2) (len / 2) (by omega) (by omega)
      rw [Nat.cast_add] at h2
      rw [e0, Option.some_bind, h1, Option.some_bind, h2]
    · rw [if_neg hl]

/-- C18, amended (bitonic tie-break): in `bitonicMerge` a compared pair
`(data[i], data[i + k])` with equal keys is left in place when `direction = true` and is
swapped when `direction = false`; consequently `bitonicMerge` with `direction = true`, on
any range inside a collection whose keys are all equal, returns (with `length + 1` units
of fuel) and leaves the collection unchanged, record for record. -/
theorem bitonicMerge_ties (data : List CSVData) :
    (∀ (i k : Int) (a b : CSVData), readAt data i = some a → readAt data (i + k) = some b →
        key a = key b →
        compareSwap data i k true = some data
          ∧ compareSwap data i k false = swapAt data i (i + k))
      ∧ ((∀ x ∈ data, ∀ y ∈ data, key x = key y) →
          ∀ (fuel start len : Nat), start + len ≤ data.length → len + 1 ≤ fuel →
            bitonicMerge fuel data (start : Int) (len : Int) true = some data) := by
  constructor
  · intro i k a b ha hb hk
    constructor
    · rw [compareSwap, ha, Option.some_bind, hb, Option.some_bind, if_neg (by simp [hk])]
    · rw [compareSwap, ha, Option.some_bind, hb, Option.some_bind, if_pos (by simp [hk])]
  · intro hall fuel start len hlen hf
    exact bitonicMerge_equal_total data hall fuel start len hlen hf

/-- Witness of the amended C18: the pair at the indices 0 and 3 of the keys 3, 0, 7, 3
(equal keys in a collection whose keys are not all equal), and the merge of four
records with the same key. -/
theorem bitonicMerge_ties_witness :
    (compareSwap mixedSample 0 3 true = some mixedSample
        ∧ compareSwap mixedSample 0 3 false = swapAt mixedSample 0 (0 + 3))
      ∧ bitonicMerge 5 fourTies ((0 : Nat) : Int) ((4 : Nat) : Int) true = some fourTies :=
  ⟨(bitonicMerge_ties mixedSample).1 0 3 (mkRecord "a" 3) (mkRecord "d" 3) (by decide)
      (by decide) (by decide),
    (bitonicMerge_ties fourTies).2 (by decide) 5 0 4 (by decide) (by decide)⟩

/-! ## The sequential baseline -/

/-- Insertion sort by key does what is required of `std::sort`: its result is a
rearrangement of the list in ascending key order. -/
theorem sortByKey_sorts (l : List CSVData) : (sortByKey l).Perm l ∧ Ascending (sortByKey l) := by
  haveI : IsTotal CSVData (fun a b => key a ≤ key b) := ⟨fun a b => le_total (key a) (key b)⟩
  haveI : IsTrans CSVData (fun a b => key a ≤ key b) := ⟨fun a b c h1 h2 => le_trans h1 h2⟩
  exact ⟨List.perm_insertionSort _ l, List.sorted_insertionSort _ l⟩

/-- A rearrangement in ascending key order of a list whose keys are strictly
ascending is the list. -/
theorem sorted_of_strict (sorted d : List CSVData) (hp : sorted.Perm d) (ha : Ascending sorted)
    (hd : StrictAscending d) : sorted = d := by
  have hd' : Ascending d := hd.imp (fun h => le_of_lt h)
  exact eq_of_map_key_eq_strict _ _ hp (map_key_eq_of_perm_ascending _ _ hp ha hd') hd

theorem strict_of_ascending_nodup (d : List CSVData) (ha : Ascending d)
    (hn : (d.map key).Nodup) : StrictAscending d := by
  have hne : d.Pairwise (fun a b => key a ≠ key b) := List.pairwise_map.1 hn
  exact (ha.and hne).imp (fun h => lt_of_le_of_ne h.1 h.2)

theorem strict_of_bucket_nodup (d : List CSVData) (h0 : ∀ x ∈ d, 0 ≤ key x)
    (ha : d.Pairwise (fun a b => bucket a ≤ bucket b)) (hn : (d.map bucket).Nodup) :
    StrictAscending d := by
  have hne : d.Pairwise (fun a b => bucket a ≠ bucket b) := List.pairwise_map.1 hn
  have hlt : d.Pairwise (fun a b => bucket a < bucket b) :=
    (ha.and hne).imp (fun h => lt_of_le_of_ne h.1 h.2)
  refine List.Pairwise.imp_of_mem ?_ hlt
  intro a b _ hb h
  by_contra hc
  have := truncInt_mono (key b) (key a) (h0 b hb) (not_lt.1 hc)
  have h' : truncInt (key a) < truncInt (key b) := h
  omega

/-- C12, as stated, fails in the rank-sort program: on the keys 3/2 and 1 the
engine leaves the records in the order `a`, `b` (both keys truncate to 1), and
`std::sort`, which runs on the same collection, must put `b` first: whatever function
meets the requirements on `std::sort`, the program prints `b`, `a`, not the sequence
the engine left.  Insertion sort is such a function. -/
theorem baseline_rank_counterexample :
    (∀ d ∈ fractionSample, 0 ≤ key d ∧ key d < 2147483647)
      ∧ rankSortInOrder fractionSample [1, 0]
          = some [mkRecord "a" (3 / 2), mkRecord "b" 1]
      ∧ (∀ stdSort : List CSVData → List CSVData,
          (∀ l, (stdSort l).Perm l ∧ Ascending (stdSort l)) →
          rankMain stdSort [1, 0] fractionSample
            = some [mkRecord "b" 1, mkRecord "a" (3 / 2)])
      ∧ rankMain sortByKey [1, 0] fractionSample
          = some [mkRecord "b" 1, mkRecord "a" (3 / 2)]
      ∧ [mkRecord "b" 1, mkRecord "a" (3 / 2)] ≠ [mkRecord "a" (3 / 2), mkRecord "b" 1] := by
  have e : (3 / 2 : ℚ) = mkRat 3 2 := by norm_num [Rat.mkRat_eq_div]
  have h1 : ∀ d ∈ fractionSample, 0 ≤ key d ∧ key d < 2147483647 := by
    simp only [fractionSample, e]; decide
  have h2 : rankSortInOrder fractionSample [1, 0]
      = some [mkRecord "a" (3 / 2), mkRecord "b" 1] := by
    simp only [fractionSample, e]; decide
  have hstrict : StrictAscending [mkRecord "b" 1, mkRecord "a" (3 / 2)] := by
    simp only [StrictAscending, e]; decide
  have hall : ∀ stdSort : List CSVData → List CSVData,
      (∀ l, (stdSort l).Perm l ∧ Ascending (stdSort l)) →
      rankMain stdSort [1, 0] fractionSample = some [mkRecord "b" 1, mkRecord "a" (3 / 2)] := by
    intro stdSort hsort
    obtain ⟨hp, ha⟩ := hsort [mkRecord "a" (3 / 2), mkRecord "b" 1]
    rw [rankMain, h2, Option.map_some']
    congr 1
    exact sorted_of_strict _ _ (hp.trans (List.Perm.swap _ _ _)) ha hstrict
  refine ⟨h1, h2, hall, hall sortByKey sortByKey_sorts, ?_⟩
  simp only [e]; decide

/-- C12, amended (the baseline sorts the engine's collection in place): `std::sort`
runs on the collection the engine worked on, and it finds nothing to change where the
engine left the keys strictly ascending.  For every function `stdSort` that returns a
rearrangement in ascending key order: in the quicksort program, on every input whose
keys are pairwise distinct, the sequence printed is the sequence
`parallelQuicksort(data, 0, n - 1)` left; in the rank-sort program, on every input whose
keys are non-negative and below 2147483647 with pairwise distinct truncations, and for
every order of the placement iterations, the sequence printed is the sequence the
rank-sort passes left. -/
theorem baseline_keeps_sorted (stdSort : List CSVData → List CSVData)
    (hsort : ∀ l, (stdSort l).Perm l ∧ Ascending (stdSort l)) (data : List CSVData) :
    ((data.map key).Nodup → ∀ fuel : Nat, 2 * data.length + 3 ≤ fuel →
        ∃ d, parallelQuicksort fuel data 0 ((data.length : Int) - 1) = some d
          ∧ quickMain stdSort fuel data = some d)
      ∧ ((∀ d ∈ data, 0 ≤ key d ∧ key d < 2147483647) → (data.map bucket).Nodup →
          ∀ order : List Nat, order.Perm (List.range data.length) →
          ∃ d, rankSortInOrder data order = some d
            ∧ rankMain stdSort order data = some d) := by
  constructor
  · intro hn fuel hf
    obtain ⟨seg', h1, h2, h3⟩ := parallelQuicksort_spec fuel [] data [] 0
      ((data.length : Int) - 1) (by simp) (by omega) hf
    have h1' : parallelQuicksort fuel data 0 ((data.length : Int) - 1) = some seg' := by
      simpa using h1
    have hstrict : StrictAscending seg' :=
      strict_of_ascending_nodup seg' h3 ((h2.map key).nodup_iff.2 hn)
    refine ⟨seg', h1', ?_⟩
    rw [quickMain, h1', Option.map_some']
    congr 1
    exact sorted_of_strict _ _ (hsort seg').1 (hsort seg').2 hstrict
  · intro hk hn order ho
    obtain ⟨st, hs, hperm, hasc, _⟩ := rankPlaceInOrder_spec data hk order ho
    have hout : rankSortInOrder data order = some st.sortedData := by
      rw [rankSortInOrder_eq, hs]; rfl
    have hstrict : StrictAscending st.sortedData :=
      strict_of_bucket_nodup _ (fun x hx => (hk x (hperm.subset hx)).1) hasc
        ((hperm.map bucket).nodup_iff.2 hn)
    refine ⟨st.sortedData, hout, ?_⟩
    rw [rankMain, hout, Option.map_some']
    congr 1
    exact sorted_of_strict _ _ (hsort _).1 (hsort _).2 hstrict

/-- Witness of the amended C12 with insertion sort for `std::sort`, on the keys
40, 10, 30, 20: the quicksort program, and the rank-sort program with the placement
iterations in the order 0, 1, 2, 3. -/
theorem baseline_keeps_sorted_witness :
    (∃ d, parallelQuicksort 11 sampleData 0 ((sampleData.length : Int) - 1) = some d
        ∧ quickMain sortByKey 11 sampleData = some d)
      ∧ (∃ d, rankSortInOrder sampleData [0, 1, 2, 3] = some d
        ∧ rankMain sortByKey [0, 1, 2, 3] sampleData = some d) :=
  ⟨(baseline_keeps_sorted sortByKey sortByKey_sorts sampleData).1 (by decide) 11 (by decide),
    (baseline_keeps_sorted sortByKey sortByKey_sorts sampleData).2 (by decide) (by decide)
      [0, 1, 2, 3] (by decide)⟩

end SEO
